import Mathlib

/-!
# Chunked deque of `src/Deque.h`

A shallow embedding of `template <typename T> class Deque`: the free store is an explicit
component of the state, block pointers are handles into it, and every member function is a
total function returning an `Outcome`: normal return, a propagated C++ exception together
with the object as the exception leaves it, or undefined behaviour (a subscript outside the
block directory, a slot outside a block, a released block, a read of a slot that holds no
element).

Integer fields are modelled by `Int`.  A slot access outside `[0, 16)` is undefined, so the
`int8_t` counters stay within `[0, 16]` wherever behaviour is defined, and `size_` changes by
one per call, so no wrap-around is reachable; `/` and `%` of the source are `Int.tdiv` and
`Int.tmod`.
-/

namespace CppLibrary

/-! ## The free store -/

/-- A block pointer `T*`: `none` is `nullptr`, `some a` the block with handle `a`. -/
abbrev Ptr := Option Nat

/-- A block: `kSubVectorSize` slots of raw storage, `none` for a slot holding no element. -/
abbrev Block (T : Type) := List (Option T)

/-- The free store: entry `a` is the block with handle `a`, `none` once released. -/
abbrev Heap (T : Type) := List (Option (Block T))

/-- Capacity of a block, `static constexpr int8_t kSubVectorSize = 16`. -/
def kSubVectorSize : Int := 16

/-- Member function `Allocate()`: a fresh block of `kSubVectorSize` empty slots. -/
def Allocate {T : Type} (h : Heap T) : Ptr × Heap T :=
  (some h.length, h ++ [some (List.replicate 16 none)])

/-- Member function `Dealloc(data)`: `delete[]` of a block; `none` (undefined behaviour) unless `data` is
`nullptr` or a block that is currently held. -/
def Dealloc {T : Type} (h : Heap T) (data : Ptr) : Option (Heap T) :=
  match data with
  | none => some h
  | some a =>
    match h[a]? with
    | some (some _) => some (h.set a none)
    | _ => none

/-- The block behind a pointer, when it is a held block. -/
def blockAt {T : Type} (h : Heap T) (p : Ptr) : Option (Block T) :=
  match p with
  | none => none
  | some a =>
    match h[a]? with
    | some (some b) => some b
    | _ => none

/-- Number of live slots (constructed and not yet destroyed) of a block handle; a null or
released handle has none. -/
def live_in {T : Type} (h : Heap T) (p : Ptr) : Nat :=
  match blockAt h p with
  | some b => (b.filter Option.isSome).length
  | none => 0

/-- Placement construction `new (p + j) T(v)`: needs a held block and `0 ≤ j < 16`. -/
def construct {T : Type} (h : Heap T) (p : Ptr) (j : Int) (v : T) : Option (Heap T) :=
  match p, blockAt h p with
  | some a, some b =>
    if 0 ≤ j ∧ j < kSubVectorSize then some (h.set a (some (b.set j.toNat (some v)))) else none
  | _, _ => none

/-- Destructor call `(p + j)->~T()`: needs a held block, `0 ≤ j < 16` and an element in the
slot. -/
def destroy {T : Type} (h : Heap T) (p : Ptr) (j : Int) : Option (Heap T) :=
  match p, blockAt h p with
  | some a, some b =>
    if 0 ≤ j ∧ j < kSubVectorSize then
      match b[j.toNat]? with
      | some (some _) => some (h.set a (some (b.set j.toNat none)))
      | _ => none
    else none
  | _, _ => none

/-- Reading `p[j]`: needs a held block, `0 ≤ j < 16` and an element in the slot. -/
def load {T : Type} (h : Heap T) (p : Ptr) (j : Int) : Option T :=
  match blockAt h p with
  | some b => if 0 ≤ j ∧ j < kSubVectorSize then (b[j.toNat]?).join else none
  | none => none

/-! ## `std::vector<T*>` subscripts -/

/-- Subscript `v[i]` of a vector; `none` when `i` is outside `[0, v.size())`. -/
def vecAt {α : Type} (v : List α) (i : Int) : Option α :=
  if 0 ≤ i then v[i.toNat]? else none

/-- Assignment `v[i] = a`; `none` when `i` is outside `[0, v.size())`. -/
def vecSet {α : Type} (v : List α) (i : Int) (a : α) : Option (List α) :=
  if 0 ≤ i ∧ i.toNat < v.length then some (v.set i.toNat a) else none

/-! ## The object -/

/-- Data members of `Deque<T>`, with the free store its blocks live in. -/
structure Deque (T : Type) where
  size_ : Int
  front_offset_ : Int
  back_offset_ : Int
  front_ptr_ind_ : Int
  reversed_size_ : Int
  ptrs_ : List Ptr
  back_size_ : Int
  reverse_start_ : Int
  heap : Heap T
  deriving DecidableEq

/-- The defaulted constructor `Deque() = default` (member initialisers of the class),
on an empty free store. -/
def Deque.default (T : Type) : Deque T :=
  { size_ := 0, front_offset_ := 0, back_offset_ := 0, front_ptr_ind_ := 0,
    reversed_size_ := 0, ptrs_ := [], back_size_ := 0, reverse_start_ := -1, heap := [] }

/-- Exceptions the class lets escape. -/
inductive Exn where
  | out_of_range
  | element_ctor
  deriving DecidableEq, Repr

/-- How a call ends: `ok` normal return, `threw` an exception left the call (with the
object afterwards), `ub` undefined behaviour. -/
inductive Outcome (α : Type) where
  | ok (a : α)
  | threw (e : Exn) (d : α)
  | ub
  deriving DecidableEq

/-- Lift a step that can only succeed or be undefined. -/
def Outcome.ofOption {α : Type} : Option α → Outcome α
  | some a => .ok a
  | none => .ub

/-- Member function `NumPtrs()`. -/
def NumPtrs {T : Type} (d : Deque T) : Int := (d.ptrs_.length : Int)

/-- Member function `size()`: `static_cast<size_t>(size_)`, the value of `size_` as an
unsigned 64-bit integer. -/
def size {T : Type} (d : Deque T) : Int := d.size_ % 18446744073709551616

/-- The values of an `int64_t`. -/
abbrev is_int64 (x : Int) : Prop := -9223372036854775808 ≤ x ∧ x < 9223372036854775808

/-- Address arithmetic of `Get(index)`: directory index and slot of the referenced element. -/
def Get_loc {T : Type} (d : Deque T) (index : Int) : Int × Int :=
  if index < d.reversed_size_ then
    (d.front_ptr_ind_, d.reversed_size_ - index - 1)
  else
    let index := index +
      (if d.reversed_size_ > 0 then kSubVectorSize - d.back_size_ else d.front_offset_)
    let sub_arr := index.tdiv kSubVectorSize + d.front_ptr_ind_
    let local_ind :=
      if sub_arr ≤ d.reverse_start_ then kSubVectorSize - 1 - index.tmod kSubVectorSize
      else index.tmod kSubVectorSize
    (sub_arr, local_ind)

/-- Member function `Get(index)`: the element `ptrs_[sub_arr][local_ind]`; `none` is undefined behaviour. -/
def Get {T : Type} (d : Deque T) (index : Int) : Option T :=
  match vecAt d.ptrs_ (Get_loc d index).1 with
  | some p => load d.heap p (Get_loc d index).2
  | none => none

/-- How a read ends: the element, `std::out_of_range`, or undefined behaviour. -/
inductive Access (T : Type) where
  | val (v : T)
  | out_of_range
  | ub
  deriving DecidableEq, Repr

/-- Lift `Get` to an `Access`. -/
def Access.ofOption {T : Type} : Option T → Access T
  | some v => .val v
  | none => .ub

/-- Member `operator[](index)`. -/
def subscript {T : Type} (d : Deque T) (index : Int) : Access T :=
  Access.ofOption (Get d index)

/-- Member function `at(index)`. -/
def at_ {T : Type} (d : Deque T) (index : Int) : Access T :=
  if index ≥ d.size_ ∨ index < 0 then .out_of_range else Access.ofOption (Get d index)

/-! ## Endpoint operations -/

/-- The allocation step of `push_back`, run when the directory is empty, the directory is
head-only with no free slot at the back, or the last block is full; returns `created_new`. -/
def push_back_grow {T : Type} (d : Deque T) : Deque T × Bool :=
  if d.ptrs_.isEmpty ∨ (d.reverse_start_ = NumPtrs d - 1 ∧ d.back_offset_ = 0) ∨
      d.back_size_ = kSubVectorSize then
    ({ d with ptrs_ := d.ptrs_ ++ [(Allocate d.heap).1], heap := (Allocate d.heap).2,
              back_size_ := 0 }, true)
  else (d, false)

/-- The `catch (...)` block of `push_back`: releases the block allocated by this call. -/
def push_back_catch {T : Type} (d : Deque T) (created_new : Bool) : Option (Deque T) :=
  if created_new then do
    let p ← d.ptrs_.getLast?
    let h ← Dealloc d.heap p
    pure { d with heap := h, ptrs_ := d.ptrs_.dropLast }
  else pure d

/-- Member function `push_back(value)`; `copy_throws` says whether the copy constructor `T(value)` throws. -/
def push_back_impl {T : Type} (copy_throws : Bool) (d : Deque T) (value : T) :
    Outcome (Deque T) :=
  let d1 := (push_back_grow d).1
  let created_new := (push_back_grow d).2
  -- the address of the placement new
  let target : Option (Ptr × Int) :=
    if d1.back_offset_ > 0 then
      (vecAt d1.ptrs_ d1.reverse_start_).map (fun p => (p, d1.back_offset_ - 1))
    else d1.ptrs_.getLast?.map (fun p => (p, d1.back_size_))
  match target with
  | none => .ub
  | some (p, j) =>
    if copy_throws then
      match push_back_catch d1 created_new with
      | some d2 => .threw .element_ctor d2
      | none => .ub
    else
      match construct d1.heap p j value with
      | none => .ub
      | some h =>
        let d2 := if d1.back_offset_ > 0
          then { d1 with heap := h, back_offset_ := d1.back_offset_ - 1 }
          else { d1 with heap := h, back_size_ := d1.back_size_ + 1 }
        .ok { d2 with size_ := d2.size_ + 1 }

/-- Member function `push_back(value)` with a copy constructor that does not throw. -/
def push_back {T : Type} (d : Deque T) (value : T) : Outcome (Deque T) :=
  push_back_impl false d value

/-- The common tail of `pop_back` and `pop_front`: `size_--` and `ptrs_.clear()` at zero. -/
def pop_finish {T : Type} (d : Deque T) : Deque T :=
  if d.size_ - 1 = 0 then { d with size_ := d.size_ - 1, ptrs_ := [] }
  else { d with size_ := d.size_ - 1 }

/-- The body of `pop_back` after the emptiness check, before `size_--`. -/
def pop_back_body {T : Type} (d : Deque T) : Option (Deque T) :=
  if NumPtrs d - 1 ≤ d.reverse_start_ then do
    let p ← vecAt d.ptrs_ d.reverse_start_
    let h ← destroy d.heap p d.back_offset_
    let d1 := { d with heap := h, back_offset_ := d.back_offset_ + 1 }
    if d1.back_offset_ = kSubVectorSize then do
      let q ← d1.ptrs_.getLast?
      let h2 ← Dealloc d1.heap q
      pure { d1 with heap := h2, ptrs_ := d1.ptrs_.dropLast,
                     reverse_start_ := d1.reverse_start_ - 1, back_offset_ := 0 }
    else pure d1
  else do
    let p ← d.ptrs_.getLast?
    let h ← destroy d.heap p (d.back_size_ - 1)
    let d1 := { d with heap := h, back_size_ := d.back_size_ - 1 }
    if d1.back_size_ = 0 then do
      let h2 ← Dealloc d1.heap p
      let d2 := { d1 with heap := h2, ptrs_ := d1.ptrs_.dropLast }
      if NumPtrs d2 - 1 > d2.reverse_start_ then
        pure { d2 with back_size_ := kSubVectorSize }
      else pure d2
    else pure d1

/-- Member function `pop_back()`. -/
def pop_back {T : Type} (d : Deque T) : Outcome (Deque T) :=
  if d.size_ = 0 then .threw .out_of_range d
  else Outcome.ofOption ((pop_back_body d).map pop_finish)

/-- Member function `AdjustPointers()`: inserts `size() + empty()` copies of one freshly allocated block
pointer at the front of the directory. -/
def AdjustPointers {T : Type} (d : Deque T) : Deque T :=
  { d with
    ptrs_ := List.replicate (d.ptrs_.length + (if d.ptrs_.isEmpty then 1 else 0))
               (Allocate d.heap).1 ++ d.ptrs_,
    heap := (Allocate d.heap).2 }

/-- The quantity `NumPtrs() / 2 + (NumPtrs() == 1)` of `push_front`. -/
def half_ptrs {T : Type} (d : Deque T) : Int :=
  (NumPtrs d).tdiv 2 + (if NumPtrs d = 1 then 1 else 0)

/-- The allocation step of `push_front`; returns `created_new` and `adjusted`. -/
def push_front_grow {T : Type} (d : Deque T) : Option (Deque T × Bool × Bool) :=
  if d.ptrs_.isEmpty ∨ (d.front_offset_ = 0 ∧ d.front_ptr_ind_ - 1 = d.reverse_start_) ∨
      (d.reversed_size_ = kSubVectorSize ∧ d.front_ptr_ind_ ≤ d.reverse_start_) then
    let adjusted : Bool := decide (d.front_ptr_ind_ = 0)
    let d1 :=
      if adjusted then
        let a := AdjustPointers d
        { a with front_ptr_ind_ := half_ptrs a, reverse_start_ := a.reverse_start_ + half_ptrs a }
      else d
    -- ptrs_[--front_ptr_ind_] = Allocate();
    let d2 := { d1 with heap := (Allocate d1.heap).2, front_ptr_ind_ := d1.front_ptr_ind_ - 1 }
    (vecSet d2.ptrs_ d2.front_ptr_ind_ (Allocate d1.heap).1).map
      (fun ps => ({ d2 with ptrs_ := ps, reversed_size_ := 0 }, true, adjusted))
  else some (d, false, false)

/-- The `catch (...)` block of `push_front`. -/
def push_front_catch {T : Type} (d : Deque T) (created_new adjusted : Bool)
    (prev_rev_size : Int) : Option (Deque T) :=
  if created_new then do
    let d1 ←
      if adjusted then
        -- ptrs_.erase(ptrs_.cbegin(), ptrs_.cbegin() + front_ptr_ind_ + 1)
        if 0 ≤ d.front_ptr_ind_ + 1 ∧ d.front_ptr_ind_ + 1 ≤ NumPtrs d then
          some { d with reverse_start_ := d.reverse_start_ - half_ptrs d,
                        ptrs_ := d.ptrs_.drop (d.front_ptr_ind_ + 1).toNat,
                        front_ptr_ind_ := 0 }
        else none
      else some { d with front_ptr_ind_ := d.front_ptr_ind_ + 1 }
    pure { d1 with reverse_start_ := d1.front_ptr_ind_ - 1, reversed_size_ := prev_rev_size,
                   front_offset_ := 0 }
  else pure d

/-- Member function `push_front(value)`; `copy_throws` says whether the copy constructor `T(value)` throws. -/
def push_front_impl {T : Type} (copy_throws : Bool) (d : Deque T) (value : T) :
    Outcome (Deque T) :=
  match push_front_grow d with
  | none => .ub
  | some (d1, created_new, adjusted) =>
    match vecAt d1.ptrs_ d1.front_ptr_ind_ with
    | none => .ub
    | some p =>
      if copy_throws then
        match push_front_catch d1 created_new adjusted d.reversed_size_ with
        | some d2 => .threw .element_ctor d2
        | none => .ub
      else if d1.front_offset_ ≠ 0 then
        match construct d1.heap p (d1.front_offset_ - 1) value with
        | none => .ub
        | some h =>
          .ok { d1 with heap := h, front_offset_ := d1.front_offset_ - 1, size_ := d1.size_ + 1 }
      else
        match construct d1.heap p d1.reversed_size_ value with
        | none => .ub
        | some h =>
          .ok { d1 with heap := h, reversed_size_ := d1.reversed_size_ + 1,
                        size_ := d1.size_ + 1 }

/-- Member function `push_front(value)` with a copy constructor that does not throw. -/
def push_front {T : Type} (d : Deque T) (value : T) : Outcome (Deque T) :=
  push_front_impl false d value

/-- The body of `pop_front` after the emptiness check, before `size_--`. -/
def pop_front_body {T : Type} (d : Deque T) : Option (Deque T) := do
  let p ← vecAt d.ptrs_ d.front_ptr_ind_
  if d.front_ptr_ind_ ≤ d.reverse_start_ then do
    let h ← destroy d.heap p (d.reversed_size_ - 1)
    let d1 := { d with heap := h, reversed_size_ := d.reversed_size_ - 1 }
    if d1.reversed_size_ = 0 then do
      let h2 ← Dealloc d1.heap p
      let d2 := { d1 with heap := h2, front_ptr_ind_ := d1.front_ptr_ind_ + 1 }
      if d2.front_ptr_ind_ ≤ d2.reverse_start_ then
        pure { d2 with reversed_size_ := kSubVectorSize }
      else pure d2
    else pure d1
  else do
    let h ← destroy d.heap p d.front_offset_
    let d1 := { d with heap := h, front_offset_ := d.front_offset_ + 1 }
    if d1.front_offset_ = kSubVectorSize then do
      let h2 ← Dealloc d1.heap p
      pure { d1 with heap := h2, front_offset_ := 0, front_ptr_ind_ := d1.front_ptr_ind_ + 1,
                     reverse_start_ := d1.reverse_start_ + 1 }
    else pure d1

/-- Member function `pop_front()`. -/
def pop_front {T : Type} (d : Deque T) : Outcome (Deque T) :=
  if d.size_ = 0 then .threw .out_of_range d
  else Outcome.ofOption ((pop_front_body d).map pop_finish)

/-! ## Call sequences and the reference list -/

/-- An endpoint call. -/
inductive Op (T : Type) where
  | push_back (v : T)
  | push_front (v : T)
  | pop_back
  | pop_front
  deriving DecidableEq, Repr

/-- The member function an `Op` stands for (copy constructors that do not throw). -/
def Op.apply {T : Type} : Op T → Deque T → Outcome (Deque T)
  | .push_back v, d => CppLibrary.push_back d v
  | .push_front v, d => CppLibrary.push_front d v
  | .pop_back, d => CppLibrary.pop_back d
  | .pop_front, d => CppLibrary.pop_front d

/-- A caller that issues the calls in order, catching any exception and going on with the
object as the exception left it; `none` as soon as a call has undefined behaviour. -/
def run {T : Type} (d : Deque T) : List (Op T) → Option (Deque T)
  | [] => some d
  | op :: ops =>
    match op.apply d with
    | .ok d1 => run d1 ops
    | .threw _ d1 => run d1 ops
    | .ub => none

/-- The reference list of the spec, one call: `push_back` appends, `push_front` prepends,
`pop_back` drops the last element, `pop_front` drops the first. -/
def Op.ref {T : Type} : Op T → List T → List T
  | .push_back v, l => l ++ [v]
  | .push_front v, l => v :: l
  | .pop_back, l => l.dropLast
  | .pop_front, l => l.drop 1

/-- The reference list after a sequence of calls. -/
def ref_run {T : Type} (l : List T) : List (Op T) → List T
  | [] => l
  | op :: ops => ref_run (op.ref l) ops

/-- The elements `at(0)`, ..., `at(size() - 1)` of a deque. -/
def contents {T : Type} (d : Deque T) : List (Access T) :=
  (List.range (size d).toNat).map (fun i => at_ d (i : Int))

/-- The object an outcome leaves behind, if the call had defined behaviour. -/
def Outcome.state? {α : Type} : Outcome α → Option α
  | .ok a => some a
  | .threw _ a => some a
  | .ub => none

/-- The exception an outcome propagates, if any. -/
def Outcome.exn? {α : Type} : Outcome α → Option Exn
  | .threw e _ => some e
  | _ => none

/-- Whether the call had undefined behaviour. -/
def Outcome.isUb {α : Type} : Outcome α → Bool
  | .ub => true
  | _ => false

/-- Number of `Allocate()` calls made on a free store that started empty. -/
def allocations {T : Type} (h : Heap T) : Nat := h.length

/-- Number of blocks of the free store that are still held (allocated and not released). -/
def held_blocks {T : Type} (h : Heap T) : Nat := (h.filter Option.isSome).length

/-- The deque left by `push_back(7)` on a default-constructed deque. -/
def single : Deque Nat := ((push_back (Deque.default Nat) 7).state?).getD (Deque.default Nat)

/-- The deque left by `push_front(1)`, `pop_back()`, `push_front(2)`. -/
def refilled : Deque Nat :=
  (run (Deque.default Nat) [.push_front 1, .pop_back, .push_front 2]).getD (Deque.default Nat)

/-- The deque left by `push_front(1)`, `pop_front()`. -/
def emptied_front : Deque Nat :=
  (run (Deque.default Nat) [.push_front 1, .pop_front]).getD (Deque.default Nat)

/-- The deque left by sixteen `push_back(7)`: one full tail block. -/
def full_tail : Deque Nat :=
  (run (Deque.default Nat) (List.replicate 16 (.push_back 7))).getD (Deque.default Nat)

/-- The deque left by sixteen `push_front(7)`: one full head block. -/
def full_head : Deque Nat :=
  (run (Deque.default Nat) (List.replicate 16 (.push_front 7))).getD (Deque.default Nat)

/-! ## Bulk constructors -/

/-- How the construction loop of one block ends: all elements constructed (with the
remaining budget of the element constructor), the construction at slot `i` threw, or
undefined behaviour. -/
inductive Fill (T : Type) where
  | done (h : Heap T) (budget : Option Nat)
  | threw (i : Int) (h : Heap T)
  | ub

/-- The loop `for (int i = 0; i < iend; ++i) new (ptrs_.back() + i) T(val)` of the bulk
constructors, from slot `i` on with `fuel` iterations left.  `budget` is the number of element
constructions that still succeed before the element constructor throws (`none`: it never
throws). -/
def bulk_fill {T : Type} (val : T) (p : Ptr) : Nat → Int → Option Nat → Heap T → Fill T
  | 0, _, budget, h => .done h budget
  | fuel + 1, i, budget, h =>
    if budget = some 0 then .threw i h
    else
      match construct h p i val with
      | none => .ub
      | some h1 => bulk_fill val p fuel (i + 1) (budget.map (fun b => b - 1)) h1

/-- The loop `for (int k = 0; k < cnt; ++k) p[k].~T()` of the `catch` blocks, from slot `k` on
with `fuel` iterations left. -/
def destroy_range {T : Type} (p : Ptr) : Nat → Int → Heap T → Option (Heap T)
  | 0, _, h => some h
  | fuel + 1, k, h => (destroy h p k).bind (destroy_range p fuel (k + 1))

/-- The `catch (...)` loop of the bulk constructors over the blocks acquired so far, from
`l` on with `fuel` iterations left: destroys the elements of block `ptrs_[l - first]`
(`i` of them in block `j`, sixteen in the others) and releases the block.  `Deque(int)` runs
`l` from `first = 1`, `Deque(int, const T&)` from `first = 0`.  Two counts are kept for the
record: `n`, the destructor calls made, and `m`, the elements that were still live in a block
at the moment `Dealloc` released it (elements that are never destroyed). -/
def bulk_catch {T : Type} (first : Int) (ptrs : List Ptr) (j i : Int) :
    Nat → Int → Heap T → Nat → Nat → Option (Heap T × Nat × Nat)
  | 0, _, h, n, m => some (h, n, m)
  | fuel + 1, l, h, n, m => do
    let p ← vecAt ptrs (l - first)
    let cnt := (if l - first + 1 = j then i else kSubVectorSize).toNat
    let h1 ← destroy_range p cnt 0 h
    let h2 ← Dealloc h1 p
    bulk_catch first ptrs j i fuel (l + 1) h2 (n + cnt) (m + live_in h1 p)

/-- Result of a bulk constructor: how the call ends and, for the record, the number of
element destructor calls its `catch` block made and the number of elements that were still
live in a block when the `catch` block released it. -/
structure Bulk (T : Type) where
  outcome : Outcome (Deque T)
  dtor_calls : Nat
  live_at_release : Nat

/-- The outer loop `for (int j = 1; j <= jend; ++j)` of the bulk constructors, from `j` on
with `fuel` iterations left, followed by the assignment of `back_size_`. -/
def bulk_loop {T : Type} (first : Int) (val : T) (size jend : Int) :
    Nat → Int → Option Nat → List Ptr → Heap T → Bulk T
  | 0, _, _, ptrs, h =>
    ⟨.ok { size_ := size, front_offset_ := 0, back_offset_ := 0, front_ptr_ind_ := 0,
           reversed_size_ := 0, ptrs_ := ptrs,
           back_size_ := if size.tmod kSubVectorSize ≠ 0 then size.tmod kSubVectorSize
                         else kSubVectorSize,
           reverse_start_ := -1, heap := h }, 0, 0⟩
  | fuel + 1, j, budget, ptrs, h =>
    -- ptrs_.push_back(Allocate()); ptrs_.back() is the new block
    let p := (Allocate h).1
    let ptrs1 := ptrs ++ [p]
    let iend : Int :=
      if j < jend then kSubVectorSize
      else if size.tmod kSubVectorSize ≠ 0 then size.tmod kSubVectorSize else kSubVectorSize
    match bulk_fill val p iend.toNat 0 budget (Allocate h).2 with
    | .ub => ⟨.ub, 0, 0⟩
    | .done h1 budget1 => bulk_loop first val size jend fuel (j + 1) budget1 ptrs1 h1
    | .threw i h1 =>
      match bulk_catch first ptrs1 j i j.toNat first h1 0 0 with
      | none => ⟨.ub, 0, 0⟩
      | some (h2, n, m) =>
        ⟨.threw .element_ctor
          { size_ := 0, front_offset_ := 0, back_offset_ := 0, front_ptr_ind_ := 0,
            reversed_size_ := 0, ptrs_ := ptrs1, back_size_ := 0, reverse_start_ := -1,
            heap := h2 }, n, m⟩

/-- A block whose first `m` slots hold `v` and whose other slots are empty. -/
def part {T : Type} (v : T) (m : Nat) : Block T :=
  List.replicate m (some v) ++ List.replicate (16 - m) none

/-- The directory `[0, 1, ..., m - 1]` of the first `m` blocks of a free store. -/
def seq_ptrs (m : Nat) : List Ptr := (List.range m).map some

/-- The number of blocks `jend = size / kSubVectorSize + (size % kSubVectorSize != 0)`. -/
def bulk_jend (size : Int) : Int :=
  size.tdiv kSubVectorSize + (if size.tmod kSubVectorSize ≠ 0 then 1 else 0)

/-- Constructor `Deque(const int size)` on an empty free store; `dflt` is the value `T()`
constructs and `budget` the number of constructions that succeed before one throws. -/
def Deque.of_size {T : Type} (size : Int) (dflt : T) (budget : Option Nat) : Bulk T :=
  bulk_loop 1 dflt size (bulk_jend size) (bulk_jend size).toNat 1 budget [] []

/-- Constructor `Deque(const int size, const T& val)` on an empty free store; `budget` is the
number of copy constructions that succeed before one throws. -/
def Deque.of_size_val {T : Type} (size : Int) (val : T) (budget : Option Nat) : Bulk T :=
  bulk_loop 0 val size (bulk_jend size) (bulk_jend size).toNat 1 budget [] []

/-! ## Cursors -/

/-- Class `iterator_template`.  The member `ptrs_` (the pointer `ptrs_.data()` of the
deque) is modelled by the directory it points at; the cursors that are compared or
dereferenced together always come from one deque whose directory is not modified in
between. -/
structure iterator_template where
  ptrs_ : List Ptr
  local_ind_ : Int
  sub_arr_ind_ : Int
  reverse_start_ : Int
  deriving DecidableEq

/-- The body of `AddToGlobalInd(addition)` for `addition ≥ 0`. -/
def add_core (it : iterator_template) (addition : Int) : iterator_template :=
  if it.sub_arr_ind_ ≤ it.reverse_start_ then
    if it.local_ind_ - addition < 0 then
      let addition := addition - (it.local_ind_ + 1)
      let sub := it.sub_arr_ind_ + (addition.tdiv kSubVectorSize + 1)
      { it with
        sub_arr_ind_ := sub,
        local_ind_ := if sub > it.reverse_start_ then addition.tmod kSubVectorSize
                      else kSubVectorSize - addition.tmod kSubVectorSize - 1 }
    else { it with local_ind_ := it.local_ind_ - addition }
  else
    { it with
      sub_arr_ind_ := it.sub_arr_ind_ + (it.local_ind_ + addition).tdiv kSubVectorSize,
      local_ind_ := (it.local_ind_ + addition).tmod kSubVectorSize }

/-- The body of `SubtractFromGlobalInd(addition)` for `addition ≥ 0`. -/
def sub_core (it : iterator_template) (addition : Int) : iterator_template :=
  if it.sub_arr_ind_ ≤ it.reverse_start_ then
    { it with
      sub_arr_ind_ := it.sub_arr_ind_ - (it.local_ind_ + addition).tdiv kSubVectorSize,
      local_ind_ := (it.local_ind_ + addition).tmod kSubVectorSize }
  else
    let addition := addition - it.local_ind_
    if addition ≤ 0 then
      { it with local_ind_ := it.local_ind_ - (addition + it.local_ind_) }
    else
      let sub := it.sub_arr_ind_ - (1 + (addition - 1).tdiv kSubVectorSize)
      let addition := (addition - 1).tmod kSubVectorSize
      { it with
        sub_arr_ind_ := sub,
        local_ind_ := if sub ≤ it.reverse_start_ then addition
                      else kSubVectorSize - 1 - addition }

/-- Member function `AddToGlobalInd(int addition)`; the argument is an `int`, and for a slot
index in `[0, 16)` no intermediate value leaves the `int` range. -/
def AddToGlobalInd (it : iterator_template) (addition : Int) : iterator_template :=
  if addition < 0 then sub_core it (-addition) else add_core it addition

/-- Member function `SubtractFromGlobalInd(int addition)`. -/
def SubtractFromGlobalInd (it : iterator_template) (addition : Int) : iterator_template :=
  if addition < 0 then add_core it (-addition) else sub_core it addition

/-- Prefix `operator++`. -/
def iterator_template.inc (it : iterator_template) : iterator_template := AddToGlobalInd it 1

/-- Prefix `operator--`. -/
def iterator_template.dec (it : iterator_template) : iterator_template :=
  SubtractFromGlobalInd it 1

/-- The friend `operator+(lhs, int rhs)`. -/
def iterator_template.plus (lhs : iterator_template) (rhs : Int) : iterator_template :=
  AddToGlobalInd lhs rhs

/-- The friend `operator-(lhs, int rhs)`, which is `lhs + -rhs`. -/
def iterator_template.minus (lhs : iterator_template) (rhs : Int) : iterator_template :=
  lhs.plus (-rhs)

/-- The friend `operator==`. -/
def iterator_template.eq (lhs rhs : iterator_template) : Bool :=
  decide (lhs.ptrs_ = rhs.ptrs_ ∧ lhs.local_ind_ = rhs.local_ind_ ∧
    lhs.sub_arr_ind_ = rhs.sub_arr_ind_)

/-- The friend `operator<`. -/
def iterator_template.lt (lhs rhs : iterator_template) : Bool :=
  if rhs.ptrs_ ≠ lhs.ptrs_ ∨ lhs.sub_arr_ind_ > rhs.sub_arr_ind_ then false
  else if lhs.sub_arr_ind_ < rhs.sub_arr_ind_ then true
  else if lhs.sub_arr_ind_ ≤ lhs.reverse_start_ then decide (lhs.local_ind_ > rhs.local_ind_)
  else decide (lhs.local_ind_ < rhs.local_ind_)

/-- The values of an `int`. -/
abbrev is_int32 (x : Int) : Prop := -2147483648 ≤ x ∧ x < 2147483648

/-- Conversion of an `int64_t` value to `int` (modular). -/
def to_int32 (x : Int) : Int := (x + 2147483648) % 4294967296 - 2147483648

/-- The body of `operator-(rhs)` after the test `*this < rhs`: `none` when the `int`
product `sub_arr_dist * kSubVectorSize` overflows. -/
def diff_core (self rhs : iterator_template) : Option Int :=
  if rhs.sub_arr_ind_ ≤ self.reverse_start_ then
    let sub_arr_dist : Int :=
      to_int32 (self.sub_arr_ind_ - rhs.sub_arr_ind_ -
        (if self.sub_arr_ind_ ≠ rhs.sub_arr_ind_ then 1 else 0))
    if is_int32 (sub_arr_dist * kSubVectorSize) then
      let res := sub_arr_dist * kSubVectorSize
      if self.sub_arr_ind_ > self.reverse_start_ then
        some (res + (self.local_ind_ + rhs.local_ind_ + 1))
      else if self.sub_arr_ind_ = rhs.sub_arr_ind_ then
        some (res + (rhs.local_ind_ - self.local_ind_))
      else some (res + (rhs.local_ind_ + kSubVectorSize - self.local_ind_))
    else none
  else
    some (self.sub_arr_ind_ * kSubVectorSize + self.local_ind_ -
      rhs.sub_arr_ind_ * kSubVectorSize - rhs.local_ind_)

/-- Member `operator-(const iterator_template& rhs)`, the distance `*this - rhs`.  When
`*this < rhs` it returns `-(rhs - *this)`; `operator<` is asymmetric, so that call does not
recurse again. -/
def iterator_template.diff (self rhs : iterator_template) : Option Int :=
  if self.lt rhs then (diff_core rhs self).map (fun r => -r) else diff_core self rhs

/-- Member function `begin()`. -/
def begin_ {T : Type} (d : Deque T) : iterator_template :=
  if d.front_ptr_ind_ ≤ d.reverse_start_ then
    ⟨d.ptrs_, d.reversed_size_ - 1, d.front_ptr_ind_, d.reverse_start_⟩
  else ⟨d.ptrs_, d.front_offset_, d.front_ptr_ind_, d.reverse_start_⟩

/-- Member function `end()`. -/
def end_ {T : Type} (d : Deque T) : iterator_template :=
  if NumPtrs d - 1 > d.reverse_start_ then
    (⟨d.ptrs_, d.back_size_ - 1, NumPtrs d - 1, d.reverse_start_⟩ : iterator_template).inc
  else (⟨d.ptrs_, d.back_offset_, NumPtrs d - 1, d.reverse_start_⟩ : iterator_template).inc

/-- Reading through `operator*`: the element `ptrs_[sub_arr_ind_][local_ind_]`. -/
def iterator_template.read {T : Type} (h : Heap T) (it : iterator_template) : Option T :=
  (vecAt it.ptrs_ it.sub_arr_ind_).bind (fun p => load h p it.local_ind_)

/-- Assignment to an existing element `p[j] = v`: needs a held block, `0 ≤ j < 16` and an
element in the slot. -/
def store {T : Type} (h : Heap T) (p : Ptr) (j : Int) (v : T) : Option (Heap T) :=
  match p, blockAt h p with
  | some a, some b =>
    if 0 ≤ j ∧ j < kSubVectorSize then
      match b[j.toNat]? with
      | some (some _) => some (h.set a (some (b.set j.toNat (some v))))
      | _ => none
    else none
  | _, _ => none

/-- Assigning through `operator*`. -/
def iterator_template.write {T : Type} (h : Heap T) (it : iterator_template) (v : T) :
    Option (Heap T) :=
  (vecAt it.ptrs_ it.sub_arr_ind_).bind (fun p => store h p it.local_ind_ v)

/-- Forward iteration `for (it = begin(); it != end(); ++it) collect *it`, from `it` on; the
outer `none` means that `fuel` tests of the loop condition were not enough, the inner `none`
undefined behaviour. -/
def iterate_from {T : Type} (d : Deque T) : Nat → iterator_template → Option (Option (List T))
  | 0, _ => none
  | fuel + 1, it =>
    if it.eq (end_ d) then some (some [])
    else
      match it.read d.heap with
      | none => some none
      | some v => (iterate_from d fuel it.inc).map (fun r => r.map (fun l => v :: l))

/-- Forward iteration over the whole deque. -/
def iterate {T : Type} (fuel : Nat) (d : Deque T) : Option (Option (List T)) :=
  iterate_from d fuel (begin_ d)

/-- A cursor whose slot index lies in `[0, 16)`. -/
abbrev iterator_template.valid (it : iterator_template) : Prop :=
  0 ≤ it.local_ind_ ∧ it.local_ind_ < 16

/-- The cursor after `k` applications of `operator++`. -/
def iterator_template.inc_times : Nat → iterator_template → iterator_template
  | 0, it => it
  | k + 1, it => iterator_template.inc_times k it.inc

/-- Logical position of a cursor counted in slots from the start of the directory: a head
block (`sub_arr_ind_ ≤ reverse_start_`) is traversed from slot 15 down to slot 0, a tail
block from slot 0 up to slot 15. -/
def iterator_template.lin (it : iterator_template) : Int :=
  16 * it.sub_arr_ind_ +
    (if it.sub_arr_ind_ ≤ it.reverse_start_ then 15 - it.local_ind_ else it.local_ind_)

/-- The cursor at the first slot of a directory whose first `2 ^ 27 + 2` blocks are head
blocks: block 0, slot 15, boundary `2 ^ 27 + 1`. -/
def far_head : iterator_template := ⟨[], 15, 0, 134217729⟩

/-- The cursor at block 0, slot 0 of a directory of tail blocks only (boundary `-1`). -/
def tail_start : iterator_template := ⟨[], 0, 0, -1⟩

/-! ## Insert, erase, clear, copies -/

/-- The loop `while (it != end()) std::swap(*it++, tmp)` of `insert`; the outer `none` means
that `fuel` tests of the loop condition were not enough, the inner `none` undefined
behaviour.  Returns the free store and `tmp` when the loop is left. -/
def insert_loop {T : Type} (d : Deque T) :
    Nat → iterator_template → Heap T → T → Option (Option (Heap T × T))
  | 0, _, _, _ => none
  | fuel + 1, it, h, tmp =>
    if it.eq (end_ d) then some (some (h, tmp))
    else
      match it.read h with
      | none => some none
      | some x =>
        match it.write h tmp with
        | none => some none
        | some h1 => insert_loop d fuel it.inc h1 x

/-- Member function `insert(it, value)`, with `fuel` tests of the loop condition allowed. -/
def insert {T : Type} (fuel : Nat) (d : Deque T) (it : iterator_template) (value : T) :
    Option (Outcome (Deque T)) :=
  (insert_loop d fuel it d.heap value).map (fun r =>
    match r with
    | none => Outcome.ub
    | some (h, tmp) => push_back { d with heap := h } tmp)

/-- The loop `while (it != end() - 1) { std::swap(*it, *(it + 1)); ++it; }` of `erase`. -/
def erase_loop {T : Type} (d : Deque T) :
    Nat → iterator_template → Heap T → Option (Option (Heap T))
  | 0, _, _ => none
  | fuel + 1, it, h =>
    if it.eq ((end_ d).minus 1) then some (some h)
    else
      match it.read h, (it.plus 1).read h with
      | some x, some y =>
        match it.write h y with
        | none => some none
        | some h1 =>
          match (it.plus 1).write h1 x with
          | none => some none
          | some h2 => erase_loop d fuel it.inc h2
      | _, _ => some none

/-- Member function `erase(it)`, with `fuel` tests of the loop condition allowed. -/
def erase {T : Type} (fuel : Nat) (d : Deque T) (it : iterator_template) :
    Option (Outcome (Deque T)) :=
  (erase_loop d fuel it d.heap).map (fun r =>
    match r with
    | none => Outcome.ub
    | some h => pop_back { d with heap := h })

/-- Member function `Clear()`: `while (size_ != 0) pop_back()`, with `fuel` tests of the loop
condition allowed; the inner `none` is undefined behaviour. -/
def Clear {T : Type} : Nat → Deque T → Option (Option (Deque T))
  | 0, _ => none
  | fuel + 1, d =>
    if d.size_ ≠ 0 then
      match pop_back d with
      | .ok d1 => Clear fuel d1
      | .threw _ _ => some none
      | .ub => some none
    else some (some d)

/-- The loop `for (auto it = other.begin(); it != other.end(); ++it) push_back(*it)` of the
copy assignment; `self` carries the free store both deques live in. -/
def assign_loop {T : Type} (other : Deque T) :
    Nat → iterator_template → Deque T → Option (Option (Deque T))
  | 0, _, _ => none
  | fuel + 1, it, self =>
    if it.eq (end_ other) then some (some self)
    else
      match it.read self.heap with
      | none => some none
      | some x =>
        match push_back self x with
        | .ok self1 => assign_loop other fuel it.inc self1
        | _ => some none

/-- Copy assignment `*this = other` for two distinct objects, `self` carrying the free store
both live in; `fuel` bounds each of the two loops. -/
def assign {T : Type} (fuel : Nat) (self other : Deque T) : Option (Option (Deque T)) :=
  match Clear fuel self with
  | none => none
  | some none => some none
  | some (some s) => assign_loop other fuel (begin_ other) s

/-- The inner loop `for (j = j_start; std::abs(j - j_end) > 0; j += add)` of the copy
constructor for block `i`: copies `deque.ptrs_[i][j]` into slot `j` of the new block `p`. -/
def copy_block {T : Type} (src : Ptr) (p : Ptr) (add : Int) :
    Nat → Int → Heap T → Option (Heap T)
  | 0, _, h => some h
  | fuel + 1, j, h => do
    let x ← load h src j
    let h1 ← construct h p j x
    copy_block src p add fuel (j + add) h1

/-- The outer loop `for (i = front_ptr_ind_; i < ptrs_.size(); ++i)` of the copy
constructor; `c` is the object under construction. -/
def copy_loop {T : Type} (deque : Deque T) : Nat → Int → Deque T → Option (Deque T)
  | 0, _, c => some c
  | fuel + 1, i, c => do
    let ps ← vecSet c.ptrs_ i (Allocate c.heap).1
    let c1 := { c with ptrs_ := ps, heap := (Allocate c.heap).2 }
    let j_start : Int :=
      if i ≤ c1.reverse_start_ then
        (if i = c1.front_ptr_ind_ then c1.reversed_size_ - 1 else kSubVectorSize - 1)
      else 0
    let j_end : Int :=
      if i ≤ c1.reverse_start_ then -1
      else (if i = NumPtrs c1 - 1 then c1.back_size_ else kSubVectorSize)
    let add : Int := if j_end - j_start > 0 then 1 else -1
    let src ← vecAt deque.ptrs_ i
    let h ← copy_block src (Allocate c.heap).1 add (j_end - j_start).natAbs j_start c1.heap
    copy_loop deque fuel (i + 1) { c1 with heap := h }

/-- Copy constructor `Deque(const Deque& deque)`; the new object lives in the free store of
`deque`. -/
def Deque.copy {T : Type} (deque : Deque T) : Outcome (Deque T) :=
  Outcome.ofOption
    (copy_loop deque ((deque.ptrs_.length : Int) - deque.front_ptr_ind_).toNat
      deque.front_ptr_ind_
      { deque with ptrs_ := List.replicate deque.ptrs_.length none })

/-! ## Layout of a deque built by pushes -/

/-- Handle `a` names a held block of sixteen slots. -/
def held16 {T : Type} (h : Heap T) (a : Nat) : Prop :=
  ∃ b, h[a]? = some (some b) ∧ b.length = 16

/-- The free store `h1` is `h` with slot `j` of block `a` now holding `v`: the same blocks
are held and every other slot reads as before. -/
def heap_upd {T : Type} (h h1 : Heap T) (a : Nat) (j : Int) (v : T) : Prop :=
  h1.length = h.length ∧ (∀ a1, held16 h1 a1 ↔ held16 h a1) ∧ load h1 (some a) j = some v ∧
  ∀ a1 j1, (a1 ≠ a ∨ j1 ≠ j) → load h1 (some a1) j1 = load h (some a1) j1

/-- The cursor of `d` at logical position `l` (see `iterator_template.lin`). -/
def cur {T : Type} (d : Deque T) (l : Int) : iterator_template :=
  ⟨d.ptrs_, if l / 16 ≤ d.reverse_start_ then 15 - l % 16 else l % 16, l / 16,
    d.reverse_start_⟩

/-- Logical position of the first element. -/
def lin_begin {T : Type} (d : Deque T) : Int :=
  if d.front_ptr_ind_ ≤ d.reverse_start_ then 16 * d.front_ptr_ind_ + 16 - d.reversed_size_
  else 16 * d.front_ptr_ind_

/-- Logical position one past the last element. -/
def lin_end {T : Type} (d : Deque T) : Int :=
  if NumPtrs d - 1 > d.reverse_start_ then 16 * (NumPtrs d - 1) + d.back_size_
  else 16 * NumPtrs d

/-- The state of a deque that holds the sequence `s` and has only been pushed to: both
offsets are zero, the blocks from `front_ptr_ind_` on are distinct held blocks, head blocks
up to `reverse_start_` and tail blocks after it, and the cursor at position
`lin_begin d + i` reads `s[i]`. -/
structure Layout {T : Type} (d : Deque T) (s : List T) : Prop where
  fo : d.front_offset_ = 0
  bo : d.back_offset_ = 0
  size_eq : d.size_ = (s.length : Int)
  fpi0 : 0 ≤ d.front_ptr_ind_
  fpi_le : d.front_ptr_ind_ ≤ d.reverse_start_ + 1
  rst_lt : d.reverse_start_ < NumPtrs d
  rs : d.front_ptr_ind_ ≤ d.reverse_start_ → 1 ≤ d.reversed_size_ ∧ d.reversed_size_ ≤ 16
  bs : NumPtrs d - 1 > d.reverse_start_ → 1 ≤ d.back_size_ ∧ d.back_size_ ≤ 16
  len : (s.length : Int) = lin_end d - lin_begin d
  blocks : ∀ sub : Int, d.front_ptr_ind_ ≤ sub → sub < NumPtrs d →
    ∃ a, vecAt d.ptrs_ sub = some (some a) ∧ held16 d.heap a
  inj : ∀ (sub1 sub2 : Int) (a : Nat), d.front_ptr_ind_ ≤ sub1 → sub1 < NumPtrs d →
    d.front_ptr_ind_ ≤ sub2 → sub2 < NumPtrs d →
    vecAt d.ptrs_ sub1 = some (some a) → vecAt d.ptrs_ sub2 = some (some a) → sub1 = sub2
  elems : ∀ i : Nat, i < s.length → (cur d (lin_begin d + i)).read d.heap = s[i]?

/-- A call that pushes. -/
def Op.is_push {T : Type} : Op T → Bool
  | .push_back _ => true
  | .push_front _ => true
  | _ => false

/-! ## Sample deques -/

/-- The deque `Deque(-5)` returns. -/
def of_negative_size : Deque Nat :=
  ((Deque.of_size (-5) (0 : Nat) none).outcome.state?).getD (Deque.default Nat)

/-- The deque left by `push_back(1)`, `push_back(2)`, `pop_front()`: slot 0 of its block
has been destroyed. -/
def popped_front : Deque Nat :=
  (run (Deque.default Nat) [.push_back 1, .push_back 2, .pop_front]).getD (Deque.default Nat)

/-- The deque left by `push_back(1)`, `push_back(2)`, `pop_front()`, `pop_front()`,
`push_back(3)`, `push_front(4)`. -/
def refilled_both : Deque Nat :=
  (run (Deque.default Nat)
    [.push_back 1, .push_back 2, .pop_front, .pop_front, .push_back 3, .push_front 4]).getD
    (Deque.default Nat)

/-- The deque left by `push_back(100)`, `push_back(101)`, `push_back(102)`. -/
def three_back : Deque Nat :=
  (run (Deque.default Nat) [.push_back 100, .push_back 101, .push_back 102]).getD
    (Deque.default Nat)

/-- A second deque in the free store of `three_back`, left by `push_front(1)`. -/
def one_front_beside : Deque Nat :=
  (run { Deque.default Nat with heap := three_back.heap } [.push_front 1]).getD
    (Deque.default Nat)

/-- The deque left by `push_front(1)`. -/
def one_front : Deque Nat :=
  (run (Deque.default Nat) [.push_front 1]).getD (Deque.default Nat)

/-- The deque left by `push_back(1)`, `pop_front()`. -/
def emptied_tail : Deque Nat :=
  (run (Deque.default Nat) [.push_back 1, .pop_front]).getD (Deque.default Nat)

/-- The deque left by `push_back(1)`, `pop_front()`, `push_back(2)`. -/
def refilled_tail : Deque Nat :=
  (run (Deque.default Nat) [.push_back 1, .pop_front, .push_back 2]).getD (Deque.default Nat)

/-- The deque left by `erase(begin())` on `one_front`. -/
def erased_one_front : Deque Nat :=
  ((erase 10 one_front (begin_ one_front)).bind (fun r => r.state?)).getD (Deque.default Nat)

/-! ## Address rule of `Get`, live slots, reverse traversal, self-assignment -/

/-- The address rule the specification gives for `Get(i)`: with a head front block holding
`c = reversed_size_` elements, slot `c - 1 - i` of the front block for `i < c`, and otherwise,
with `j = i - c`, block `front_ptr_ind_ + 1 + j / 16` at slot `15 - j % 16` in the head region
and at slot `j % 16` in the tail region; with a tail front block, block
`front_ptr_ind_ + (i + front_offset_) / 16` at slot `(i + front_offset_) % 16`. -/
def Get_ref_loc {T : Type} (d : Deque T) (i : Int) : Int × Int :=
  if d.front_ptr_ind_ ≤ d.reverse_start_ then
    if i < d.reversed_size_ then (d.front_ptr_ind_, d.reversed_size_ - 1 - i)
    else
      let j := i - d.reversed_size_
      let sub := d.front_ptr_ind_ + 1 + j / 16
      if sub ≤ d.reverse_start_ then (sub, 15 - j % 16) else (sub, j % 16)
  else (d.front_ptr_ind_ + (i + d.front_offset_) / 16, (i + d.front_offset_) % 16)

/-- Number of live slots in the blocks held by the directory, each block counted once. -/
def live_slots {T : Type} (d : Deque T) : Nat :=
  (d.ptrs_.dedup.map (live_in d.heap)).sum

/-- The cursor after `k` applications of `operator--`. -/
def iterator_template.dec_times : Nat → iterator_template → iterator_template
  | 0, it => it
  | k + 1, it => iterator_template.dec_times k it.dec

/-- Reverse traversal `for (r = rbegin(); r != rend(); ++r) collect *r` from the reverse
cursor with base `it` on: `rbegin()` has base `end()`, `rend()` has base `begin()`,
dereferencing reads the predecessor of the base and `++r` steps the base back.  The outer
`none` means that `fuel` tests of the loop condition were not enough, the inner `none`
undefined behaviour. -/
def riterate_from {T : Type} (d : Deque T) : Nat → iterator_template → Option (Option (List T))
  | 0, _ => none
  | fuel + 1, it =>
    if it.eq (begin_ d) then some (some [])
    else
      match it.dec.read d.heap with
      | none => some none
      | some v => (riterate_from d fuel it.dec).map (fun r => r.map (fun l => v :: l))

/-- Reverse traversal over the whole deque. -/
def riterate {T : Type} (fuel : Nat) (d : Deque T) : Option (Option (List T)) :=
  riterate_from d fuel (end_ d)

/-- The loop of the copy assignment when `other` is the object itself: `other.end()` is taken
from the object as the calls of `push_back` leave it, the cursor keeps the directory it was
created with. -/
def assign_self_loop {T : Type} :
    Nat → iterator_template → Deque T → Option (Option (Deque T))
  | 0, _, _ => none
  | fuel + 1, it, self =>
    if it.eq (end_ self) then some (some self)
    else
      match it.read self.heap with
      | none => some none
      | some x =>
        match push_back self x with
        | .ok self1 => assign_self_loop fuel it.inc self1
        | _ => some none

/-- Copy assignment `d = d`: `Clear()`, then the loop over `other`, which is the cleared
object; `fuel` bounds each of the two loops. -/
def assign_self {T : Type} (fuel : Nat) (self : Deque T) : Option (Option (Deque T)) :=
  match Clear fuel self with
  | none => none
  | some none => some none
  | some (some s) => assign_self_loop fuel (begin_ s) s

/-- The deque left by `push_back(1)`, `push_back(2)`, `push_front(0)`. -/
def two_back_one_front : Deque Nat :=
  (run (Deque.default Nat) [.push_back 1, .push_back 2, .push_front 0]).getD (Deque.default Nat)

/-- The deque built by `Deque(0)`. -/
def of_size_zero : Deque Nat :=
  ((Deque.of_size 0 (0 : Nat) none).outcome.state?).getD (Deque.default Nat)

/-- The deque built by `Deque(0, 7)`. -/
def of_size_zero_val : Deque Nat :=
  ((Deque.of_size_val 0 (7 : Nat) none).outcome.state?).getD (Deque.default Nat)

/-- The deque left by `push_back(3)`, `pop_front()`, `push_back(5)`. -/
def refilled_after_pop_front : Deque Nat :=
  (run (Deque.default Nat) [.push_back 3, .pop_front, .push_back 5]).getD (Deque.default Nat)

/-! ## Layout of a deque that has not become empty -/

/-- Logical position of the first element, with the elements already popped from the front of
a tail front block skipped. -/
def span_begin {T : Type} (d : Deque T) : Int :=
  if d.front_ptr_ind_ ≤ d.reverse_start_ then 16 * d.front_ptr_ind_ + 16 - d.reversed_size_
  else 16 * d.front_ptr_ind_ + d.front_offset_

/-- Logical position one past the last element, with the elements already popped from the back
of the last head block skipped. -/
def span_end {T : Type} (d : Deque T) : Int :=
  if NumPtrs d - 1 > d.reverse_start_ then 16 * (NumPtrs d - 1) + d.back_size_
  else 16 * NumPtrs d - d.back_offset_

/-- The state of a deque that holds the sequence `s`: the blocks from `front_ptr_ind_` on are
distinct held blocks, head blocks up to `reverse_start_` and tail blocks after it; a head
front block has `reversed_size_` elements and none popped from a tail side, a tail front
block has lost `front_offset_` elements; likewise `back_size_` and `back_offset_` at the
back; the cursor at position `span_begin d + i` reads `s[i]`; an empty deque has an empty
directory. -/
structure Span {T : Type} (d : Deque T) (s : List T) : Prop where
  size_eq : d.size_ = (s.length : Int)
  fpi0 : 0 ≤ d.front_ptr_ind_
  fpi_le : d.front_ptr_ind_ ≤ d.reverse_start_ + 1
  rst_lt : d.reverse_start_ < NumPtrs d
  head : d.front_ptr_ind_ ≤ d.reverse_start_ →
    1 ≤ d.reversed_size_ ∧ d.reversed_size_ ≤ 16 ∧ d.front_offset_ = 0
  nohead : ¬ d.front_ptr_ind_ ≤ d.reverse_start_ →
    0 ≤ d.front_offset_ ∧ d.front_offset_ ≤ 15 ∧ d.reversed_size_ = 0
  tail : NumPtrs d - 1 > d.reverse_start_ →
    1 ≤ d.back_size_ ∧ d.back_size_ ≤ 16 ∧ d.back_offset_ = 0
  notail : ¬ NumPtrs d - 1 > d.reverse_start_ →
    0 ≤ d.back_offset_ ∧ d.back_offset_ ≤ 15 ∧ d.back_size_ = 0
  len : (s.length : Int) = span_end d - span_begin d
  empty : s = [] → d.ptrs_ = []
  blocks : ∀ sub : Int, d.front_ptr_ind_ ≤ sub → sub < NumPtrs d →
    ∃ a, vecAt d.ptrs_ sub = some (some a) ∧ held16 d.heap a
  inj : ∀ (sub1 sub2 : Int) (a : Nat), d.front_ptr_ind_ ≤ sub1 → sub1 < NumPtrs d →
    d.front_ptr_ind_ ≤ sub2 → sub2 < NumPtrs d →
    vecAt d.ptrs_ sub1 = some (some a) → vecAt d.ptrs_ sub2 = some (some a) → sub1 = sub2
  elems : ∀ i : Nat, i < s.length → (cur d (span_begin d + i)).read d.heap = s[i]?

/-- A call at the back: `push_back` or `pop_back`. -/
def Op.is_back {T : Type} : Op T → Bool
  | .push_back _ => true
  | .pop_back => true
  | _ => false

/-- Every pop of the call sequence is issued on a non-empty deque (reference list `l` before
the calls). -/
def pops_guarded {T : Type} : List T → List (Op T) → Bool
  | _, [] => true
  | l, op :: ops =>
    (match op with
      | .pop_back => !l.isEmpty
      | .pop_front => !l.isEmpty
      | _ => true) && pops_guarded (op.ref l) ops

/-- The size never returns to zero after the first push (reference list `l` before the
calls): on an empty deque any call may come, a pop throwing and changing nothing; on a
non-empty deque every call leaves it non-empty. -/
def never_emptied {T : Type} : List T → List (Op T) → Bool
  | _, [] => true
  | l, op :: ops =>
    (l.isEmpty || !(op.ref l).isEmpty) && never_emptied (op.ref l) ops

/-- The deque left by `push_back(1)` and sixteen `push_front(7)`: a directory of two handles,
a full head block at index 0 and a tail block at index 1. -/
def full_head_beside_tail : Deque Nat :=
  (run (Deque.default Nat) (.push_back 1 :: List.replicate 16 (.push_front 7))).getD
    (Deque.default Nat)

/-! ## Slots read by the copy constructor -/

/-- The slots the inner loop `for (j = j_start; std::abs(j - j_end) > 0; j += add)` of the
copy constructor visits for block `i`: each visit reads `deque.ptrs_[i][j]` and constructs
one element from it. -/
def copy_block_reads (i add : Int) : Nat → Int → List (Int × Int)
  | 0, _ => []
  | fuel + 1, j => (i, j) :: copy_block_reads i add fuel (j + add)

/-- The slots `(i, j)` of the source the loops of the copy constructor visit, in order, from
block `i` on; the bounds are those of `copy_loop`, whose object under construction has the
counters of `deque`. -/
def copy_loop_reads {T : Type} (deque : Deque T) : Nat → Int → List (Int × Int)
  | 0, _ => []
  | fuel + 1, i =>
    let j_start : Int :=
      if i ≤ deque.reverse_start_ then
        (if i = deque.front_ptr_ind_ then deque.reversed_size_ - 1 else kSubVectorSize - 1)
      else 0
    let j_end : Int :=
      if i ≤ deque.reverse_start_ then -1
      else (if i = NumPtrs deque - 1 then deque.back_size_ else kSubVectorSize)
    let add : Int := if j_end - j_start > 0 then 1 else -1
    copy_block_reads i add (j_end - j_start).natAbs j_start ++ copy_loop_reads deque fuel (i + 1)

/-- The slots of `deque` the copy constructor `Deque(const Deque& deque)` reads, in order. -/
def Deque.copy_reads {T : Type} (deque : Deque T) : List (Int × Int) :=
  copy_loop_reads deque ((deque.ptrs_.length : Int) - deque.front_ptr_ind_).toNat
    deque.front_ptr_ind_

/-- Slot `ij.2` of the block at directory index `ij.1` of `d` holds a live element
(constructed and not yet destroyed). -/
def live_at {T : Type} (d : Deque T) (ij : Int × Int) : Bool :=
  match vecAt d.ptrs_ ij.1 with
  | some p => (load d.heap p ij.2).isSome
  | none => false

/-- The deque left by `push_front(1)`, `push_front(2)`, `pop_back()`: a single head block
whose slot 0 has been destroyed. -/
def head_popped_back : Deque Nat :=
  (run (Deque.default Nat) [.push_front 1, .push_front 2, .pop_back]).getD (Deque.default Nat)

/-- The deque left by `push_back(1)`, `push_back(2)`, `push_back(3)`, `pop_front()`,
`pop_front()`: a single tail block whose slots 0 and 1 have been destroyed. -/
def tail_popped_front_twice : Deque Nat :=
  (run (Deque.default Nat)
    [.push_back 1, .push_back 2, .push_back 3, .pop_front, .pop_front]).getD (Deque.default Nat)

/-- The deque left by `push_front(1)`, `pop_front()`, `push_back(2)`. -/
def refilled_after_head : Deque Nat :=
  (run (Deque.default Nat) [.push_front 1, .pop_front, .push_back 2]).getD (Deque.default Nat)

/-! ## Theorems -/

/-! ### `size_` on runs with defined behaviour -/

/-- The allocation step of `push_back` does not touch `size_`. -/
theorem push_back_grow_size {T : Type} (d : Deque T) : (push_back_grow d).1.size_ = d.size_ := by
  unfold push_back_grow
  split <;> rfl

/-- A `push_back` with defined behaviour raises `size_` by one. -/
theorem push_back_size {T : Type} (d d1 : Deque T) (v : T)
    (h : (push_back d v).state? = some d1) : d1.size_ = d.size_ + 1 := by
  unfold push_back push_back_impl at h
  simp only [] at h
  split at h
  · simp [Outcome.state?] at h
  · simp only [Bool.false_eq_true, if_false] at h
    split at h
    · simp [Outcome.state?] at h
    · simp only [Outcome.state?, Option.some.injEq] at h
      subst h
      split <;> simp [push_back_grow_size]

/-- The allocation step of `push_front` does not touch `size_`. -/
theorem push_front_grow_size {T : Type} (d : Deque T) (r : Deque T × Bool × Bool)
    (h : push_front_grow d = some r) : r.1.size_ = d.size_ := by
  unfold push_front_grow at h
  split at h
  · simp only [Option.map_eq_some'] at h
    obtain ⟨ps, _, rfl⟩ := h
    simp only []
    split <;> rfl
  · simp only [Option.some.injEq] at h
    subst h
    rfl

/-- A `push_front` with defined behaviour raises `size_` by one. -/
theorem push_front_size {T : Type} (d d1 : Deque T) (v : T)
    (h : (push_front d v).state? = some d1) : d1.size_ = d.size_ + 1 := by
  unfold push_front push_front_impl at h
  split at h
  · simp [Outcome.state?] at h
  · rename_i d2 cn adj hg
    have hs := push_front_grow_size d _ hg
    simp only [] at hs
    split at h
    · simp [Outcome.state?] at h
    · simp only [Bool.false_eq_true, if_false] at h
      split at h
      · split at h
        · simp [Outcome.state?] at h
        · simp only [Outcome.state?, Option.some.injEq] at h
          subst h
          simp [hs]
      · split at h
        · simp [Outcome.state?] at h
        · simp only [Outcome.state?, Option.some.injEq] at h
          subst h
          simp [hs]

/-- The closing step of a pop lowers `size_` by one. -/
theorem pop_finish_size {T : Type} (d : Deque T) : (pop_finish d).size_ = d.size_ - 1 := by
  unfold pop_finish
  split <;> rfl

/-- The body of `pop_back` does not touch `size_`. -/
theorem pop_back_body_size {T : Type} (d d1 : Deque T) (h : pop_back_body d = some d1) :
    d1.size_ = d.size_ := by
  unfold pop_back_body at h
  simp only [Option.bind_eq_bind, Option.pure_def] at h
  split at h
  · simp only [Option.bind_eq_some] at h
    obtain ⟨p, _, hp, _, h⟩ := h
    split at h
    · simp only [Option.bind_eq_some, Option.some.injEq] at h
      obtain ⟨q, _, h2, _, rfl⟩ := h
      rfl
    · simp only [Option.some.injEq] at h
      subst h
      rfl
  · simp only [Option.bind_eq_some] at h
    obtain ⟨p, _, hp, _, h⟩ := h
    split at h
    · simp only [Option.bind_eq_some] at h
      obtain ⟨h2, _, h⟩ := h
      split at h <;> (simp only [Option.some.injEq] at h; subst h; rfl)
    · simp only [Option.some.injEq] at h
      subst h
      rfl

/-- The body of `pop_front` does not touch `size_`. -/
theorem pop_front_body_size {T : Type} (d d1 : Deque T) (h : pop_front_body d = some d1) :
    d1.size_ = d.size_ := by
  unfold pop_front_body at h
  simp only [Option.bind_eq_bind, Option.pure_def, Option.bind_eq_some] at h
  obtain ⟨p, _, h⟩ := h
  split at h
  · simp only [Option.bind_eq_some] at h
    obtain ⟨hp, _, h⟩ := h
    split at h
    · simp only [Option.bind_eq_some] at h
      obtain ⟨h2, _, h⟩ := h
      split at h <;> (simp only [Option.some.injEq] at h; subst h; rfl)
    · simp only [Option.some.injEq] at h
      subst h
      rfl
  · simp only [Option.bind_eq_some] at h
    obtain ⟨hp, _, h⟩ := h
    split at h
    · simp only [Option.bind_eq_some, Option.some.injEq] at h
      obtain ⟨h2, _, rfl⟩ := h
      rfl
    · simp only [Option.some.injEq] at h
      subst h
      rfl
/-- The object left by a lifted step. -/
theorem ofOption_state {α : Type} (o : Option α) : (Outcome.ofOption o).state? = o := by
  cases o <;> rfl

/-- One call with defined behaviour keeps `size_` equal to the length of the reference list. -/
theorem apply_size {T : Type} (op : Op T) (d d1 : Deque T) (l : List T)
    (hl : d.size_ = (l.length : Int)) (h : (op.apply d).state? = some d1) :
    d1.size_ = ((op.ref l).length : Int) := by
  cases op with
  | push_back v =>
    have := push_back_size d d1 v h
    simp [Op.ref, this, hl]
  | push_front v =>
    have := push_front_size d d1 v h
    simp [Op.ref, this, hl]
  | pop_back =>
    simp only [Op.apply, pop_back] at h
    split at h
    · rename_i h0
      simp only [Outcome.state?, Option.some.injEq] at h
      subst h
      have : l.length = 0 := by omega
      simp [Op.ref, h0, this]
    · rename_i h0
      rw [ofOption_state, Option.map_eq_some'] at h
      obtain ⟨d2, hb, rfl⟩ := h
      rw [pop_finish_size, pop_back_body_size d d2 hb]
      simp only [Op.ref, List.length_dropLast]
      omega
  | pop_front =>
    simp only [Op.apply, pop_front] at h
    split at h
    · rename_i h0
      simp only [Outcome.state?, Option.some.injEq] at h
      subst h
      have : l.length = 0 := by omega
      simp [Op.ref, h0, this]
    · rename_i h0
      rw [ofOption_state, Option.map_eq_some'] at h
      obtain ⟨d2, hb, rfl⟩ := h
      rw [pop_finish_size, pop_front_body_size d d2 hb]
      simp only [Op.ref, List.length_drop]
      omega

/-- Unfolding `run` by one call. -/
theorem run_cons {T : Type} (op : Op T) (ops : List (Op T)) (d : Deque T) :
    run d (op :: ops) = ((op.apply d).state?).bind (fun d1 => run d1 ops) := by
  simp only [run]
  cases op.apply d <;> rfl

/-- On every call sequence all of whose calls have defined behaviour, `size_` ends equal to the length of the reference list. -/
theorem run_size {T : Type} (ops : List (Op T)) :
    ∀ (d d1 : Deque T) (l : List T), d.size_ = (l.length : Int) → run d ops = some d1 →
      d1.size_ = ((ref_run l ops).length : Int) := by
  induction ops with
  | nil =>
    intro d d1 l hl h
    simp only [run, Option.some.injEq] at h
    subst h
    simpa [ref_run] using hl
  | cons op ops ih =>
    intro d d1 l hl h
    rw [run_cons, Option.bind_eq_some] at h
    obtain ⟨d2, h2, h3⟩ := h
    exact ih d2 d1 (op.ref l) (apply_size op d d2 l hl h2) h3

/-- Every deque reached from a default-constructed one by endpoint calls has `size_ ≥ 0`. -/
theorem run_size_nonneg {T : Type} (ops : List (Op T)) (d : Deque T)
    (h : run (Deque.default T) ops = some d) : 0 ≤ d.size_ := by
  have := run_size ops (Deque.default T) d [] rfl h
  omega

/-! ### The claims -/

/-- C1 (code defect): after `push_back(1)`, `push_back(2)`, `push_front(0)` every call has
returned normally and `size()` is 3, but `at(1)` returns 0 and `at(2)` returns 1, while the
reference list of the same calls is `[0, 1, 2]`: `Get` offsets the index by
`kSubVectorSize - back_size_`, not by the free part of the front block. -/
theorem at_disagrees_with_reference_after_mixed_pushes :
    (run (Deque.default Nat) [.push_back 1, .push_back 2, .push_front 0]).map
        (fun q => (size q, at_ q 0, at_ q 1, at_ q 2, subscript q 1))
      = some (3, .val 0, .val 0, .val 1, .val 0) ∧
    ref_run [] [Op.push_back 1, .push_back 2, .push_front 0] = [0, 1, 2] := by
  decide

/-- C2 (code defect): `push_front(1)`, `pop_front()` leave `size() == 0`, `push_back(2)` then
gives `size() == 1`, and the following `pop_front()`, issued on a deque of size 1, has
undefined behaviour (it subscripts the one-entry directory at the stale `front_ptr_ind_ == 1`),
so no `size()` equal to the reference length 0 is produced. -/
theorem pop_front_undefined_after_refill :
    (run (Deque.default Nat) [.push_front 1, .pop_front]).map size = some 0 ∧
    (run (Deque.default Nat) [.push_front 1, .pop_front, .push_back 2]).map
        (fun q => (size q, q.front_ptr_ind_, NumPtrs q, (pop_front q).isUb))
      = some (1, 1, 1, true) ∧
    (ref_run [] [Op.push_front 1, .pop_front, .push_back 2, .pop_front]).length = 0 := by
  decide

/-- C3 (amended): on a deque whose `size_` is a non-negative `int64_t`, `at(i)` throws
`std::out_of_range` exactly when `i < 0` or `i >= size()`, in particular at `i == size()` and
at `i == -1` whatever the size, and for `i` in `[0, size())` it gives what `operator[](i)`
gives. -/
theorem at_out_of_range_iff {T : Type} (d : Deque T) (i : Int)
    (h0 : 0 ≤ d.size_) (hr : is_int64 d.size_) :
    (at_ d i = Access.out_of_range ↔ (i < 0 ∨ i ≥ size d)) ∧
    at_ d (size d) = Access.out_of_range ∧
    at_ d (-1) = Access.out_of_range ∧
    (0 ≤ i → i < size d → at_ d i = subscript d i) := by
  have hs : size d = d.size_ := by
    unfold size
    unfold is_int64 at hr
    omega
  rw [hs]
  refine ⟨?_, ?_, ?_, ?_⟩
  · unfold at_
    by_cases h : i ≥ d.size_ ∨ i < 0
    · simp only [h, if_true, true_iff]
      exact h.symm
    · simp only [h, if_false]
      constructor
      · intro hc
        cases hg : Get d i <;> simp [hg, Access.ofOption] at hc
      · intro hc
        exact absurd hc.symm h
  · simp [at_]
  · simp [at_]
  · intro h1 h2
    have h : ¬ (i ≥ d.size_ ∨ i < 0) := by omega
    simp [at_, subscript, h]

/-- Witness for `at_out_of_range_iff`: index 0 of the deque holding the single element 7,
where `operator[]` returns 7, and index 1, its size. -/
theorem at_out_of_range_iff_witness :
    0 ≤ single.size_ ∧ is_int64 single.size_ ∧ (0 : Int) ≤ 0 ∧ (0 : Int) < size single ∧
    at_ single 0 = subscript single 0 ∧ subscript single 0 = Access.val 7 ∧
    at_ single 1 = Access.out_of_range :=
  ⟨by decide, by decide, by decide, by decide,
    (at_out_of_range_iff single 0 (by decide) (by decide)).2.2.2 (by decide) (by decide),
    by decide,
    (at_out_of_range_iff single 1 (by decide) (by decide)).1.2 (Or.inr (by decide))⟩

/-- C3 (counterexample to the claim as stated): `Deque(-5)` returns, with one block acquired,
no element constructed and `size_ == -5`, so that `size() == 2 ^ 64 - 5`; on this deque
`at(0)` throws `std::out_of_range` although `0 <= 0 < size()`. -/
theorem at_throws_below_size_after_negative_count :
    (Deque.of_size (-5) (0 : Nat) none).outcome = Outcome.ok of_negative_size ∧
    of_negative_size.size_ = -5 ∧ size of_negative_size = 18446744073709551611 ∧
    at_ of_negative_size 0 = Access.out_of_range ∧
    ¬ (at_ of_negative_size 0 = Access.out_of_range ↔
        ((0 : Int) < 0 ∨ (0 : Int) ≥ size of_negative_size)) := by
  refine ⟨by decide, by decide, by decide, by decide, by decide⟩

/-- C4: on a deque with `size() == 0`, `pop_back()` and `pop_front()` throw
`std::out_of_range` and leave every data member and the free store as they were. -/
theorem pop_on_empty_throws_unchanged {T : Type} (d : Deque T) (hr : is_int64 d.size_)
    (h : size d = 0) :
    pop_back d = Outcome.threw Exn.out_of_range d ∧
    pop_front d = Outcome.threw Exn.out_of_range d := by
  have hz : d.size_ = 0 := by
    unfold size at h
    unfold is_int64 at hr
    omega
  simp [pop_back, pop_front, hz]

/-- Witness for `pop_on_empty_throws_unchanged`: the default-constructed deque. -/
theorem pop_on_empty_throws_unchanged_witness :
    is_int64 (Deque.default Nat).size_ ∧ size (Deque.default Nat) = 0 ∧
    pop_back (Deque.default Nat) = Outcome.threw Exn.out_of_range (Deque.default Nat) ∧
    pop_front (Deque.default Nat) = Outcome.threw Exn.out_of_range (Deque.default Nat) :=
  ⟨by decide, by decide,
    pop_on_empty_throws_unchanged (Deque.default Nat) (by decide) (by decide)⟩

/-- C5: for all values `a b c d`, `push_back(a)`, `push_back(b)`, `push_front(c)`,
`push_back(d)`, `pop_front()` on a default-constructed deque leave `size() == 3` with
`at(0) == a`, `at(1) == b`, `at(2) == d`. -/
theorem mixed_direction_scenario {T : Type} (a b c d : T) :
    (run (Deque.default T)
        [.push_back a, .push_back b, .push_front c, .push_back d, .pop_front]).map
        (fun q => (size q, at_ q 0, at_ q 1, at_ q 2))
      = some (3, Access.val a, Access.val b, Access.val d) := by
  simp [run, Op.apply, push_back, push_back_impl, push_back_grow, push_front, push_front_impl,
    push_front_grow, pop_front, pop_front_body, pop_finish, Deque.default, Allocate, Dealloc,
    NumPtrs, kSubVectorSize, vecAt, vecSet, construct, destroy, blockAt, AdjustPointers,
    half_ptrs, Outcome.ofOption, size, at_, Get, Get_loc, load, Access.ofOption]
  exact ⟨rfl, rfl⟩

/-- C6 (code defect): the deque reached by `push_front(1)`, `pop_back()`, `push_front(2)` has
`size() == 1` and `at(0) == 2`, but `push_back(3)` on it has undefined behaviour: emptying left
`back_offset_ == 1`, the refill moved `reverse_start_` to 1, and `push_back` subscripts the
one-entry directory at `reverse_start_`.  So `push_back` followed by `pop_back` does not give
back a deque of size 1. -/
theorem push_back_undefined_on_refilled_deque :
    (run (Deque.default Nat) [.push_front 1, .pop_back, .push_front 2]).isSome = true ∧
    size refilled = 1 ∧ at_ refilled 0 = .val 2 ∧
    refilled.back_offset_ = 1 ∧ refilled.reverse_start_ = 1 ∧ NumPtrs refilled = 1 ∧
    (push_back refilled 3).isUb = true ∧
    (run refilled [.push_back 3, .pop_back]).isNone = true := by
  decide

/-- C7 (code defect): the deque reached by `push_front(1)`, `pop_front()` has `size() == 0`,
an empty directory and `front_ptr_ind_ == 1`; `push_front(2)` on it has undefined behaviour
(it assigns `ptrs_[0]` of the empty directory), so `push_front` followed by `pop_front` does
not give back a deque of size 0. -/
theorem push_front_undefined_on_emptied_deque :
    (run (Deque.default Nat) [.push_front 1, .pop_front]).isSome = true ∧
    size emptied_front = 0 ∧ emptied_front.front_ptr_ind_ = 1 ∧ NumPtrs emptied_front = 0 ∧
    (push_front emptied_front 2).isUb = true ∧
    (run emptied_front [.push_front 2, .pop_front]).isNone = true := by
  decide

/-- C8 (code defect): `push_front(1)`, `pop_back()` end with `size() == 0`; the further calls
`push_back(100)`, `push_back(101)`, `push_back(102)` then give the elements `100, 100, 101`
where a freshly default-constructed deque gives `100, 101, 102`: the counters
`reversed_size_`, `back_offset_` and `reverse_start_` survive the emptying. -/
theorem residual_layout_after_emptying :
    (run (Deque.default Nat) [.push_front 1, .pop_back]).map
        (fun q => (size q, q.reversed_size_, q.back_offset_, q.reverse_start_))
      = some (0, 1, 1, 0) ∧
    (run (Deque.default Nat)
        [.push_front 1, .pop_back, .push_back 100, .push_back 101, .push_back 102]).map contents
      = some [.val 100, .val 100, .val 101] ∧
    (run (Deque.default Nat) [.push_back 100, .push_back 101, .push_back 102]).map contents
      = some [.val 100, .val 101, .val 102] := by
  decide

/-- C9 (code defect): on the deque holding sixteen elements pushed at the back
(`back_size_ == 16`), a `push_back` whose copy construction throws propagates the exception,
releases the block it allocated and leaves `size_` at 16, but leaves `back_size_` at 0;
the next `push_back(9)` then constructs over the first element, so `at(0)` is 9. -/
theorem push_back_failure_resets_back_size :
    (run (Deque.default Nat) (List.replicate 16 (.push_back 7))).isSome = true ∧
    full_tail.size_ = 16 ∧ full_tail.back_size_ = 16 ∧ at_ full_tail 0 = .val 7 ∧
    (push_back_impl true full_tail 8).exn? = some .element_ctor ∧
    ((push_back_impl true full_tail 8).state?).map
        (fun r => (r.size_, r.back_size_, decide (r.ptrs_ = full_tail.ptrs_),
          held_blocks r.heap))
      = some (16, 0, true, 1) ∧
    (((push_back_impl true full_tail 8).state?).bind (fun r => run r [.push_back 9])).map
        (fun t => (size t, at_ t 0))
      = some (17, .val 9) := by
  decide

/-- C10 (code defect): a `push_front` whose copy construction throws releases no block.  On a
default-constructed deque it allocates two blocks (one in `AdjustPointers`, one for the new
head block) and both are still held when the exception leaves the call.  On the deque
holding sixteen elements pushed at the front (`reverse_start_ == 0`) it leaves
`reverse_start_ == -1`, so the boundary is not the one observed before the call. -/
theorem push_front_failure_leaks_and_moves_boundary :
    (push_front_impl true (Deque.default Nat) 5).exn? = some .element_ctor ∧
    ((push_front_impl true (Deque.default Nat) 5).state?).map
        (fun r => (allocations r.heap, held_blocks r.heap, r.ptrs_, r.reverse_start_))
      = some (2, 2, [], -1) ∧
    (run (Deque.default Nat) (List.replicate 16 (.push_front 7))).isSome = true ∧
    full_head.size_ = 16 ∧ full_head.reverse_start_ = 0 ∧ held_blocks full_head.heap = 2 ∧
    (push_front_impl true full_head 8).exn? = some .element_ctor ∧
    ((push_front_impl true full_head 8).state?).map
        (fun r => (r.size_, r.reverse_start_, decide (r.ptrs_ = full_head.ptrs_),
          held_blocks r.heap))
      = some (16, -1, true, 4) := by
  decide

/-! ### List facts used for blocks and the free store -/

/-- Reading the element that follows a prefix. -/
theorem getElem?_mid {α : Type} (l1 : List α) (x : α) (l2 : List α) :
    (l1 ++ x :: l2)[l1.length]? = some x := by
  induction l1 with
  | nil => simp
  | cons a l ih => simpa using ih

/-- Overwriting the element that follows a prefix. -/
theorem set_mid {α : Type} (l1 : List α) (x y : α) (l2 : List α) :
    (l1 ++ x :: l2).set l1.length y = l1 ++ y :: l2 := by
  induction l1 with
  | nil => rfl
  | cons a l ih => simp [ih]

/-- A run of equal elements grows at its end. -/
theorem replicate_snoc {α : Type} (n : Nat) (x : α) (l : List α) :
    List.replicate n x ++ x :: l = List.replicate (n + 1) x ++ l := by
  induction n with
  | zero => rfl
  | succ n ih => simp only [List.replicate_succ, List.cons_append, ih]

/-- Block access in a free store of the shape `pre ++ b :: post`. -/
theorem blockAt_mid {T : Type} (pre : Heap T) (b : Block T) (post : Heap T) :
    blockAt (pre ++ some b :: post) (some pre.length) = some b := by
  unfold blockAt
  simp only [getElem?_mid]

/-- Constructing into the first empty slot of a `part` block. -/
theorem construct_part {T : Type} (pre post : Heap T) (v : T) (i : Nat) (hi : i < 16) :
    construct (pre ++ some (part v i) :: post) (some pre.length) (i : Int) v
      = some (pre ++ some (part v (i + 1)) :: post) := by
  unfold construct
  rw [blockAt_mid]
  have h16 : (0 : Int) ≤ (i : Int) ∧ (i : Int) < kSubVectorSize := by
    unfold kSubVectorSize
    omega
  simp only [h16, and_self, if_true, Int.toNat_ofNat, set_mid]
  have hb : (part v i).set i (some v) = part v (i + 1) := by
    unfold part
    have e : 16 - i = (16 - (i + 1)) + 1 := by omega
    rw [e, List.replicate_succ]
    have := set_mid (List.replicate i (some v)) (none : Option T) (some v)
      (List.replicate (16 - (i + 1)) none)
    rw [List.length_replicate] at this
    rw [this, replicate_snoc]
  rw [hb]

/-- The construction loop with a constructor that never throws fills the next `cnt` slots. -/
theorem bulk_fill_none {T : Type} (v : T) (pre post : Heap T) :
    ∀ (cnt i : Nat), i + cnt ≤ 16 →
      bulk_fill v (some pre.length) cnt (i : Int) none (pre ++ some (part v i) :: post)
        = Fill.done (pre ++ some (part v (i + cnt)) :: post) none := by
  intro cnt
  induction cnt with
  | zero => intro i _; rfl
  | succ n ih =>
    intro i hi
    have h := ih (i + 1) (by omega)
    simp only [bulk_fill, construct_part pre post v i (by omega), Option.map_none',
      reduceCtorEq, if_false]
    rw [show ((i : Int) + 1) = ((i + 1 : Nat) : Int) by push_cast; rfl, h]
    rw [show i + 1 + n = i + (n + 1) by omega]

/-- The construction loop with a budget of `r` successful constructions: it throws at slot
`i + r` when `r < cnt`, and otherwise fills `cnt` slots and leaves a budget of `r - cnt`. -/
theorem bulk_fill_some {T : Type} (v : T) (pre post : Heap T) :
    ∀ (cnt i r : Nat), i + cnt ≤ 16 →
      bulk_fill v (some pre.length) cnt (i : Int) (some r) (pre ++ some (part v i) :: post)
        = if r < cnt then Fill.threw ((i + r : Nat) : Int) (pre ++ some (part v (i + r)) :: post)
          else Fill.done (pre ++ some (part v (i + cnt)) :: post) (some (r - cnt)) := by
  intro cnt
  induction cnt with
  | zero => intro i r _; simp [bulk_fill]
  | succ n ih =>
    intro i r hi
    cases r with
    | zero => simp [bulk_fill]
    | succ r =>
      have h := ih (i + 1) r (by omega)
      simp only [bulk_fill, construct_part pre post v i (by omega), Option.map_some',
        Option.some.injEq, Nat.add_one_ne_zero, if_false, Nat.add_sub_cancel]
      rw [show ((i : Int) + 1) = ((i + 1 : Nat) : Int) by push_cast; rfl, h]
      simp only [Nat.add_lt_add_iff_right, Nat.add_sub_add_right]
      rw [show i + 1 + r = i + (r + 1) by omega, show i + 1 + n = i + (n + 1) by omega]

/-- The directory of the first `m + 1` blocks. -/
theorem seq_ptrs_succ (m : Nat) : seq_ptrs (m + 1) = seq_ptrs m ++ [some m] := by
  simp [seq_ptrs, List.range_succ]

/-- Length of the directory of the first `m` blocks. -/
theorem seq_ptrs_length (m : Nat) : (seq_ptrs m).length = m := by
  simp [seq_ptrs]

/-- The bulk-construction loop with a constructor that never throws, entered for block
`m + 1` with `m` full blocks behind it: it ends with `J - 1` full blocks and a last block
of `r0` elements. -/
theorem bulk_loop_none {T : Type} (first : Int) (v : T) (size jend : Int) (J r0 : Nat)
    (hJ : jend = (J : Int)) (hr16 : r0 ≤ 16)
    (hr : (if size.tmod kSubVectorSize ≠ 0 then size.tmod kSubVectorSize else kSubVectorSize)
            = (r0 : Int)) :
    ∀ (fuel m : Nat), 1 ≤ fuel → m + fuel = J →
      bulk_loop first v size jend fuel ((m : Int) + 1) none (seq_ptrs m)
          (List.replicate m (some (part v 16)))
        = ⟨.ok { size_ := size, front_offset_ := 0, back_offset_ := 0, front_ptr_ind_ := 0,
                 reversed_size_ := 0, ptrs_ := seq_ptrs J, back_size_ := (r0 : Int),
                 reverse_start_ := -1,
                 heap := List.replicate (J - 1) (some (part v 16)) ++ [some (part v r0)] },
            0, 0⟩ := by
  intro fuel
  induction fuel with
  | zero => intro m h; omega
  | succ f ih =>
    intro m _ hm
    have hlen : (List.replicate m (some (part v 16))).length = m := List.length_replicate _ _
    have hA1 : (Allocate (List.replicate m (some (part v 16)))).1 = some m := by
      simp [Allocate]
    have hA2 : (Allocate (List.replicate m (some (part v 16)))).2
        = List.replicate m (some (part v 16)) ++ some (part v 0) :: [] := rfl
    have hfill := bulk_fill_none v (List.replicate m (some (part v 16))) []
    rw [hlen] at hfill
    by_cases hlast : f = 0
    · subst hlast
      have hj : ¬ ((m : Int) + 1 < jend) := by omega
      simp only [bulk_loop, hj, if_false, hr, Int.toNat_ofNat, hA1, hA2]
      have := hfill r0 0 (by omega)
      simp only [Nat.cast_zero, Nat.zero_add] at this
      rw [this]
      simp only [hr, ← seq_ptrs_succ]
      have hmJ : m + 1 = J := by omega
      have hm1 : J - 1 = m := by omega
      rw [hmJ, hm1]
    · have hj : (m : Int) + 1 < jend := by omega
      simp only [bulk_loop, hj, if_true, hA1, hA2]
      have h16 : kSubVectorSize.toNat = 16 := rfl
      have := hfill 16 0 (by omega)
      simp only [Nat.cast_zero, Nat.zero_add] at this
      rw [h16, this, ← seq_ptrs_succ]
      have hrep : List.replicate m (some (part v 16)) ++ [some (part v 16)]
          = List.replicate (m + 1) (some (part v 16)) := by
        rw [replicate_snoc, List.append_nil]
      rw [hrep]
      have := ih (m + 1) (by omega) (by omega)
      rw [← this]
      push_cast
      rfl

/-- The slots of a `part` block below its count hold the value. -/
theorem part_getElem? {T : Type} (v : T) (m s : Nat) (h : s < m) :
    (part v m)[s]? = some (some v) := by
  unfold part
  rw [List.getElem?_append_left (by simpa using h)]
  simp [List.getElem?_replicate, h]

/-- Subscript of the directory of the first `m` blocks. -/
theorem vecAt_seq_ptrs (m : Nat) (b : Int) (h0 : 0 ≤ b) (h1 : b < m) :
    vecAt (seq_ptrs m) b = some (some b.toNat) := by
  unfold vecAt seq_ptrs
  have : b.toNat < m := by omega
  simp [h0, List.getElem?_range, this]

/-- The deque a bulk constructor builds for `16 * (J - 1) + r0` elements reads `v` at every
index. -/
theorem at_bulk_layout {T : Type} (v : T) (n : Int) (J r0 : Nat) (hJ : 1 ≤ J) (hr1 : 1 ≤ r0)
    (hr16 : r0 ≤ 16) (hn : n = 16 * ((J : Int) - 1) + r0) (i : Int) (h0 : 0 ≤ i) (h1 : i < n) :
    at_ ({ size_ := n, front_offset_ := 0, back_offset_ := 0, front_ptr_ind_ := 0,
           reversed_size_ := 0, ptrs_ := seq_ptrs J, back_size_ := (r0 : Int),
           reverse_start_ := -1,
           heap := List.replicate (J - 1) (some (part v 16)) ++ [some (part v r0)] } : Deque T) i
      = Access.val v := by
  have hd : i.tdiv kSubVectorSize = i / 16 := Int.tdiv_eq_ediv h0 (by decide)
  have hm : i.tmod kSubVectorSize = i % 16 := Int.tmod_eq_emod h0 (by decide)
  have hc : ¬ (i ≥ n ∨ i < 0) := by omega
  have hs : ¬ (i / 16 ≤ -1) := by omega
  have hi : ¬ (i < 0) := by omega
  simp only [at_, hc, if_false, Get, Get_loc, lt_irrefl, gt_iff_lt, add_zero, hd, hm, hs, hi]
  rw [vecAt_seq_ptrs J (i / 16) (by omega) (by omega)]
  simp only [load, blockAt]
  have hk : (0 : Int) ≤ i % 16 ∧ i % 16 < kSubVectorSize := by
    unfold kSubVectorSize
    omega
  by_cases hb : (i / 16).toNat < J - 1
  · rw [List.getElem?_append_left (by simpa using hb)]
    simp only [List.getElem?_replicate, hb, if_true, hk, and_self]
    rw [part_getElem? v 16 _ (by omega)]
    have hge : ¬ i ≥ n := by omega
    simp [hge, Access.ofOption]
  · have hb2 : (i / 16).toNat = J - 1 := by omega
    have := getElem?_mid (List.replicate (J - 1) (some (part v 16))) (some (part v r0)) []
    rw [List.length_replicate] at this
    rw [hb2, this]
    simp only [hk, and_self, if_true]
    rw [part_getElem? v r0 _ (by omega)]
    have hge : ¬ i ≥ n := by omega
    simp [hge, Access.ofOption]

/-- Number of blocks of a bulk construction of `n ≥ 1` elements. -/
theorem bulk_jend_pos (n : Int) (h : 1 ≤ n) :
    bulk_jend n = (((n - 1) / 16 + 1).toNat : Int) ∧ 1 ≤ ((n - 1) / 16 + 1).toNat ∧
    (if n.tmod kSubVectorSize ≠ 0 then n.tmod kSubVectorSize else kSubVectorSize)
      = ((((n - 1) % 16 + 1).toNat : Nat) : Int) ∧
    1 ≤ ((n - 1) % 16 + 1).toNat ∧ ((n - 1) % 16 + 1).toNat ≤ 16 ∧
    n = 16 * (((((n - 1) / 16 + 1).toNat : Nat) : Int) - 1) + ((((n - 1) % 16 + 1).toNat : Nat) : Int) := by
  have hd : n.tdiv kSubVectorSize = n / 16 := Int.tdiv_eq_ediv (by omega) (by decide)
  have hm : n.tmod kSubVectorSize = n % 16 := Int.tmod_eq_emod (by omega) (by decide)
  unfold bulk_jend
  rw [hd, hm]
  unfold kSubVectorSize
  refine ⟨?_, ?_, ?_, ?_, ?_, ?_⟩
  · split <;> omega
  · omega
  · split <;> omega
  · omega
  · omega
  · omega

/-- Either bulk constructor, with an element constructor that never throws, returns a deque
of `n` elements all reading `v`. -/
theorem bulk_loop_ok {T : Type} (first : Int) (n : Int) (v : T) (h0 : 0 ≤ n)
    (h31 : n < 2147483648) :
    ∃ d, (bulk_loop first v n (bulk_jend n) (bulk_jend n).toNat 1 none [] []).outcome
        = Outcome.ok d ∧
      size d = n ∧ ∀ i, 0 ≤ i → i < n → at_ d i = Access.val v := by
  by_cases hz : n = 0
  · subst hz
    refine ⟨_, rfl, by simp [size], ?_⟩
    intro i h1 h2
    omega
  · obtain ⟨hJ, hJ1, hr, hr1, hr16, hn⟩ := bulk_jend_pos n (by omega)
    have hloop := bulk_loop_none first v n (bulk_jend n) _ _ hJ hr16 hr
      ((n - 1) / 16 + 1).toNat 0 hJ1 (by omega)
    have hfuel : (bulk_jend n).toNat = ((n - 1) / 16 + 1).toNat := by
      rw [hJ]
      exact Int.toNat_ofNat _
    rw [hfuel]
    simp only [Nat.cast_zero, zero_add, List.replicate_zero] at hloop
    have hp : seq_ptrs 0 = [] := rfl
    rw [hp] at hloop
    rw [hloop]
    refine ⟨_, rfl, ?_, ?_⟩
    · simp only [size]
      omega
    · intro i h1 h2
      exact at_bulk_layout v n _ _ hJ1 hr1 hr16 hn i h1 h2

/-- Destroying the first element that follows a run of empty slots. -/
theorem destroy_mid {T : Type} (pre post : Heap T) (v : T) (k : Nat) (rest : Block T)
    (hk : k < 16) :
    destroy (pre ++ some (List.replicate k none ++ some v :: rest) :: post) (some pre.length)
        (k : Int)
      = some (pre ++ some (List.replicate (k + 1) none ++ rest) :: post) := by
  unfold destroy
  rw [blockAt_mid]
  have h16 : (0 : Int) ≤ (k : Int) ∧ (k : Int) < kSubVectorSize := by
    unfold kSubVectorSize
    omega
  have hg := getElem?_mid (List.replicate k (none : Option T)) (some v) rest
  have hs := set_mid (List.replicate k (none : Option T)) (some v) none rest
  rw [List.length_replicate] at hg hs
  simp only [h16, and_self, if_true, Int.toNat_ofNat, hg, hs, set_mid, replicate_snoc]

/-- The destructor loop over `c` elements that follow a run of `k` empty slots. -/
theorem destroy_range_mid {T : Type} (pre post : Heap T) (v : T) (tail : Block T) :
    ∀ (c k : Nat), k + c ≤ 16 →
      destroy_range (some pre.length) c (k : Int)
          (pre ++ some (List.replicate k none ++ (List.replicate c (some v) ++ tail)) :: post)
        = some (pre ++ some (List.replicate (k + c) none ++ tail) :: post) := by
  intro c
  induction c with
  | zero => intro k _; rfl
  | succ c ih =>
    intro k hk
    simp only [destroy_range, List.replicate_succ, List.cons_append]
    rw [destroy_mid pre post v k _ (by omega)]
    simp only [Option.some_bind]
    rw [show ((k : Int) + 1) = ((k + 1 : Nat) : Int) by push_cast; rfl, ih (k + 1) (by omega)]
    rw [show k + 1 + c = k + (c + 1) by omega]

/-- Releasing a held block of a free store of the shape `pre ++ b :: post`. -/
theorem Dealloc_mid {T : Type} (pre : Heap T) (b : Block T) (post : Heap T) :
    Dealloc (pre ++ some b :: post) (some pre.length) = some (pre ++ none :: post) := by
  unfold Dealloc
  simp only [getElem?_mid, set_mid]

/-- The destructor loop over a block holding `c ≤ 16` elements in its first slots leaves the
block without a live element. -/
theorem destroy_part {T : Type} (pre post : Heap T) (v : T) (c : Nat) (hc : c ≤ 16) :
    destroy_range (some pre.length) c 0 (pre ++ some (part v c) :: post)
      = some (pre ++ some (List.replicate 16 none) :: post) := by
  have h := destroy_range_mid pre post v (List.replicate (16 - c) none) c 0 (by omega)
  simp only [List.replicate_zero, List.nil_append, Nat.cast_zero, Nat.zero_add] at h
  unfold part
  rw [h, ← List.replicate_add, show c + (16 - c) = 16 by omega]

/-- A block of empty slots has no live element. -/
theorem live_in_cleared {T : Type} (pre post : Heap T) :
    live_in (pre ++ some (List.replicate 16 (none : Option T)) :: post) (some pre.length)
      = 0 := by
  unfold live_in
  rw [blockAt_mid]
  rfl

/-- Subscript `M` of the directory of the first `M + 1` blocks. -/
theorem vecAt_seq_ptrs_nat (m a : Nat) (h : a < m) : vecAt (seq_ptrs m) (a : Int) = some (some a) := by
  have := vecAt_seq_ptrs m (a : Int) (by omega) (by omega)
  simpa using this

/-- The `catch` loop of the bulk constructors from block `a` on, when block `M` is the one
whose slot `i` failed: it destroys sixteen elements in each full block and `i` in the last,
and releases every block. -/
theorem bulk_catch_all {T : Type} (first : Int) (v : T) (M i : Nat) (hi : i ≤ 16) :
    ∀ (fuel a n q : Nat), a + fuel = M →
      bulk_catch first (seq_ptrs (M + 1)) ((M : Int) + 1) (i : Int) (fuel + 1) (first + a)
          (List.replicate a none ++
            (List.replicate fuel (some (part v 16)) ++ [some (part v i)])) n q
        = some (List.replicate (M + 1) none, n + 16 * fuel + i, q) := by
  intro fuel
  induction fuel with
  | zero =>
    intro a n q ha
    have haM : a = M := by omega
    subst haM
    have hidx : first + (a : Int) - first = (a : Int) := by omega
    have hc := destroy_part (List.replicate a (none : Option (Block T))) [] v i hi
    have hl := live_in_cleared (List.replicate a (none : Option (Block T))) []
    have hd := Dealloc_mid (List.replicate a (none : Option (Block T)))
      (List.replicate 16 (none : Option T)) []
    rw [List.length_replicate] at hc hl hd
    simp only [bulk_catch, hidx, vecAt_seq_ptrs_nat (a + 1) a (by omega), if_true,
      Int.toNat_ofNat, List.replicate_zero, List.nil_append, Option.bind_eq_bind,
      Option.some_bind, Option.pure_def, hc, hl, hd, Nat.mul_zero, Nat.add_zero]
    rw [replicate_snoc, List.append_nil]
  | succ f ih =>
    intro a n q ha
    have hidx : first + (a : Int) - first = (a : Int) := by omega
    have hne : ¬ ((a : Int) + 1 = (M : Int) + 1) := by omega
    have hc := destroy_part (List.replicate a (none : Option (Block T)))
      (List.replicate f (some (part v 16)) ++ [some (part v i)]) v 16 (by omega)
    have hl := live_in_cleared (List.replicate a (none : Option (Block T)))
      (List.replicate f (some (part v 16)) ++ [some (part v i)])
    have hd := Dealloc_mid (List.replicate a (none : Option (Block T)))
      (List.replicate 16 (none : Option T))
      (List.replicate f (some (part v 16)) ++ [some (part v i)])
    rw [List.length_replicate] at hc hl hd
    have h16 : kSubVectorSize.toNat = 16 := rfl
    have hrep : List.replicate (f + 1) (some (part v 16))
        = some (part v 16) :: List.replicate f (some (part v 16)) := rfl
    rw [bulk_catch, hrep]
    simp only [hidx, vecAt_seq_ptrs_nat (M + 1) a (by omega), hne, if_false, h16,
      List.cons_append, Option.bind_eq_bind, Option.some_bind, hc, hl, hd, Nat.add_zero]
    rw [replicate_snoc, show first + (a : Int) + 1 = first + ((a + 1 : Nat) : Int) by push_cast; omega]
    rw [ih (a + 1) (n + 16) q (by omega)]
    congr 3
    omega

/-- The `catch` block entered when slot `b` of block `m + 1` failed, with `m` full blocks
behind: `16 * m + b` destructor calls, every block released and none of them with a live
element at its release. -/
theorem bulk_catch_entry {T : Type} (first : Int) (v : T) (m b : Nat) (hb : b ≤ 16) :
    bulk_catch first (seq_ptrs m ++ [some m]) ((m : Int) + 1) (b : Int) ((m : Int) + 1).toNat
        first (List.replicate m (some (part v 16)) ++ [some (part v b)]) 0 0
      = some (List.replicate (m + 1) none, 16 * m + b, 0) := by
  have h := bulk_catch_all first v m b hb m 0 0 0 (by omega)
  simp only [Nat.cast_zero, add_zero, List.replicate_zero, List.nil_append, Nat.zero_add] at h
  have hf : ((m : Int) + 1).toNat = m + 1 := by omega
  rw [hf, ← seq_ptrs_succ, h]

/-- The bulk-construction loop with a budget of `b` successful constructions, entered for
block `m + 1` with `m` full blocks behind it and more than `b` elements still to construct:
the exception leaves with `size_ == 0`, every block released, `16 * m + b` destructor
calls made and no element live in a block at its release. -/
theorem bulk_loop_some {T : Type} (first : Int) (v : T) (size jend : Int) (J r0 : Nat)
    (hJ : jend = (J : Int)) (hr16 : r0 ≤ 16)
    (hr : (if size.tmod kSubVectorSize ≠ 0 then size.tmod kSubVectorSize else kSubVectorSize)
            = (r0 : Int)) :
    ∀ (fuel m b : Nat), 1 ≤ fuel → m + fuel = J → b < 16 * (fuel - 1) + r0 →
      bulk_loop first v size jend fuel ((m : Int) + 1) (some b) (seq_ptrs m)
          (List.replicate m (some (part v 16)))
        = ⟨.threw .element_ctor
            { size_ := 0, front_offset_ := 0, back_offset_ := 0, front_ptr_ind_ := 0,
              reversed_size_ := 0, ptrs_ := seq_ptrs (m + b / 16 + 1), back_size_ := 0,
              reverse_start_ := -1, heap := List.replicate (m + b / 16 + 1) none },
           16 * m + b, 0⟩ := by
  intro fuel
  induction fuel with
  | zero => intro m b h; omega
  | succ f ih =>
    intro m b _ hm hb
    have hlen : (List.replicate m (some (part v 16))).length = m := List.length_replicate _ _
    have hA1 : (Allocate (List.replicate m (some (part v 16)))).1 = some m := by
      simp [Allocate]
    have hA2 : (Allocate (List.replicate m (some (part v 16)))).2
        = List.replicate m (some (part v 16)) ++ some (part v 0) :: [] := rfl
    have hfill := bulk_fill_some v (List.replicate m (some (part v 16))) []
    rw [hlen] at hfill
    have h16 : kSubVectorSize.toNat = 16 := rfl
    by_cases hlast : f = 0
    · subst hlast
      have hj : ¬ ((m : Int) + 1 < jend) := by omega
      have hbr : b < r0 := by omega
      have := hfill r0 0 b (by omega)
      simp only [Nat.cast_zero, Nat.zero_add, hbr, if_true] at this
      simp only [bulk_loop, hj, if_false, hr, Int.toNat_ofNat, hA1, hA2, this]
      rw [bulk_catch_entry first v m b (by omega)]
      have hd : b / 16 = 0 := by omega
      simp only [hd, Nat.add_zero, ← seq_ptrs_succ]
    · have hj : (m : Int) + 1 < jend := by omega
      have := hfill 16 0 b (by omega)
      simp only [Nat.cast_zero, Nat.zero_add] at this
      by_cases hb16 : b < 16
      · simp only [hb16, if_true] at this
        simp only [bulk_loop, hj, if_true, hA1, hA2, h16, this]
        rw [bulk_catch_entry first v m b (by omega)]
        have hd : b / 16 = 0 := by omega
        simp only [hd, Nat.add_zero, ← seq_ptrs_succ]
      · simp only [hb16, if_false] at this
        simp only [bulk_loop, hj, if_true, hA1, hA2, h16, this]
        have hrep : List.replicate m (some (part v 16)) ++ [some (part v 16)]
            = List.replicate (m + 1) (some (part v 16)) := by
          rw [replicate_snoc, List.append_nil]
        rw [hrep, ← seq_ptrs_succ]
        have hih := ih (m + 1) (b - 16) (by omega) (by omega) (by omega)
        have e1 : m + 1 + (b - 16) / 16 + 1 = m + b / 16 + 1 := by omega
        have e2 : 16 * (m + 1) + (b - 16) = 16 * m + b := by omega
        rw [e1, e2] at hih
        rw [← hih]
        push_cast
        rfl

/-- Either bulk constructor of `n` elements whose `k`-th element construction throws
(`1 ≤ k ≤ n`): the exception leaves the constructor with `size_ == 0`, the
`(k - 1) / 16 + 1` blocks acquired all released, `k - 1` destructor calls made and no element
live in a block at its release. -/
theorem bulk_loop_throw {T : Type} (first : Int) (n : Int) (v : T) (k : Nat) (hk1 : 1 ≤ k)
    (hkn : (k : Int) ≤ n) :
    ∃ d, bulk_loop first v n (bulk_jend n) (bulk_jend n).toNat 1 (some (k - 1)) [] []
        = ⟨Outcome.threw Exn.element_ctor d, k - 1, 0⟩ ∧
      d.size_ = 0 ∧ allocations d.heap = (k - 1) / 16 + 1 ∧ held_blocks d.heap = 0 := by
  obtain ⟨hJ, hJ1, hr, hr1, hr16, hn⟩ := bulk_jend_pos n (by omega)
  have hloop := bulk_loop_some first v n (bulk_jend n) _ _ hJ hr16 hr
    ((n - 1) / 16 + 1).toNat 0 (k - 1) hJ1 (by omega) (by omega)
  have hfuel : (bulk_jend n).toNat = ((n - 1) / 16 + 1).toNat := by
    rw [hJ]
    exact Int.toNat_ofNat _
  rw [hfuel]
  simp only [Nat.cast_zero, zero_add, List.replicate_zero, Nat.mul_zero, Nat.zero_add] at hloop
  have hp : seq_ptrs 0 = [] := rfl
  rw [hp] at hloop
  rw [hloop]
  refine ⟨_, rfl, rfl, ?_, ?_⟩
  · simp [allocations]
  · simp [held_blocks]

/-! ### Cursor arithmetic -/

/-- One `operator++` on a valid cursor keeps directory and boundary, gives a valid cursor and
advances the logical position by one. -/
theorem inc_spec (it : iterator_template) (hv : it.valid) :
    it.inc.ptrs_ = it.ptrs_ ∧ it.inc.reverse_start_ = it.reverse_start_ ∧ it.inc.valid ∧
    it.inc.lin = it.lin + 1 := by
  obtain ⟨h0, h16⟩ := hv
  unfold iterator_template.inc AddToGlobalInd add_core iterator_template.valid
    iterator_template.lin
  simp only [show ¬ ((1 : Int) < 0) by decide, if_false]
  by_cases hh : it.sub_arr_ind_ ≤ it.reverse_start_
  · simp only [hh, if_true]
    by_cases hl : it.local_ind_ - 1 < 0
    · have hz : it.local_ind_ = 0 := by omega
      simp only [hl, if_true, hz, kSubVectorSize]
      norm_num
      split <;> omega
    · simp only [hl, if_false, hh, if_true]
      exact ⟨trivial, trivial, ⟨by omega, by omega⟩, by omega⟩
  · have hd : (it.local_ind_ + 1).tdiv kSubVectorSize = (it.local_ind_ + 1) / 16 :=
      Int.tdiv_eq_ediv (by omega) (by decide)
    have hm : (it.local_ind_ + 1).tmod kSubVectorSize = (it.local_ind_ + 1) % 16 :=
      Int.tmod_eq_emod (by omega) (by decide)
    simp only [hh, if_false, hd, hm]
    refine ⟨trivial, trivial, by omega, ?_⟩
    split <;> omega

/-- After `k` applications of `operator++` the logical position has advanced by `k`. -/
theorem inc_times_spec (k : Nat) :
    ∀ (it : iterator_template), it.valid →
      (it.inc_times k).ptrs_ = it.ptrs_ ∧ (it.inc_times k).reverse_start_ = it.reverse_start_ ∧
      (it.inc_times k).valid ∧ (it.inc_times k).lin = it.lin + k := by
  induction k with
  | zero => intro it hv; exact ⟨rfl, rfl, hv, by simp [iterator_template.inc_times]⟩
  | succ k ih =>
    intro it hv
    obtain ⟨h1, h2, h3, h4⟩ := inc_spec it hv
    obtain ⟨g1, g2, g3, g4⟩ := ih it.inc h3
    refine ⟨g1.trans h1, g2.trans h2, g3, ?_⟩
    simp only [iterator_template.inc_times, g4, h4]
    push_cast
    omega

/-- On valid cursors of one directory and boundary, `operator<` is the order of the logical
positions. -/
theorem lt_iff_lin (a b : iterator_template) (ha : a.valid) (hb : b.valid)
    (hp : a.ptrs_ = b.ptrs_) (hr : a.reverse_start_ = b.reverse_start_) :
    a.lt b = true ↔ a.lin < b.lin := by
  obtain ⟨pa, la, sa, ra⟩ := a
  obtain ⟨pb, lb, sb, rb⟩ := b
  simp only [iterator_template.valid] at ha hb hp hr
  subst hp hr
  obtain ⟨a0, a16⟩ := ha
  obtain ⟨b0, b16⟩ := hb
  simp only [iterator_template.lt, iterator_template.lin, ne_eq, not_true_eq_false, false_or,
    gt_iff_lt]
  by_cases h1 : sb < sa
  · simp only [h1, if_true, Bool.false_eq_true, false_iff]
    split <;> split <;> omega
  · simp only [h1, if_false]
    by_cases h2 : sa < sb
    · simp only [h2, if_true, true_iff]
      split <;> split <;> omega
    · have he : sa = sb := by omega
      subst he
      simp only [lt_irrefl, if_false]
      split <;> simp only [decide_eq_true_eq] <;> omega

/-- The distance computation on valid cursors `rhs ≤ self` of one boundary, less than
`2 ^ 31` apart: the difference of the logical positions. -/
theorem diff_core_lin (self rhs : iterator_template) (hs : self.valid) (hv : rhs.valid)
    (hr : self.reverse_start_ = rhs.reverse_start_) (hle : rhs.lin ≤ self.lin)
    (hb : self.lin - rhs.lin < 2147483648) :
    diff_core self rhs = some (self.lin - rhs.lin) := by
  obtain ⟨pa, la, sa, ra⟩ := self
  obtain ⟨pb, lb, sb, rb⟩ := rhs
  simp only [iterator_template.valid] at hs hv hr
  subst hr
  obtain ⟨s0, s16⟩ := hs
  obtain ⟨r0, r16⟩ := hv
  simp only [iterator_template.lin] at hle hb
  simp only [diff_core, iterator_template.lin, to_int32, is_int32, kSubVectorSize]
  by_cases h1 : sb ≤ ra
  · simp only [h1, if_true] at hle hb ⊢
    by_cases h2 : sa = sb
    · subst h2
      simp only [h1, if_true] at hle hb ⊢
      have h3 : ¬ (sa > ra) := by omega
      simp only [ne_eq, not_true_eq_false, if_false, sub_self, sub_zero, h3]
      norm_num
    · have e : (sa - sb - 1 + 2147483648) % 4294967296 = sa - sb - 1 + 2147483648 := by
        split at hle <;> split at hb <;> omega
      have h5 : -2147483648 ≤ (sa - sb - 1 + 2147483648 - 2147483648) * 16 ∧
          (sa - sb - 1 + 2147483648 - 2147483648) * 16 < 2147483648 := by
        split at hle <;> split at hb <;> omega
      simp only [ne_eq, h2, not_false_eq_true, if_true, if_false, e, h5, and_self]
      by_cases h3 : sa ≤ ra
      · have h4 : ¬ (sa > ra) := by omega
        simp only [h3, if_true, h4, if_false, Option.some.injEq] at hle hb ⊢
        omega
      · have h4 : sa > ra := by omega
        simp only [h3, if_false, h4, if_true, Option.some.injEq] at hle hb ⊢
        omega
  · simp only [h1, if_false] at hle hb ⊢
    have h3 : ¬ (sa ≤ ra) := by
      intro h
      simp only [h, if_true] at hle
      omega
    simp only [h3, if_false, Option.some.injEq] at hle hb ⊢
    omega

/-! ### The claims, continued -/

/-- C11: for `0 ≤ n` (an `int`) the deque built by `Deque(n, v)` has `size() == n` and
`at(i) == v` for every `i` in `[0, n)`, and `Deque(n)` likewise with the default-constructed
value. -/
theorem bulk_constructors_build {T : Type} (n : Int) (v dflt : T) (h0 : 0 ≤ n)
    (h31 : n < 2147483648) :
    (∃ d, (Deque.of_size_val n v none).outcome = Outcome.ok d ∧ size d = n ∧
      ∀ i, 0 ≤ i → i < n → at_ d i = Access.val v) ∧
    (∃ d, (Deque.of_size n dflt none).outcome = Outcome.ok d ∧ size d = n ∧
      ∀ i, 0 ≤ i → i < n → at_ d i = Access.val dflt) :=
  ⟨bulk_loop_ok 0 n v h0 h31, bulk_loop_ok 1 n dflt h0 h31⟩

/-- Witness for `bulk_constructors_build`: 35 elements, three blocks. -/
theorem bulk_constructors_build_witness :
    (0 : Int) ≤ 35 ∧ (35 : Int) < 2147483648 ∧
    ((∃ d, (Deque.of_size_val 35 (7 : Nat) none).outcome = Outcome.ok d ∧ size d = 35 ∧
      ∀ i, 0 ≤ i → i < 35 → at_ d i = Access.val 7) ∧
    (∃ d, (Deque.of_size 35 (0 : Nat) none).outcome = Outcome.ok d ∧ size d = 35 ∧
      ∀ i, 0 ≤ i → i < 35 → at_ d i = Access.val 0)) :=
  ⟨by decide, by decide, bulk_constructors_build 35 7 0 (by decide) (by decide)⟩

/-- C12: when the `k`-th element construction of `Deque(n)` or `Deque(n, v)` throws
(`1 ≤ k ≤ n`; the first `k - 1` constructions succeed), the exception leaves the constructor
with `size_ == 0`; the `catch` block has made `k - 1` destructor calls, each on a slot holding
an element (anything else is undefined in the model), and no block held a live element when
it was released, so each of the `k - 1` elements was destroyed exactly once and none is
leaked; and of the `(k - 1) / 16 + 1` blocks acquired none is still held, each released
exactly once (a second release is undefined in the model). -/
theorem bulk_constructors_throw {T : Type} (n : Int) (k : Nat) (v dflt : T) (hk1 : 1 ≤ k)
    (hkn : (k : Int) ≤ n) :
    (∃ d, (Deque.of_size n dflt (some (k - 1))).outcome = Outcome.threw Exn.element_ctor d ∧
      (Deque.of_size n dflt (some (k - 1))).dtor_calls = k - 1 ∧
      (Deque.of_size n dflt (some (k - 1))).live_at_release = 0 ∧
      d.size_ = 0 ∧ allocations d.heap = (k - 1) / 16 + 1 ∧ held_blocks d.heap = 0) ∧
    (∃ d, (Deque.of_size_val n v (some (k - 1))).outcome = Outcome.threw Exn.element_ctor d ∧
      (Deque.of_size_val n v (some (k - 1))).dtor_calls = k - 1 ∧
      (Deque.of_size_val n v (some (k - 1))).live_at_release = 0 ∧
      d.size_ = 0 ∧ allocations d.heap = (k - 1) / 16 + 1 ∧ held_blocks d.heap = 0) := by
  obtain ⟨d1, e1, h1⟩ := bulk_loop_throw 1 n dflt k hk1 hkn
  obtain ⟨d0, e0, h0⟩ := bulk_loop_throw 0 n v k hk1 hkn
  unfold Deque.of_size Deque.of_size_val
  rw [e1, e0]
  exact ⟨⟨d1, rfl, rfl, rfl, h1⟩, ⟨d0, rfl, rfl, rfl, h0⟩⟩

/-- Witness for `bulk_constructors_throw`: 35 elements, the 20th construction throws. -/
theorem bulk_constructors_throw_witness :
    1 ≤ 20 ∧ ((20 : Nat) : Int) ≤ 35 ∧
    ((∃ d, (Deque.of_size 35 (0 : Nat) (some (20 - 1))).outcome
        = Outcome.threw Exn.element_ctor d ∧
      (Deque.of_size 35 (0 : Nat) (some (20 - 1))).dtor_calls = 20 - 1 ∧
      (Deque.of_size 35 (0 : Nat) (some (20 - 1))).live_at_release = 0 ∧
      d.size_ = 0 ∧ allocations d.heap = (20 - 1) / 16 + 1 ∧ held_blocks d.heap = 0) ∧
    (∃ d, (Deque.of_size_val 35 (7 : Nat) (some (20 - 1))).outcome
        = Outcome.threw Exn.element_ctor d ∧
      (Deque.of_size_val 35 (7 : Nat) (some (20 - 1))).dtor_calls = 20 - 1 ∧
      (Deque.of_size_val 35 (7 : Nat) (some (20 - 1))).live_at_release = 0 ∧
      d.size_ = 0 ∧ allocations d.heap = (20 - 1) / 16 + 1 ∧ held_blocks d.heap = 0)) :=
  ⟨by decide, by decide, bulk_constructors_throw 35 20 7 0 (by decide) (by decide)⟩

/-- C13 (code defect): the deque left by `push_back(1)`, `push_back(2)`, `pop_front()` has
`size() == 1`, `at(0) == 2` and `front_offset_ == 1`; its copy constructor starts the only
block at slot 0 and copy-constructs from `deque.ptrs_[0][0]`, the element `pop_front`
destroyed: undefined behaviour.  On the deque left by `push_back(1)`, `push_back(2)`,
`pop_front()`, `pop_front()`, `push_back(3)`, `push_front(4)` the copy constructor returns, but
it copies slot 0 only: `at(0)` is 4 on the source and an unconstructed slot on the copy. -/
theorem copy_reads_destroyed_slot :
    (run (Deque.default Nat) [.push_back 1, .push_back 2, .pop_front]).isSome = true ∧
    size popped_front = 1 ∧ at_ popped_front 0 = .val 2 ∧ popped_front.front_offset_ = 1 ∧
    load popped_front.heap (some 0) 0 = none ∧
    (Deque.copy popped_front).isUb = true ∧
    (run (Deque.default Nat)
      [.push_back 1, .push_back 2, .pop_front, .pop_front, .push_back 3, .push_front 4]).isSome
      = true ∧
    size refilled_both = 2 ∧ at_ refilled_both 0 = .val 4 ∧
    ((Deque.copy refilled_both).state?).map (fun c => (size c, at_ c 0)) = some (2, .ub) := by
  decide

/-- C14 (code defect): with `a` holding `[1]` (built by `push_front(1)`) and `b` holding
`[100, 101, 102]`, the copy assignment `a = b` returns with `a.size() == 3` but
`a.at(1) == 100` and `a.at(2) == 101`; `b` still reads `100, 101, 102`. -/
theorem copy_assignment_misreads :
    (run (Deque.default Nat) [.push_back 100, .push_back 101, .push_back 102]).isSome = true ∧
    (run { Deque.default Nat with heap := three_back.heap } [.push_front 1]).isSome = true ∧
    contents one_front_beside = [.val 1] ∧
    contents { three_back with heap := one_front_beside.heap }
      = [.val 100, .val 101, .val 102] ∧
    (assign 10 one_front_beside three_back).map (fun r => r.map (fun a =>
        (size a, contents a, contents { three_back with heap := a.heap })))
      = some (some (3, [.val 100, .val 100, .val 101], [.val 100, .val 101, .val 102])) := by
  decide

/-- C15 (code defect): on the deque left by `push_front(1)` (forward sequence `[1]`),
`erase(begin())` returns with `size() == 0`, but then `begin() != end()` and forward iteration
dereferences block 0 of the empty directory: undefined behaviour instead of the empty
sequence. -/
theorem erase_last_element_breaks_iteration :
    (run (Deque.default Nat) [.push_front 1]).isSome = true ∧
    iterate 10 one_front = some (some [1]) ∧
    ((erase 10 one_front (begin_ one_front)).map (fun r => r.exn?.isNone && !r.isUb))
      = some true ∧
    size erased_one_front = 0 ∧ NumPtrs erased_one_front = 0 ∧
    (begin_ erased_one_front).eq (end_ erased_one_front) = false ∧
    (begin_ erased_one_front).sub_arr_ind_ = 0 ∧ (end_ erased_one_front).sub_arr_ind_ = -1 ∧
    iterate 10 erased_one_front = some none := by
  decide

/-- C17 (code defect): the deque left by `push_back(1)`, `pop_front()` has `size() == 0`
but `begin() != end()` and `end() - begin() == -1`; after a further `push_back(2)` the size
is 1 but `begin() == end()` and `end() - begin() == 0`. -/
theorem end_minus_begin_after_emptying :
    (run (Deque.default Nat) [.push_back 1, .pop_front]).isSome = true ∧
    size emptied_tail = 0 ∧ (begin_ emptied_tail).eq (end_ emptied_tail) = false ∧
    (end_ emptied_tail).diff (begin_ emptied_tail) = some (-1) ∧
    (run (Deque.default Nat) [.push_back 1, .pop_front, .push_back 2]).isSome = true ∧
    size refilled_tail = 1 ∧ (begin_ refilled_tail).eq (end_ refilled_tail) = true ∧
    (end_ refilled_tail).diff (begin_ refilled_tail) = some 0 := by
  decide

/-- Distance of a walk of fewer than `2 ^ 31` steps: for a valid cursor `a` and the cursor `b`
reached from it by `k < 2 ^ 31` applications of `operator++`, `b - a == k` and
`a - b == -k`. -/
theorem distance_of_steps (a : iterator_template) (k : Nat) (hv : a.valid)
    (hk : k < 2147483648) :
    (a.inc_times k).diff a = some (k : Int) ∧ a.diff (a.inc_times k) = some (-(k : Int)) := by
  obtain ⟨hp, hr, hbv, hl⟩ := inc_times_spec k a hv
  have hlt1 : (a.inc_times k).lt a = false := by
    have := (lt_iff_lin (a.inc_times k) a hbv hv hp hr).not
    simp only [Bool.not_eq_true] at this
    exact this.mpr (by omega)
  have hd := diff_core_lin (a.inc_times k) a hbv hv hr (by omega) (by omega)
  constructor
  · unfold iterator_template.diff
    rw [hlt1]
    simp only [Bool.false_eq_true, if_false, hd, Option.some.injEq]
    omega
  · unfold iterator_template.diff
    by_cases hk0 : k = 0
    · subst hk0
      simp only [iterator_template.inc_times] at hlt1 ⊢
      rw [hlt1]
      have := diff_core_lin a a hv hv rfl (le_refl _) (by omega)
      simp only [Bool.false_eq_true, if_false, this, Option.some.injEq]
      simp
    · have hlt2 : a.lt (a.inc_times k) = true :=
        (lt_iff_lin a (a.inc_times k) hv hbv hp.symm hr.symm).mpr (by omega)
      rw [hlt2]
      simp only [if_true, hd, Option.map_some', Option.some.injEq]
      omega

/-- Witness for `distance_of_steps`: twenty steps from slot 3 of head block 0 with boundary
0, across the boundary into tail block 1. -/
theorem distance_of_steps_witness :
    (⟨[], 3, 0, 0⟩ : iterator_template).valid ∧ 20 < 2147483648 ∧
    ((⟨[], 3, 0, 0⟩ : iterator_template).inc_times 20).diff ⟨[], 3, 0, 0⟩ = some ((20 : Nat) : Int) ∧
    (⟨[], 3, 0, 0⟩ : iterator_template).diff ((⟨[], 3, 0, 0⟩ : iterator_template).inc_times 20)
      = some (-((20 : Nat) : Int)) :=
  ⟨by decide, by decide, distance_of_steps ⟨[], 3, 0, 0⟩ 20 (by decide) (by decide)⟩

/-- C18 (code defect): from the valid cursor at block 0, slot 15 of a head region,
`2 ^ 31 + 16` applications of `operator++` reach block `2 ^ 27 + 1`, slot 15, and the
distance computation of the head branch overflows the `int` product
`sub_arr_dist * kSubVectorSize`, so no distance `2 ^ 31 + 16` is returned; from the valid
cursor at block 0, slot 0 of a tail region the same number of steps reaches block
`2 ^ 27 + 1`, slot 0, and the 64-bit computation of the tail branch returns `2 ^ 31 + 16`. -/
theorem distance_overflows_int :
    far_head.valid ∧ (far_head.inc_times 2147483664).diff far_head = none ∧
    tail_start.valid ∧ (tail_start.inc_times 2147483664).diff tail_start = some 2147483664 := by
  refine ⟨by decide, ?_, by decide, ?_⟩
  · obtain ⟨hp, hr, hbv, hl⟩ := inc_times_spec 2147483664 far_head (by decide)
    generalize far_head.inc_times 2147483664 = b at hp hr hbv hl ⊢
    obtain ⟨pb, lb, sb, rb⟩ := b
    simp only [far_head, iterator_template.valid, iterator_template.lin] at hp hr hbv hl
    subst hp hr
    obtain ⟨b0, b16⟩ := hbv
    have hsb : sb = 134217729 := by
      split at hl <;> omega
    subst hsb
    simp only [iterator_template.diff, iterator_template.lt, far_head, diff_core, to_int32,
      is_int32, kSubVectorSize]
    norm_num
  · obtain ⟨hp, hr, hbv, hl⟩ := inc_times_spec 2147483664 tail_start (by decide)
    generalize tail_start.inc_times 2147483664 = b at hp hr hbv hl ⊢
    obtain ⟨pb, lb, sb, rb⟩ := b
    simp only [tail_start, iterator_template.valid, iterator_template.lin] at hp hr hbv hl
    subst hp hr
    obtain ⟨b0, b16⟩ := hbv
    have hsb : sb = 134217729 ∧ lb = 0 := by
      split at hl <;> omega
    obtain ⟨hsb, hlb⟩ := hsb
    subst hsb hlb
    simp only [iterator_template.diff, iterator_template.lt, tail_start, diff_core, to_int32,
      is_int32, kSubVectorSize]
    norm_num

/-- C19 (code defect): after `push_back(1)`, `pop_front()` the size is 0, one block has been
acquired and none released: it is still held. -/
theorem block_leaks_when_emptied_by_pop_front :
    (run (Deque.default Nat) [.push_back 1, .pop_front]).map
        (fun d => (size d, allocations d.heap, held_blocks d.heap, d.ptrs_))
      = some (0, 1, 1, []) := by
  decide

/-- C20 (code defect): `push_front(5)` on a default-constructed deque makes two `Allocate`
calls, one in `AdjustPointers` and one for the head block, and both blocks are held
afterwards. -/
theorem push_front_allocates_twice :
    allocations (Deque.default Nat).heap = 0 ∧
    ((push_front (Deque.default Nat) 5).state?).map
        (fun d => (size d, allocations d.heap, held_blocks d.heap, d.ptrs_))
      = some (1, 2, 2, [some 1]) := by
  decide

/-! ### Cursors of a deque -/

/-- The cursor at a logical position is valid, belongs to the deque and has that position. -/
theorem cur_spec {T : Type} (d : Deque T) (l : Int) :
    (cur d l).valid ∧ (cur d l).ptrs_ = d.ptrs_ ∧ (cur d l).reverse_start_ = d.reverse_start_ ∧
    (cur d l).lin = l := by
  unfold cur iterator_template.valid iterator_template.lin
  simp only
  refine ⟨?_, trivial, trivial, ?_⟩
  · split <;> omega
  · split <;> omega

/-- A valid cursor of a deque is the cursor at its logical position. -/
theorem eq_cur {T : Type} (d : Deque T) (it : iterator_template) (hv : it.valid)
    (hp : it.ptrs_ = d.ptrs_) (hr : it.reverse_start_ = d.reverse_start_) :
    it = cur d it.lin := by
  obtain ⟨p, l, s, r⟩ := it
  simp only [iterator_template.valid] at hv hp hr
  subst hp hr
  obtain ⟨h0, h16⟩ := hv
  unfold cur iterator_template.lin
  simp only
  have hs : (16 * s + if s ≤ d.reverse_start_ then 15 - l else l) / 16 = s := by
    split <;> omega
  have hm : (16 * s + if s ≤ d.reverse_start_ then 15 - l else l) % 16
      = if s ≤ d.reverse_start_ then 15 - l else l := by
    split <;> omega
  rw [hs, hm]
  congr 1
  split <;> omega

/-- One `operator++` moves the cursor at position `l` to the cursor at `l + 1`. -/
theorem inc_cur {T : Type} (d : Deque T) (l : Int) : (cur d l).inc = cur d (l + 1) := by
  obtain ⟨hv, hp, hr, hl⟩ := cur_spec d l
  obtain ⟨h1, h2, h3, h4⟩ := inc_spec (cur d l) hv
  have := eq_cur d (cur d l).inc h3 (h1.trans hp) (h2.trans hr)
  rw [this, h4, hl]

/-- The closed-form advance by `n ≥ 0` adds `n` to the logical position of a valid cursor. -/
theorem add_core_spec (it : iterator_template) (n : Int) (hv : it.valid) (hn : 0 ≤ n) :
    (add_core it n).ptrs_ = it.ptrs_ ∧ (add_core it n).reverse_start_ = it.reverse_start_ ∧
    (add_core it n).valid ∧ (add_core it n).lin = it.lin + n := by
  obtain ⟨p, l, s, r⟩ := it
  simp only [iterator_template.valid] at hv
  obtain ⟨h0, h16⟩ := hv
  unfold add_core iterator_template.valid iterator_template.lin
  simp only
  by_cases hh : s ≤ r
  · simp only [hh, if_true]
    by_cases hl : l - n < 0
    · have hd : (n - (l + 1)).tdiv 16 = (n - (l + 1)) / 16 :=
        Int.tdiv_eq_ediv (by omega) (by decide)
      have hm : (n - (l + 1)).tmod 16 = (n - (l + 1)) % 16 :=
        Int.tmod_eq_emod (by omega) (by decide)
      simp only [kSubVectorSize]
      simp only [hl, if_true, hd, hm]
      refine ⟨trivial, trivial, ?_, ?_⟩
      · split <;> omega
      · split <;> split <;> omega
    · simp only [hl, if_false, hh, if_true]
      exact ⟨trivial, trivial, ⟨by omega, by omega⟩, by omega⟩
  · have hd : (l + n).tdiv kSubVectorSize = (l + n) / 16 :=
      Int.tdiv_eq_ediv (by omega) (by decide)
    have hm : (l + n).tmod kSubVectorSize = (l + n) % 16 :=
      Int.tmod_eq_emod (by omega) (by decide)
    simp only [hh, if_false, hd, hm]
    refine ⟨trivial, trivial, ⟨by omega, by omega⟩, ?_⟩
    split <;> omega

/-- The offset `cursor + n` for `n ≥ 0` is the cursor `n` positions further. -/
theorem plus_cur {T : Type} (d : Deque T) (l n : Int) (hn : 0 ≤ n) :
    (cur d l).plus n = cur d (l + n) := by
  obtain ⟨hv, hp, hr, hl⟩ := cur_spec d l
  have hnn : ¬ (n < 0) := by omega
  unfold iterator_template.plus AddToGlobalInd
  simp only [hnn, if_false]
  obtain ⟨h1, h2, h3, h4⟩ := add_core_spec (cur d l) n hv hn
  have := eq_cur d (add_core (cur d l) n) h3 (h1.trans hp) (h2.trans hr)
  rw [this, h4, hl]

/-- Two cursors of a deque are equal under `operator==` exactly when their positions are. -/
theorem cur_eq_iff {T : Type} (d : Deque T) (l1 l2 : Int) :
    (cur d l1).eq (cur d l2) = true ↔ l1 = l2 := by
  constructor
  · intro h
    unfold iterator_template.eq cur at h
    simp only [decide_eq_true_eq, true_and] at h
    obtain ⟨ha, hb⟩ := h
    rw [hb] at ha
    split at ha <;> omega
  · intro h
    subst h
    simp [iterator_template.eq]

/-! ### The free store under construction and assignment -/

/-- Reading a slot of a held block. -/
theorem load_held {T : Type} (h : Heap T) (a : Nat) (b : Block T) (j : Int)
    (hb : h[a]? = some (some b)) :
    load h (some a) j = if 0 ≤ j ∧ j < 16 then (b[j.toNat]?).join else none := by
  simp only [load, blockAt, hb, kSubVectorSize]

/-- Overwriting slot `j` of the held block `a` with `v` updates the free store at that slot
only. -/
theorem set_heap_upd {T : Type} (h : Heap T) (a : Nat) (b : Block T) (j : Int) (v : T)
    (hb : h[a]? = some (some b)) (hl : b.length = 16) (h0 : 0 ≤ j) (h16 : j < 16) :
    heap_upd h (h.set a (some (b.set j.toNat (some v)))) a j v := by
  have ha : a < h.length := by
    rcases List.getElem?_eq_some_iff.mp hb with ⟨hlt, _⟩
    exact hlt
  have hnew : (h.set a (some (b.set j.toNat (some v))))[a]? = some (some (b.set j.toNat (some v))) :=
    List.getElem?_set_self ha
  have hjn : j.toNat < 16 := by omega
  refine ⟨List.length_set _ _ _, ?_, ?_, ?_⟩
  · intro a1
    unfold held16
    by_cases hne : a = a1
    · subst hne
      rw [hnew]
      constructor
      · intro _
        exact ⟨b, hb, hl⟩
      · intro _
        exact ⟨_, rfl, by simp [hl]⟩
    · rw [List.getElem?_set_ne hne]
  · rw [load_held _ a _ j hnew]
    have : (b.set j.toNat (some v))[j.toNat]? = some (some v) :=
      List.getElem?_set_self (by omega)
    simp [h0, h16, this]
  · intro a1 j1 hne
    by_cases hne1 : a = a1
    · subst hne1
      have hj : j1 ≠ j := by
        rcases hne with h | h
        · exact absurd rfl h
        · exact h
      rw [load_held _ a _ j1 hnew, load_held _ a _ j1 hb]
      by_cases hr : 0 ≤ j1 ∧ j1 < 16
      · have : j.toNat ≠ j1.toNat := by omega
        simp only [hr, and_self, if_true, List.getElem?_set_ne this]
      · simp only [hr, if_false]
    · simp only [load, blockAt, List.getElem?_set_ne hne1]

/-- Placement construction into a held block. -/
theorem construct_upd {T : Type} (h : Heap T) (a : Nat) (j : Int) (v : T) (hh : held16 h a)
    (h0 : 0 ≤ j) (h16 : j < 16) :
    ∃ h1, construct h (some a) j v = some h1 ∧ heap_upd h h1 a j v := by
  obtain ⟨b, hb, hl⟩ := hh
  refine ⟨h.set a (some (b.set j.toNat (some v))), ?_, set_heap_upd h a b j v hb hl h0 h16⟩
  have hr : 0 ≤ j ∧ j < kSubVectorSize := ⟨h0, h16⟩
  simp only [construct, blockAt, hb, hr, and_self, if_true]

/-- Assignment to a slot that holds an element. -/
theorem store_upd {T : Type} (h : Heap T) (a : Nat) (j : Int) (x v : T) (hh : held16 h a)
    (hx : load h (some a) j = some x) :
    ∃ h1, store h (some a) j v = some h1 ∧ heap_upd h h1 a j v := by
  obtain ⟨b, hb, hl⟩ := hh
  rw [load_held h a b j hb] at hx
  by_cases hr : 0 ≤ j ∧ j < 16
  · simp only [hr, and_self, if_true] at hx
    have hbj : b[j.toNat]? = some (some x) := by
      cases hc : b[j.toNat]? with
      | none => simp [hc] at hx
      | some o =>
        cases o with
        | none => simp [hc] at hx
        | some y =>
          simp only [hc, Option.join, Option.some_bind, id, Option.some.injEq] at hx
          subst hx
          rfl
    refine ⟨h.set a (some (b.set j.toNat (some v))), ?_, set_heap_upd h a b j v hb hl hr.1 hr.2⟩
    have hr2 : 0 ≤ j ∧ j < kSubVectorSize := hr
    simp only [store, blockAt, hb, hr2, and_self, if_true, hbj]
  · simp only [hr, if_false] at hx
    cases hx

/-- A held block keeps being held, and keeps its slots, when a new block is allocated; the
new block has the next handle and is held. -/
theorem Allocate_spec {T : Type} (h : Heap T) :
    (Allocate h).1 = some h.length ∧ (Allocate h).2.length = h.length + 1 ∧
    held16 (Allocate h).2 h.length ∧
    (∀ a, held16 h a → held16 (Allocate h).2 a ∧ a < h.length) ∧
    ∀ a j, a < h.length → load (Allocate h).2 (some a) j = load h (some a) j := by
  refine ⟨rfl, by simp [Allocate], ?_, ?_, ?_⟩
  · exact ⟨List.replicate 16 none, by simp [Allocate], by simp⟩
  · intro a ⟨b, hb, hl⟩
    have ha : a < h.length := by
      rcases List.getElem?_eq_some_iff.mp hb with ⟨hlt, _⟩
      exact hlt
    refine ⟨⟨b, ?_, hl⟩, ha⟩
    simp only [Allocate]
    rw [List.getElem?_append_left ha]
    exact hb
  · intro a j ha
    simp only [load, blockAt, Allocate]
    rw [List.getElem?_append_left ha]

/-! ### The layout invariant -/

/-- Reading through the cursor at a logical position. -/
theorem read_cur {T : Type} (d : Deque T) (h : Heap T) (l : Int) :
    (cur d l).read h = (vecAt d.ptrs_ (l / 16)).bind
      (fun p => load h p (if l / 16 ≤ d.reverse_start_ then 15 - l % 16 else l % 16)) := rfl

/-- Assigning through the cursor at a logical position. -/
theorem write_cur {T : Type} (d : Deque T) (h : Heap T) (l : Int) (v : T) :
    (cur d l).write h v = (vecAt d.ptrs_ (l / 16)).bind
      (fun p => store h p (if l / 16 ≤ d.reverse_start_ then 15 - l % 16 else l % 16) v) := rfl

/-- The positions of a layout lie between the first live block and the end of the
directory. -/
theorem Layout.bounds {T : Type} {d : Deque T} {s : List T} (L : Layout d s) :
    16 * d.front_ptr_ind_ ≤ lin_begin d ∧ lin_end d ≤ 16 * NumPtrs d ∧
    lin_begin d ≤ lin_end d := by
  have h1 := L.rs
  have h2 := L.bs
  have h3 := L.len
  have h4 := L.rst_lt
  unfold lin_begin lin_end at *
  refine ⟨?_, ?_, by omega⟩
  · split
    · rename_i h; have := h1 h; omega
    · omega
  · split
    · rename_i h; have := h2 h; omega
    · omega

/-- The block of the element at index `i` lies in the live part of the directory. -/
theorem Layout.pos_sub {T : Type} {d : Deque T} {s : List T} (L : Layout d s) (i : Nat)
    (hi : i < s.length) :
    d.front_ptr_ind_ ≤ (lin_begin d + i) / 16 ∧ (lin_begin d + i) / 16 < NumPtrs d := by
  obtain ⟨h1, h2, _⟩ := L.bounds
  have h3 := L.len
  constructor <;> omega

/-- Subscript of a vector with one more element at the end. -/
theorem vecAt_append_left {α : Type} (v : List α) (x : α) (i : Int) (hi : i < v.length) :
    vecAt (v ++ [x]) i = vecAt v i := by
  unfold vecAt
  split
  · rw [List.getElem?_append_left (by omega)]
  · rfl

/-- Subscript of the last element of a vector. -/
theorem vecAt_append_length {α : Type} (v : List α) (x : α) :
    vecAt (v ++ [x]) (v.length : Int) = some x := by
  unfold vecAt
  simp

/-- The last element of a non-empty vector as a subscript. -/
theorem getLast?_eq_vecAt {α : Type} (v : List α) (hv : 1 ≤ v.length) :
    v.getLast? = vecAt v ((v.length : Int) - 1) := by
  unfold vecAt
  have h0 : (0 : Int) ≤ (v.length : Int) - 1 := by omega
  simp only [h0, if_true, List.getLast?_eq_getElem?]
  congr 1
  omega

/-- A `push_back` that finds room in the last block keeps the layout. -/
theorem layout_push_back_nogrow {T : Type} {d : Deque T} {s : List T} (L : Layout d s) (x : T)
    (hg : ¬ (d.ptrs_.isEmpty ∨ (d.reverse_start_ = NumPtrs d - 1 ∧ d.back_offset_ = 0) ∨
      d.back_size_ = kSubVectorSize)) :
    ∃ d1, push_back d x = Outcome.ok d1 ∧ Layout d1 (s ++ [x]) := by
  obtain ⟨hb1, hb2, hb3⟩ := L.bounds
  have hbo := L.bo
  have hrl := L.rst_lt
  have hn1 : 1 ≤ d.ptrs_.length := by
    rcases hl : d.ptrs_ with _ | ⟨p, ps⟩
    · exact absurd (by simp [hl]) (fun h => hg (Or.inl h))
    · simp
  have hrst : NumPtrs d - 1 > d.reverse_start_ := by
    by_contra hc
    exact hg (Or.inr (Or.inl ⟨by omega, hbo⟩))
  have hbs := L.bs hrst
  have hbs16 : d.back_size_ ≠ 16 := fun h => hg (Or.inr (Or.inr h))
  have hfpi := L.fpi_le
  obtain ⟨a, hva, hha⟩ := L.blocks (NumPtrs d - 1) (by omega) (by omega)
  obtain ⟨h1, hc, hu⟩ := construct_upd d.heap a d.back_size_ x hha (by omega) (by omega)
  have hlast : d.ptrs_.getLast? = some (some a) := by
    rw [getLast?_eq_vecAt _ hn1]
    exact hva
  refine ⟨{ d with heap := h1, back_size_ := d.back_size_ + 1, size_ := d.size_ + 1 }, ?_, ?_⟩
  · have hpg : push_back_grow d = (d, false) := by
      unfold push_back_grow
      rw [if_neg hg]
    unfold push_back push_back_impl
    simp only [hpg, hbo, lt_irrefl, gt_iff_lt, if_false, hlast, Option.map_some',
      Bool.false_eq_true, hc]
  · have hle : lin_end d = 16 * (NumPtrs d - 1) + d.back_size_ := by
      unfold lin_end
      simp only [hrst, if_true]
    have hlen := L.len
    obtain ⟨hu1, hu2, hu3, hu4⟩ := hu
    constructor
    · exact L.fo
    · exact L.bo
    · have := L.size_eq
      simp only [List.length_append, List.length_singleton]
      push_cast
      omega
    · exact L.fpi0
    · exact L.fpi_le
    · exact L.rst_lt
    · exact L.rs
    · intro _
      show 1 ≤ d.back_size_ + 1 ∧ d.back_size_ + 1 ≤ 16
      omega
    · simp only [List.length_append, List.length_singleton]
      unfold lin_end lin_begin at *
      simp only [NumPtrs] at *
      simp only [hrst, if_true] at *
      push_cast
      omega
    · intro sub h1s h2s
      obtain ⟨a1, hv1, hh1⟩ := L.blocks sub h1s h2s
      exact ⟨a1, hv1, (hu2 a1).mpr hh1⟩
    · exact L.inj
    · intro i hi
      simp only [List.length_append, List.length_singleton] at hi
      show (cur d (lin_begin d + i)).read h1 = (s ++ [x])[i]?
      rw [read_cur]
      by_cases hlt : i < s.length
      · obtain ⟨p1, p2⟩ := L.pos_sub i hlt
        obtain ⟨a1, hv1, hh1⟩ := L.blocks _ p1 p2
        have he := L.elems i hlt
        rw [read_cur, hv1] at he
        rw [hv1, List.getElem?_append_left hlt, ← he]
        simp only [Option.some_bind]
        apply hu4
        by_cases hs : (lin_begin d + i) / 16 = NumPtrs d - 1
        · right
          have : ¬ ((lin_begin d + ↑i) / 16 ≤ d.reverse_start_) := by omega
          simp only [this, if_false]
          omega
        · left
          intro hc
          subst hc
          exact hs (L.inj _ _ _ p1 p2 (by omega) (by omega) hv1 hva)
      · have hi2 : i = s.length := by omega
        subst hi2
        have hpos : lin_begin d + (s.length : Int) = 16 * (NumPtrs d - 1) + d.back_size_ := by
          omega
        have hq : (16 * (NumPtrs d - 1) + d.back_size_) / 16 = NumPtrs d - 1 := by omega
        have hm : (16 * (NumPtrs d - 1) + d.back_size_) % 16 = d.back_size_ := by omega
        have hnr : ¬ (NumPtrs d - 1 ≤ d.reverse_start_) := by omega
        rw [hpos, hq, hm, hva]
        simp only [hnr, if_false, Option.some_bind, hu3]
        simp

/-- A `push_back` that appends a new block to the directory keeps the layout. -/
theorem layout_push_back_grow {T : Type} {d : Deque T} {s : List T} (L : Layout d s) (x : T)
    (hg : d.ptrs_.isEmpty ∨ (d.reverse_start_ = NumPtrs d - 1 ∧ d.back_offset_ = 0) ∨
      d.back_size_ = kSubVectorSize) :
    ∃ d1, push_back d x = Outcome.ok d1 ∧ Layout d1 (s ++ [x]) := by
  obtain ⟨hb1, hb2, hb3⟩ := L.bounds
  have hbo := L.bo
  have hrl := L.rst_lt
  have hfpi := L.fpi_le
  have hf0 := L.fpi0
  obtain ⟨hA1, hA2, hA3, hA4, hA5⟩ := Allocate_spec d.heap
  obtain ⟨h2, hc, hu⟩ := construct_upd (Allocate d.heap).2 d.heap.length 0 x hA3 (by omega)
    (by omega)
  obtain ⟨hu1, hu2, hu3, hu4⟩ := hu
  have hle : lin_end d = 16 * NumPtrs d := by
    unfold lin_end
    split
    · rename_i ht
      have hbs : d.back_size_ = 16 := by
        rcases hg with h | h | h
        · have : d.ptrs_ = [] := by simpa using h
          simp only [NumPtrs, this, List.length_nil] at ht
          omega
        · omega
        · exact h
      omega
    · rfl
  have hlen := L.len
  have hn : NumPtrs { d with ptrs_ := d.ptrs_ ++ [some d.heap.length], heap := h2, back_size_ := 0 + 1, size_ := d.size_ + 1 } = NumPtrs d + 1 := by
    simp [NumPtrs]
  refine ⟨{ d with ptrs_ := d.ptrs_ ++ [some d.heap.length], heap := h2, back_size_ := 0 + 1, size_ := d.size_ + 1 }, ?_, ?_⟩
  · have hpg : push_back_grow d = ({ d with ptrs_ := d.ptrs_ ++ [(Allocate d.heap).1], heap := (Allocate d.heap).2, back_size_ := 0 }, true) := by
      unfold push_back_grow
      rw [if_pos hg]
    unfold push_back push_back_impl
    simp only [hpg, hbo, lt_irrefl, gt_iff_lt, if_false, List.getLast?_concat, Option.map_some',
      Bool.false_eq_true, hA1, hc]
  · constructor
    · exact L.fo
    · exact L.bo
    · have := L.size_eq
      simp only [List.length_append, List.length_singleton]
      push_cast
      omega
    · exact L.fpi0
    · exact L.fpi_le
    · rw [hn]
      show d.reverse_start_ < NumPtrs d + 1
      omega
    · exact L.rs
    · intro _
      show 1 ≤ (0 : Int) + 1 ∧ (0 : Int) + 1 ≤ 16
      omega
    · simp only [List.length_append, List.length_singleton]
      have hb : lin_begin { d with ptrs_ := d.ptrs_ ++ [some d.heap.length], heap := h2, back_size_ := 0 + 1, size_ := d.size_ + 1 } = lin_begin d := rfl
      have he : lin_end { d with ptrs_ := d.ptrs_ ++ [some d.heap.length], heap := h2, back_size_ := 0 + 1, size_ := d.size_ + 1 } = 16 * NumPtrs d + 1 := by
        unfold lin_end
        rw [hn]
        have : NumPtrs d + 1 - 1 > d.reverse_start_ := by omega
        simp only [this, if_true]
        omega
      rw [hb, he]
      push_cast
      omega
    · intro sub h1s h2s
      rw [hn] at h2s
      by_cases hs : sub < NumPtrs d
      · obtain ⟨a1, hv1, hh1⟩ := L.blocks sub h1s hs
        refine ⟨a1, ?_, (hu2 a1).mpr (hA4 a1 hh1).1⟩
        show vecAt (d.ptrs_ ++ [some d.heap.length]) sub = some (some a1)
        rw [vecAt_append_left _ _ _ hs]
        exact hv1
      · have : sub = (d.ptrs_.length : Int) := by
          unfold NumPtrs at hs h2s
          omega
        subst this
        exact ⟨d.heap.length, vecAt_append_length _ _, (hu2 _).mpr hA3⟩
    · intro sub1 sub2 a h1a h1b h2a h2b hv1 hv2
      rw [hn] at h1b h2b
      change vecAt (d.ptrs_ ++ [some d.heap.length]) sub1 = some (some a) at hv1
      change vecAt (d.ptrs_ ++ [some d.heap.length]) sub2 = some (some a) at hv2
      by_cases hs1 : sub1 < NumPtrs d
      · rw [vecAt_append_left _ _ _ hs1] at hv1
        by_cases hs2 : sub2 < NumPtrs d
        · rw [vecAt_append_left _ _ _ hs2] at hv2
          exact L.inj sub1 sub2 a h1a hs1 h2a hs2 hv1 hv2
        · have e2 : sub2 = (d.ptrs_.length : Int) := by
            unfold NumPtrs at hs2 h2b
            omega
          subst e2
          rw [vecAt_append_length] at hv2
          obtain ⟨a1, hv1b, hh1⟩ := L.blocks sub1 h1a hs1
          rw [hv1] at hv1b
          have := (hA4 a1 hh1).2
          simp only [Option.some.injEq] at hv1b hv2
          omega
      · have e1 : sub1 = (d.ptrs_.length : Int) := by
          unfold NumPtrs at hs1 h1b
          omega
        subst e1
        rw [vecAt_append_length] at hv1
        by_cases hs2 : sub2 < NumPtrs d
        · rw [vecAt_append_left _ _ _ hs2] at hv2
          obtain ⟨a1, hv2b, hh1⟩ := L.blocks sub2 h2a hs2
          rw [hv2] at hv2b
          have := (hA4 a1 hh1).2
          simp only [Option.some.injEq] at hv2b hv1
          omega
        · unfold NumPtrs at hs2 h2b
          omega
    · intro i hi
      simp only [List.length_append, List.length_singleton] at hi
      show (cur { d with ptrs_ := d.ptrs_ ++ [some d.heap.length], heap := h2, back_size_ := 0 + 1, size_ := d.size_ + 1 } (lin_begin d + i)).read h2
        = (s ++ [x])[i]?
      rw [read_cur]
      show (vecAt (d.ptrs_ ++ [some d.heap.length]) ((lin_begin d + i) / 16)).bind _ = _
      by_cases hlt : i < s.length
      · obtain ⟨p1, p2⟩ := L.pos_sub i hlt
        obtain ⟨a1, hv1, hh1⟩ := L.blocks _ p1 p2
        have he := L.elems i hlt
        rw [read_cur, hv1] at he
        rw [vecAt_append_left _ _ _ p2, hv1, List.getElem?_append_left hlt, ← he]
        simp only [Option.some_bind]
        have hlt1 := (hA4 a1 hh1).2
        rw [hu4 a1 _ (Or.inl (by omega)), hA5 a1 _ hlt1]
      · have hi2 : i = s.length := by omega
        subst hi2
        have hpos : lin_begin d + (s.length : Int) = 16 * (d.ptrs_.length : Int) := by
          unfold NumPtrs at hle
          omega
        have hq : (16 * (d.ptrs_.length : Int)) / 16 = (d.ptrs_.length : Int) := by omega
        have hm : (16 * (d.ptrs_.length : Int)) % 16 = 0 := by omega
        have hnr : ¬ ((d.ptrs_.length : Int) ≤ d.reverse_start_) := by
          unfold NumPtrs at hrl
          omega
        rw [hpos, hq, hm, vecAt_append_length]
        simp only [hnr, if_false, Option.some_bind, hu3]
        simp

/-- A `push_back` on a deque laid out for `s` returns a deque laid out for `s ++ [x]`. -/
theorem layout_push_back {T : Type} {d : Deque T} {s : List T} (L : Layout d s) (x : T) :
    ∃ d1, push_back d x = Outcome.ok d1 ∧ Layout d1 (s ++ [x]) := by
  by_cases hg : d.ptrs_.isEmpty ∨ (d.reverse_start_ = NumPtrs d - 1 ∧ d.back_offset_ = 0) ∨
      d.back_size_ = kSubVectorSize
  · exact layout_push_back_grow L x hg
  · exact layout_push_back_nogrow L x hg

/-- Subscript of the assigned element of a vector. -/
theorem vecAt_set_eq {α : Type} (v : List α) (k : Nat) (x : α) (hk : k < v.length) :
    vecAt (v.set k x) (k : Int) = some x := by
  unfold vecAt
  simp [hk]

/-- Subscript of another element of a vector after an assignment. -/
theorem vecAt_set_ne {α : Type} (v : List α) (k : Nat) (x : α) (i : Int) (hi : i ≠ (k : Int)) :
    vecAt (v.set k x) i = vecAt v i := by
  unfold vecAt
  split
  · rename_i h0
    have : k ≠ i.toNat := by omega
    rw [List.getElem?_set_ne this]
  · rfl

/-- Subscript behind `m` inserted elements. -/
theorem vecAt_replicate_append {α : Type} (v : List α) (m : Nat) (x : α) (i : Int) (hi : 0 ≤ i) :
    vecAt (List.replicate m x ++ v) (i + m) = vecAt v i := by
  unfold vecAt
  have h0 : (0 : Int) ≤ i + m := by omega
  simp only [h0, hi, if_true]
  have : (i + (m : Int)).toNat = (List.replicate m x).length + i.toNat := by
    simp only [List.length_replicate]
    omega
  rw [this, List.getElem?_append_right (by omega)]
  simp

/-- A deque laid out for `s` whose directory is shifted by `m` entries and which gets a fresh
block holding `x` in slot 0 just before the old first block is laid out for `x :: s`. -/
theorem layout_new_head {T : Type} {d d1 : Deque T} {s : List T} (L : Layout d s) (x : T)
    (m : Int) (A : Nat)
    (hlb : lin_begin d = 16 * d.front_ptr_ind_)
    (hfo : d1.front_offset_ = 0) (hbo : d1.back_offset_ = 0)
    (hsz : d1.size_ = d.size_ + 1) (hbs : d1.back_size_ = d.back_size_)
    (hrst : d1.reverse_start_ = d.reverse_start_ + m)
    (hfpi : d1.front_ptr_ind_ = d.front_ptr_ind_ + m - 1)
    (hrs : d1.reversed_size_ = 1)
    (hn : NumPtrs d1 = NumPtrs d + m)
    (hf0 : 0 ≤ d.front_ptr_ind_ + m - 1)
    (hP2 : ∀ sub, d.front_ptr_ind_ ≤ sub → sub < NumPtrs d →
      vecAt d1.ptrs_ (sub + m) = vecAt d.ptrs_ sub)
    (hP3 : vecAt d1.ptrs_ (d.front_ptr_ind_ + m - 1) = some (some A))
    (hA : held16 d1.heap A)
    (hold : ∀ a, held16 d.heap a → a ≠ A ∧ held16 d1.heap a ∧
      ∀ j, load d1.heap (some a) j = load d.heap (some a) j)
    (hx : load d1.heap (some A) 0 = some x) :
    Layout d1 (x :: s) := by
  obtain ⟨hb1, hb2, hb3⟩ := L.bounds
  have hfl := L.fpi_le
  have hrl := L.rst_lt
  have hlen := L.len
  have hlb1 : lin_begin d1 = lin_begin d + 16 * m - 1 := by
    unfold lin_begin
    have : d1.front_ptr_ind_ ≤ d1.reverse_start_ := by omega
    simp only [this, if_true]
    unfold lin_begin at hlb
    omega
  have hle1 : lin_end d1 = lin_end d + 16 * m := by
    unfold lin_end
    rw [hn, hrst, hbs]
    by_cases ht : NumPtrs d - 1 > d.reverse_start_
    · have : NumPtrs d + m - 1 > d.reverse_start_ + m := by omega
      simp only [ht, this, if_true]
      omega
    · have : ¬ (NumPtrs d + m - 1 > d.reverse_start_ + m) := by omega
      simp only [ht, this, if_false]
      omega
  constructor
  · exact hfo
  · exact hbo
  · have := L.size_eq
    simp only [List.length_cons]
    push_cast
    omega
  · omega
  · omega
  · omega
  · intro _
    omega
  · intro ht
    rw [hbs]
    exact L.bs (by omega)
  · simp only [List.length_cons]
    push_cast
    omega
  · intro sub h1 h2
    by_cases hs : sub = d.front_ptr_ind_ + m - 1
    · subst hs
      exact ⟨A, hP3, hA⟩
    · obtain ⟨a, hv, hh⟩ := L.blocks (sub - m) (by omega) (by omega)
      refine ⟨a, ?_, (hold a hh).2.1⟩
      have := hP2 (sub - m) (by omega) (by omega)
      rw [sub_add_cancel] at this
      rw [this]
      exact hv
  · intro sub1 sub2 a h1a h1b h2a h2b hv1 hv2
    by_cases hs1 : sub1 = d.front_ptr_ind_ + m - 1
    · by_cases hs2 : sub2 = d.front_ptr_ind_ + m - 1
      · omega
      · exfalso
        obtain ⟨a2, hv, hh⟩ := L.blocks (sub2 - m) (by omega) (by omega)
        have e2 := hP2 (sub2 - m) (by omega) (by omega)
        rw [sub_add_cancel] at e2
        rw [e2, hv] at hv2
        rw [hs1, hP3] at hv1
        simp only [Option.some.injEq] at hv1 hv2
        exact (hold a2 hh).1 (by omega)
    · obtain ⟨a1, hva, hh1⟩ := L.blocks (sub1 - m) (by omega) (by omega)
      have e1 := hP2 (sub1 - m) (by omega) (by omega)
      rw [sub_add_cancel] at e1
      by_cases hs2 : sub2 = d.front_ptr_ind_ + m - 1
      · exfalso
        rw [e1, hva] at hv1
        rw [hs2, hP3] at hv2
        simp only [Option.some.injEq] at hv1 hv2
        exact (hold a1 hh1).1 (by omega)
      · have e2 := hP2 (sub2 - m) (by omega) (by omega)
        rw [sub_add_cancel] at e2
        rw [e1] at hv1
        rw [e2] at hv2
        have := L.inj (sub1 - m) (sub2 - m) a (by omega) (by omega) (by omega) (by omega) hv1 hv2
        omega
  · intro i hi
    rw [read_cur, hlb1, hrst]
    rcases i with _ | k
    · have hq : (lin_begin d + 16 * m - 1 + ((0 : Nat) : Int)) / 16 = d.front_ptr_ind_ + m - 1 := by
        omega
      have hr : (lin_begin d + 16 * m - 1 + ((0 : Nat) : Int)) % 16 = 15 := by omega
      have hc : d.front_ptr_ind_ + m - 1 ≤ d.reverse_start_ + m := by omega
      rw [hq, hr, hP3]
      simp only [hc, if_true, Option.some_bind]
      simpa using hx
    · simp only [List.length_cons] at hi
      have hk : k < s.length := by omega
      obtain ⟨p1, p2⟩ := L.pos_sub k hk
      obtain ⟨a1, hv1, hh1⟩ := L.blocks _ p1 p2
      have he := L.elems k hk
      rw [read_cur, hv1] at he
      have hq : (lin_begin d + 16 * m - 1 + ((k + 1 : Nat) : Int)) / 16
          = (lin_begin d + k) / 16 + m := by
        push_cast
        omega
      have hr : (lin_begin d + 16 * m - 1 + ((k + 1 : Nat) : Int)) % 16
          = (lin_begin d + k) % 16 := by
        push_cast
        omega
      rw [hq, hr, hP2 _ p1 p2, hv1]
      simp only [Option.some_bind] at he ⊢
      rw [(hold a1 hh1).2.2]
      have hc : ((lin_begin d + k) / 16 + m ≤ d.reverse_start_ + m)
          ↔ ((lin_begin d + k) / 16 ≤ d.reverse_start_) := by omega
      simp only [hc, List.getElem?_cons_succ]
      exact he

/-- A `push_front` that finds room in the first block keeps the layout. -/
theorem layout_push_front_nogrow {T : Type} {d : Deque T} {s : List T} (L : Layout d s) (x : T)
    (hg : ¬ (d.ptrs_.isEmpty ∨ (d.front_offset_ = 0 ∧ d.front_ptr_ind_ - 1 = d.reverse_start_) ∨
      (d.reversed_size_ = kSubVectorSize ∧ d.front_ptr_ind_ ≤ d.reverse_start_))) :
    ∃ d1, push_front d x = Outcome.ok d1 ∧ Layout d1 (x :: s) := by
  obtain ⟨hb1, hb2, hb3⟩ := L.bounds
  have hfo := L.fo
  have hrl := L.rst_lt
  have hfl := L.fpi_le
  have hf0 := L.fpi0
  have hfr : d.front_ptr_ind_ ≤ d.reverse_start_ := by
    by_contra hc
    exact hg (Or.inr (Or.inl ⟨hfo, by omega⟩))
  have hrs := L.rs hfr
  have hrs16 : d.reversed_size_ ≠ 16 := fun h => hg (Or.inr (Or.inr ⟨h, hfr⟩))
  obtain ⟨a, hva, hha⟩ := L.blocks d.front_ptr_ind_ (by omega) (by omega)
  obtain ⟨h1, hc, hu⟩ := construct_upd d.heap a d.reversed_size_ x hha (by omega) (by omega)
  refine ⟨{ d with heap := h1, reversed_size_ := d.reversed_size_ + 1, size_ := d.size_ + 1 },
    ?_, ?_⟩
  · have hpg : push_front_grow d = some (d, false, false) := by
      unfold push_front_grow
      rw [if_neg hg]
    unfold push_front push_front_impl
    simp only [hpg, hva, hfo, ne_eq, not_true_eq_false, if_false, Bool.false_eq_true, hc]
  · have hlb : lin_begin d = 16 * d.front_ptr_ind_ + 16 - d.reversed_size_ := by
      unfold lin_begin
      simp only [hfr, if_true]
    have hlb1 : lin_begin { d with heap := h1, reversed_size_ := d.reversed_size_ + 1, size_ := d.size_ + 1 } = lin_begin d - 1 := by
      unfold lin_begin
      simp only [hfr, if_true]
      omega
    have hlen := L.len
    obtain ⟨hu1, hu2, hu3, hu4⟩ := hu
    constructor
    · exact L.fo
    · exact L.bo
    · have := L.size_eq
      simp only [List.length_cons]
      push_cast
      omega
    · exact L.fpi0
    · exact L.fpi_le
    · exact L.rst_lt
    · intro _
      show 1 ≤ d.reversed_size_ + 1 ∧ d.reversed_size_ + 1 ≤ 16
      omega
    · exact L.bs
    · rw [hlb1]
      have he : lin_end { d with heap := h1, reversed_size_ := d.reversed_size_ + 1, size_ := d.size_ + 1 } = lin_end d := rfl
      rw [he]
      simp only [List.length_cons]
      push_cast
      omega
    · intro sub h1s h2s
      obtain ⟨a1, hv1, hh1⟩ := L.blocks sub h1s h2s
      exact ⟨a1, hv1, (hu2 a1).mpr hh1⟩
    · exact L.inj
    · intro i hi
      rw [hlb1]
      show (cur d (lin_begin d - 1 + i)).read h1 = (x :: s)[i]?
      rw [read_cur]
      rcases i with _ | k
      · have hq : (lin_begin d - 1 + ((0 : Nat) : Int)) / 16 = d.front_ptr_ind_ := by omega
        have hr : (lin_begin d - 1 + ((0 : Nat) : Int)) % 16 = 15 - d.reversed_size_ := by omega
        rw [hq, hr, hva]
        simp only [hfr, if_true, Option.some_bind]
        have : 15 - (15 - d.reversed_size_) = d.reversed_size_ := by omega
        rw [this, hu3]
        simp
      · simp only [List.length_cons] at hi
        have hk : k < s.length := by omega
        obtain ⟨p1, p2⟩ := L.pos_sub k hk
        obtain ⟨a1, hv1, hh1⟩ := L.blocks _ p1 p2
        have he := L.elems k hk
        rw [read_cur, hv1] at he
        have hpos : lin_begin d - 1 + ((k + 1 : Nat) : Int) = lin_begin d + k := by
          push_cast
          omega
        rw [hpos, hv1, List.getElem?_cons_succ, ← he]
        simp only [Option.some_bind]
        apply hu4
        by_cases hs : (lin_begin d + k) / 16 = d.front_ptr_ind_
        · right
          have : (lin_begin d + ↑k) / 16 ≤ d.reverse_start_ := by omega
          simp only [this, if_true]
          omega
        · left
          intro hc
          subst hc
          exact hs (L.inj _ _ _ p1 p2 (by omega) (by omega) hv1 hva)

/-- When `push_front` needs a new block, the first element sits at the start of its block. -/
theorem lin_begin_of_grow {T : Type} {d : Deque T} {s : List T} (L : Layout d s)
    (hg : d.ptrs_.isEmpty ∨ (d.front_offset_ = 0 ∧ d.front_ptr_ind_ - 1 = d.reverse_start_) ∨
      (d.reversed_size_ = kSubVectorSize ∧ d.front_ptr_ind_ ≤ d.reverse_start_)) :
    lin_begin d = 16 * d.front_ptr_ind_ := by
  have hrl := L.rst_lt
  have hfl := L.fpi_le
  have hf0 := L.fpi0
  unfold lin_begin
  split
  · rename_i hfr
    rcases hg with h | h | h
    · have : d.ptrs_ = [] := by simpa using h
      simp only [NumPtrs, this, List.length_nil] at hrl
      omega
    · omega
    · have := h.1
      simp only [kSubVectorSize] at this
      omega
  · rfl

/-- Blocks held before an allocation are still held, unchanged, and differ from the new one. -/
theorem Allocate_ext {T : Type} (h : Heap T) (a : Nat) (ha : held16 h a) :
    a < h.length ∧ held16 (Allocate h).2 a ∧
      ∀ j, load (Allocate h).2 (some a) j = load h (some a) j := by
  obtain ⟨hA1, hA2, hA3, hA4, hA5⟩ := Allocate_spec h
  exact ⟨(hA4 a ha).2, (hA4 a ha).1, fun j => hA5 a j (hA4 a ha).2⟩

/-- Constructing the first element of a fresh block leaves every older block as it was. -/
theorem fresh_block {T : Type} (h H0 : Heap T) (A : Nat) (x : T) (hA : held16 H0 A)
    (hext : ∀ a, held16 h a → a < A ∧ held16 H0 a ∧
      ∀ j, load H0 (some a) j = load h (some a) j) :
    ∃ h2, construct H0 (some A) 0 x = some h2 ∧ held16 h2 A ∧ load h2 (some A) 0 = some x ∧
      ∀ a, held16 h a → a ≠ A ∧ held16 h2 a ∧
        ∀ j, load h2 (some a) j = load h (some a) j := by
  obtain ⟨h2, hc, hu1, hu2, hu3, hu4⟩ := construct_upd H0 A 0 x hA (by omega) (by omega)
  refine ⟨h2, hc, (hu2 A).mpr hA, hu3, ?_⟩
  intro a ha
  obtain ⟨e1, e2, e3⟩ := hext a ha
  refine ⟨by omega, (hu2 a).mpr e2, fun j => ?_⟩
  rw [hu4 a j (Or.inl (by omega)), e3]

/-- A `push_front` that puts a new block into a free directory entry keeps the layout. -/
theorem layout_push_front_inplace {T : Type} {d : Deque T} {s : List T} (L : Layout d s) (x : T)
    (hg : d.ptrs_.isEmpty ∨ (d.front_offset_ = 0 ∧ d.front_ptr_ind_ - 1 = d.reverse_start_) ∨
      (d.reversed_size_ = kSubVectorSize ∧ d.front_ptr_ind_ ≤ d.reverse_start_))
    (hne : d.front_ptr_ind_ ≠ 0) :
    ∃ d1, push_front d x = Outcome.ok d1 ∧ Layout d1 (x :: s) := by
  have hfo := L.fo
  have hrl := L.rst_lt
  have hfl := L.fpi_le
  have hf0 := L.fpi0
  have hlb := lin_begin_of_grow L hg
  obtain ⟨hA1, hA2, hA3, hA4, hA5⟩ := Allocate_spec d.heap
  obtain ⟨h2, hc, hh2, hx, hold⟩ := fresh_block d.heap (Allocate d.heap).2 d.heap.length x hA3
    (Allocate_ext d.heap)
  have hk : (d.front_ptr_ind_ - 1).toNat < d.ptrs_.length := by
    unfold NumPtrs at hrl
    omega
  have hk0 : 0 ≤ d.front_ptr_ind_ - 1 := by omega
  have hkc : ((d.front_ptr_ind_ - 1).toNat : Int) = d.front_ptr_ind_ - 1 := by omega
  have hset : vecAt (d.ptrs_.set (d.front_ptr_ind_ - 1).toNat (some d.heap.length))
      (d.front_ptr_ind_ - 1) = some (some d.heap.length) := by
    have := vecAt_set_eq d.ptrs_ (d.front_ptr_ind_ - 1).toNat (some d.heap.length) hk
    rw [hkc] at this
    exact this
  have hdec : decide (d.front_ptr_ind_ = 0) = false := by simp [hne]
  unfold push_front push_front_impl push_front_grow
  rw [if_pos hg]
  simp only [hdec, Bool.false_eq_true, if_false, vecSet, hk0, hk, and_self, if_true,
    Option.map_some', hA1, hset, hfo, ne_eq, not_true_eq_false, hc]
  refine ⟨_, rfl, ?_⟩
  refine layout_new_head L x 0 d.heap.length hlb rfl L.bo ?_ rfl ?_ ?_ (by simp) ?_ ?_ ?_ ?_ hh2 hold hx
  · rfl
  · show d.reverse_start_ = d.reverse_start_ + 0
    omega
  · show d.front_ptr_ind_ - 1 = d.front_ptr_ind_ + 0 - 1
    omega
  · show ((d.ptrs_.set (d.front_ptr_ind_ - 1).toNat (some d.heap.length)).length : Int)
      = NumPtrs d + 0
    simp [NumPtrs]
  · omega
  · intro sub h1 h2
    show vecAt (d.ptrs_.set (d.front_ptr_ind_ - 1).toNat (some d.heap.length)) (sub + 0) = _
    rw [add_zero, vecAt_set_ne _ _ _ _ (by omega)]
  · show vecAt (d.ptrs_.set (d.front_ptr_ind_ - 1).toNat (some d.heap.length))
      (d.front_ptr_ind_ + 0 - 1) = _
    rw [add_zero]
    exact hset

/-- After `AdjustPointers` the quantity `NumPtrs() / 2 + (NumPtrs() == 1)` is the number of
inserted directory entries. -/
theorem half_ptrs_AdjustPointers {T : Type} (d : Deque T) :
    half_ptrs (AdjustPointers d)
      = ((d.ptrs_.length + (if d.ptrs_.isEmpty then 1 else 0) : Nat) : Int) ∧
    1 ≤ d.ptrs_.length + (if d.ptrs_.isEmpty then 1 else 0) := by
  unfold half_ptrs NumPtrs AdjustPointers
  rcases hp : d.ptrs_ with _ | ⟨p, ps⟩
  · simp
    decide
  · simp only [List.isEmpty_cons, Bool.false_eq_true, if_false, List.length_append,
      List.length_replicate, List.length_cons, add_zero]
    rw [Int.tdiv_eq_ediv (by omega) (by omega)]
    constructor
    · split <;> omega
    · omega

/-- A `push_front` that has to enlarge the directory keeps the layout. -/
theorem layout_push_front_adjust {T : Type} {d : Deque T} {s : List T} (L : Layout d s) (x : T)
    (hg : d.ptrs_.isEmpty ∨ (d.front_offset_ = 0 ∧ d.front_ptr_ind_ - 1 = d.reverse_start_) ∨
      (d.reversed_size_ = kSubVectorSize ∧ d.front_ptr_ind_ ≤ d.reverse_start_))
    (he : d.front_ptr_ind_ = 0) :
    ∃ d1, push_front d x = Outcome.ok d1 ∧ Layout d1 (x :: s) := by
  have hfo := L.fo
  have hrl := L.rst_lt
  have hfl := L.fpi_le
  have hlb := lin_begin_of_grow L hg
  obtain ⟨hhalf, hm1⟩ := half_ptrs_AdjustPointers d
  generalize hm : d.ptrs_.length + (if d.ptrs_.isEmpty then 1 else 0) = m at hhalf hm1
  have hext : ∀ a, held16 d.heap a → a < d.heap.length + 1 ∧
      held16 (Allocate (Allocate d.heap).2).2 a ∧
      ∀ j, load (Allocate (Allocate d.heap).2).2 (some a) j = load d.heap (some a) j := by
    intro a ha
    obtain ⟨e1, e2, e3⟩ := Allocate_ext d.heap a ha
    obtain ⟨f1, f2, f3⟩ := Allocate_ext (Allocate d.heap).2 a e2
    exact ⟨by omega, f2, fun j => by rw [f3, e3]⟩
  obtain ⟨hA1, hA2, hA3, hA4, hA5⟩ := Allocate_spec (Allocate d.heap).2
  have hlen1 : (Allocate d.heap).2.length = d.heap.length + 1 := (Allocate_spec d.heap).2.1
  rw [hlen1] at hA1 hA3
  obtain ⟨h2, hc, hh2, hx, hold⟩ := fresh_block d.heap (Allocate (Allocate d.heap).2).2
    (d.heap.length + 1) x hA3 hext
  have hdec : decide (d.front_ptr_ind_ = 0) = true := by simp [he]
  unfold push_front push_front_impl push_front_grow
  rw [if_pos hg]
  have haptrs : (AdjustPointers d).ptrs_ = List.replicate m (some d.heap.length) ++ d.ptrs_ := by
    rw [← hm]
    rfl
  have hk0 : (0 : Int) ≤ (m : Int) - 1 := by omega
  have hk : ((m : Int) - 1).toNat < (List.replicate m (some d.heap.length) ++ d.ptrs_).length := by
    simp only [List.length_append, List.length_replicate]
    omega
  have hkc : ((((m : Int) - 1).toNat : Nat) : Int) = (m : Int) - 1 := by omega
  have hset : vecAt ((List.replicate m (some d.heap.length) ++ d.ptrs_).set ((m : Int) - 1).toNat
      (some (d.heap.length + 1))) ((m : Int) - 1) = some (some (d.heap.length + 1)) := by
    have := vecAt_set_eq (List.replicate m (some d.heap.length) ++ d.ptrs_) ((m : Int) - 1).toNat
      (some (d.heap.length + 1)) hk
    rw [hkc] at this
    exact this
  simp only [hdec, if_true, hhalf, haptrs, show (AdjustPointers d).heap = (Allocate d.heap).2 from rfl,
    show (AdjustPointers d).size_ = d.size_ from rfl,
    show (AdjustPointers d).front_offset_ = d.front_offset_ from rfl,
    show (AdjustPointers d).back_offset_ = d.back_offset_ from rfl,
    show (AdjustPointers d).back_size_ = d.back_size_ from rfl,
    show (AdjustPointers d).reverse_start_ = d.reverse_start_ from rfl,
    vecSet, hk0, hk, and_self, Option.map_some', hA1, hset, hfo, ne_eq, not_true_eq_false,
    Bool.false_eq_true, if_false, hc]
  refine ⟨_, rfl, ?_⟩
  refine layout_new_head L x m (d.heap.length + 1) hlb rfl L.bo ?_ rfl ?_ ?_ (by simp) ?_ ?_ ?_ ?_
    hh2 hold hx
  · rfl
  · rfl
  · show (m : Int) - 1 = d.front_ptr_ind_ + m - 1
    omega
  · show (((List.replicate m (some d.heap.length) ++ d.ptrs_).set ((m : Int) - 1).toNat
      (some (d.heap.length + 1))).length : Int) = NumPtrs d + m
    simp only [NumPtrs, List.length_set, List.length_append, List.length_replicate]
    push_cast
    omega
  · omega
  · intro sub h1 h2
    show vecAt ((List.replicate m (some d.heap.length) ++ d.ptrs_).set ((m : Int) - 1).toNat
      (some (d.heap.length + 1))) (sub + m) = _
    rw [vecAt_set_ne _ _ _ _ (by omega), vecAt_replicate_append _ _ _ _ (by omega)]
  · show vecAt ((List.replicate m (some d.heap.length) ++ d.ptrs_).set ((m : Int) - 1).toNat
      (some (d.heap.length + 1))) (d.front_ptr_ind_ + m - 1) = _
    rw [he, zero_add]
    exact hset

/-- A `push_front` on a deque laid out for `s` returns a deque laid out for `x :: s`. -/
theorem layout_push_front {T : Type} {d : Deque T} {s : List T} (L : Layout d s) (x : T) :
    ∃ d1, push_front d x = Outcome.ok d1 ∧ Layout d1 (x :: s) := by
  by_cases hg : d.ptrs_.isEmpty ∨
      (d.front_offset_ = 0 ∧ d.front_ptr_ind_ - 1 = d.reverse_start_) ∨
      (d.reversed_size_ = kSubVectorSize ∧ d.front_ptr_ind_ ≤ d.reverse_start_)
  · by_cases he : d.front_ptr_ind_ = 0
    · exact layout_push_front_adjust L x hg he
    · exact layout_push_front_inplace L x hg he
  · exact layout_push_front_nogrow L x hg

/-- The default-constructed deque is laid out for the empty sequence. -/
theorem layout_default (T : Type) : Layout (Deque.default T) [] := by
  constructor
  · rfl
  · rfl
  · rfl
  · show (0 : Int) ≤ 0
    omega
  · show (0 : Int) ≤ -1 + 1
    omega
  · show (-1 : Int) < ((([] : List Ptr).length : Nat) : Int)
    simp
  · intro h
    change (0 : Int) ≤ -1 at h
    omega
  · intro h
    change ((([] : List Ptr).length : Nat) : Int) - 1 > -1 at h
    simp at h
  · rfl
  · intro sub h1 h2
    change (0 : Int) ≤ sub at h1
    change sub < ((([] : List Ptr).length : Nat) : Int) at h2
    simp at h2
    omega
  · intro sub1 sub2 a h1 h2
    change (0 : Int) ≤ sub1 at h1
    change sub1 < ((([] : List Ptr).length : Nat) : Int) at h2
    simp at h2
    omega
  · intro i hi
    simp at hi

/-- Pushes keep the layout: after a sequence of `push_back` and `push_front` calls on a deque
laid out for `s`, every call has returned normally and the deque is laid out for the
reference list. -/
theorem run_pushes {T : Type} (ops : List (Op T)) :
    ∀ (d : Deque T) (s : List T), Layout d s → (∀ op ∈ ops, op.is_push = true) →
      ∃ d1, run d ops = some d1 ∧ Layout d1 (ref_run s ops) := by
  induction ops with
  | nil =>
    intro d s L _
    exact ⟨d, rfl, L⟩
  | cons op ops ih =>
    intro d s L hp
    have hop := hp op (List.mem_cons_self _ _)
    have hrest : ∀ o ∈ ops, o.is_push = true := fun o ho => hp o (List.mem_cons_of_mem _ ho)
    cases op with
    | push_back v =>
      obtain ⟨d1, h1, L1⟩ := layout_push_back L v
      obtain ⟨d2, h2, L2⟩ := ih d1 (s ++ [v]) L1 hrest
      refine ⟨d2, ?_, L2⟩
      simp only [run, Op.apply, h1]
      exact h2
    | push_front v =>
      obtain ⟨d1, h1, L1⟩ := layout_push_front L v
      obtain ⟨d2, h2, L2⟩ := ih d1 (v :: s) L1 hrest
      refine ⟨d2, ?_, L2⟩
      simp only [run, Op.apply, h1]
      exact h2
    | pop_back => simp [Op.is_push] at hop
    | pop_front => simp [Op.is_push] at hop

/-- In a laid-out deque `begin()` is the cursor at the first position. -/
theorem begin_cur {T : Type} {d : Deque T} {s : List T} (L : Layout d s) :
    begin_ d = cur d (lin_begin d) := by
  have hfo := L.fo
  unfold begin_ lin_begin
  by_cases hfr : d.front_ptr_ind_ ≤ d.reverse_start_
  · have hrs := L.rs hfr
    simp only [hfr, if_true]
    have hv : (⟨d.ptrs_, d.reversed_size_ - 1, d.front_ptr_ind_, d.reverse_start_⟩ :
        iterator_template).valid := ⟨by show 0 ≤ d.reversed_size_ - 1; omega,
          by show d.reversed_size_ - 1 < 16; omega⟩
    rw [eq_cur d _ hv rfl rfl]
    congr 1
    simp only [iterator_template.lin, hfr, if_true]
    omega
  · simp only [hfr, if_false]
    have hv : (⟨d.ptrs_, d.front_offset_, d.front_ptr_ind_, d.reverse_start_⟩ :
        iterator_template).valid := ⟨by show 0 ≤ d.front_offset_; omega,
          by show d.front_offset_ < 16; omega⟩
    rw [eq_cur d _ hv rfl rfl]
    congr 1
    simp only [iterator_template.lin, hfr, if_false]
    omega

/-- In a laid-out deque `end()` is the cursor one past the last position. -/
theorem end_cur {T : Type} {d : Deque T} {s : List T} (L : Layout d s) :
    end_ d = cur d (lin_end d) := by
  have hbo := L.bo
  have hrl := L.rst_lt
  unfold end_ lin_end
  by_cases ht : NumPtrs d - 1 > d.reverse_start_
  · have hbs := L.bs ht
    simp only [ht, if_true]
    have hv : (⟨d.ptrs_, d.back_size_ - 1, NumPtrs d - 1, d.reverse_start_⟩ :
        iterator_template).valid := ⟨by show 0 ≤ d.back_size_ - 1; omega,
          by show d.back_size_ - 1 < 16; omega⟩
    rw [eq_cur d _ hv rfl rfl, inc_cur]
    congr 1
    have : ¬ (NumPtrs d - 1 ≤ d.reverse_start_) := by omega
    simp only [iterator_template.lin, this, if_false]
    omega
  · simp only [ht, if_false]
    have hv : (⟨d.ptrs_, d.back_offset_, NumPtrs d - 1, d.reverse_start_⟩ :
        iterator_template).valid := ⟨by show 0 ≤ d.back_offset_; omega,
          by show d.back_offset_ < 16; omega⟩
    rw [eq_cur d _ hv rfl rfl, inc_cur]
    congr 1
    have : NumPtrs d - 1 ≤ d.reverse_start_ := by omega
    simp only [iterator_template.lin, this, if_true]
    omega

/-- Forward iteration from position `j` of a laid-out deque collects the elements from index
`j` on, as soon as the fuel exceeds their number. -/
theorem iterate_from_layout {T : Type} {d : Deque T} {s : List T} (L : Layout d s) :
    ∀ (k j fuel : Nat), j + k = s.length → k < fuel →
      iterate_from d fuel (cur d (lin_begin d + j)) = some (some (s.drop j)) := by
  have hlen := L.len
  intro k
  induction k with
  | zero =>
    intro j fuel hj hf
    obtain ⟨f, rfl⟩ : ∃ f, fuel = f + 1 := ⟨fuel - 1, by omega⟩
    have hpos : lin_begin d + (j : Int) = lin_end d := by omega
    have he : (cur d (lin_begin d + j)).eq (end_ d) = true := by
      rw [end_cur L, cur_eq_iff]
      exact hpos
    have hd : s.drop j = [] := List.drop_eq_nil_of_le (by omega)
    simp only [iterate_from, he, if_true, hd]
  | succ k ih =>
    intro j fuel hj hf
    obtain ⟨f, rfl⟩ : ∃ f, fuel = f + 1 := ⟨fuel - 1, by omega⟩
    have hjl : j < s.length := by omega
    have he : ¬ ((cur d (lin_begin d + j)).eq (end_ d) = true) := by
      rw [end_cur L, cur_eq_iff]
      omega
    have hr := L.elems j hjl
    rw [List.getElem?_eq_getElem hjl] at hr
    have hn := ih (j + 1) f (by omega) (by omega)
    have hc : lin_begin d + ((j + 1 : Nat) : Int) = lin_begin d + j + 1 := by
      push_cast
      omega
    rw [hc] at hn
    rw [List.drop_eq_getElem_cons hjl]
    simp only [iterate_from, he, if_false, hr, inc_cur, hn, Option.map_some',
      Bool.false_eq_true]

/-- Forward iteration over a laid-out deque yields its sequence. -/
theorem iterate_layout {T : Type} {d : Deque T} {s : List T} (L : Layout d s) (fuel : Nat)
    (hf : s.length < fuel) : iterate fuel d = some (some s) := by
  have := iterate_from_layout L s.length 0 fuel (by omega) hf
  unfold iterate
  rw [begin_cur L]
  simpa using this

/-- Assigning through the cursor at index `j` of a laid-out deque replaces element `j`. -/
theorem layout_store {T : Type} {d : Deque T} {s : List T} (L : Layout d s) (j : Nat) (v : T)
    (hj : j < s.length) :
    ∃ h1, (cur d (lin_begin d + j)).write d.heap v = some h1 ∧
      Layout { d with heap := h1 } (s.set j v) := by
  obtain ⟨p1, p2⟩ := L.pos_sub j hj
  obtain ⟨a, hva, hha⟩ := L.blocks _ p1 p2
  have he := L.elems j hj
  rw [read_cur, hva, List.getElem?_eq_getElem hj] at he
  simp only [Option.some_bind] at he
  obtain ⟨h1, hst, hu1, hu2, hu3, hu4⟩ := store_upd d.heap a _ s[j] v hha he
  refine ⟨h1, ?_, ?_⟩
  · rw [write_cur, hva]
    exact hst
  · constructor
    · exact L.fo
    · exact L.bo
    · rw [List.length_set]
      exact L.size_eq
    · exact L.fpi0
    · exact L.fpi_le
    · exact L.rst_lt
    · exact L.rs
    · exact L.bs
    · rw [List.length_set]
      exact L.len
    · intro sub h1s h2s
      obtain ⟨a1, hv1, hh1⟩ := L.blocks sub h1s h2s
      exact ⟨a1, hv1, (hu2 a1).mpr hh1⟩
    · exact L.inj
    · intro i hi
      rw [List.length_set] at hi
      show (cur d (lin_begin d + i)).read h1 = (s.set j v)[i]?
      rw [read_cur]
      by_cases hij : i = j
      · subst hij
        rw [hva]
        simp only [Option.some_bind, hu3]
        simp [hi]
      · obtain ⟨q1, q2⟩ := L.pos_sub i hi
        obtain ⟨a1, hv1, hh1⟩ := L.blocks _ q1 q2
        have hei := L.elems i hi
        rw [read_cur, hv1] at hei
        rw [hv1, List.getElem?_set_ne (fun h => hij h.symm), ← hei]
        simp only [Option.some_bind]
        apply hu4
        by_cases hs : (lin_begin d + i) / 16 = (lin_begin d + j) / 16
        · right
          rw [hs]
          split <;> omega
        · left
          intro hc
          subst hc
          exact hs (L.inj _ _ _ q1 q2 p1 p2 hv1 hva)

/-- The exchange loop of `insert`, started at index `j` of a laid-out deque with `tmp` in
hand, ends; it leaves a deque laid out for a sequence `s1` and a value `t` with
`s1 ++ [t]` equal to `s` with `tmp` inserted before index `j`. -/
theorem insert_loop_layout {T : Type} (d : Deque T) :
    ∀ (k j : Nat) (s : List T) (h : Heap T) (tmp : T),
      Layout { d with heap := h } s → j + k = s.length →
      ∃ h1 t s1, (∀ fuel, k < fuel →
          insert_loop d fuel (cur d (lin_begin d + j)) h tmp = some (some (h1, t))) ∧
        Layout { d with heap := h1 } s1 ∧ s1 ++ [t] = s.take j ++ tmp :: s.drop j := by
  intro k
  induction k with
  | zero =>
    intro j s h tmp L hj
    have hlen := L.len
    have hpos : lin_begin d + (j : Int) = lin_end d := by
      have e1 : lin_begin { d with heap := h } = lin_begin d := rfl
      have e2 : lin_end { d with heap := h } = lin_end d := rfl
      omega
    have he : (cur d (lin_begin d + j)).eq (end_ d) = true := by
      have := end_cur L
      have e1 : end_ { d with heap := h } = end_ d := rfl
      have e2 : cur { d with heap := h } (lin_end { d with heap := h }) = cur d (lin_end d) := rfl
      rw [e1, e2] at this
      rw [this, cur_eq_iff]
      exact hpos
    refine ⟨h, tmp, s, ?_, L, ?_⟩
    · intro fuel hf
      obtain ⟨f, rfl⟩ : ∃ f, fuel = f + 1 := ⟨fuel - 1, by omega⟩
      simp only [insert_loop, he, if_true]
    · have hd : s.drop j = [] := List.drop_eq_nil_of_le (by omega)
      have ht : s.take j = s := List.take_of_length_le (by omega)
      rw [hd, ht]
  | succ k ih =>
    intro j s h tmp L hj
    have hjl : j < s.length := by omega
    have hlen := L.len
    have he : ¬ ((cur d (lin_begin d + j)).eq (end_ d) = true) := by
      have := end_cur L
      have e1 : end_ { d with heap := h } = end_ d := rfl
      have e2 : cur { d with heap := h } (lin_end { d with heap := h }) = cur d (lin_end d) := rfl
      have e3 : lin_begin { d with heap := h } = lin_begin d := rfl
      have e4 : lin_end { d with heap := h } = lin_end d := rfl
      rw [e1, e2] at this
      rw [this, cur_eq_iff]
      omega
    have hr : (cur d (lin_begin d + j)).read h = some s[j] := by
      have := L.elems j hjl
      rw [List.getElem?_eq_getElem hjl] at this
      exact this
    obtain ⟨h1, hw, L1⟩ := layout_store L j tmp hjl
    have hw1 : (cur d (lin_begin d + j)).write h tmp = some h1 := hw
    have L1b : Layout { d with heap := h1 } (s.set j tmp) := L1
    obtain ⟨h2, t, s1, hl, L2, hs⟩ := ih (j + 1) (s.set j tmp) h1 s[j] L1b
      (by rw [List.length_set]; omega)
    have hc : lin_begin d + ((j + 1 : Nat) : Int) = lin_begin d + j + 1 := by
      push_cast
      omega
    rw [hc] at hl
    refine ⟨h2, t, s1, ?_, L2, ?_⟩
    · intro fuel hf
      obtain ⟨f, rfl⟩ : ∃ f, fuel = f + 1 := ⟨fuel - 1, by omega⟩
      simp only [insert_loop, he, if_false, hr, hw1, inc_cur, Bool.false_eq_true]
      exact hl f (by omega)
    · rw [hs, List.drop_eq_getElem_cons hjl]
      have e1 : (s.set j tmp).take (j + 1) = s.take j ++ [tmp] := by
        rw [List.take_succ, List.set_take,
          List.set_eq_of_length_le (by rw [List.length_take]; omega)]
        simp [hjl]
      have e2 : (s.set j tmp).drop (j + 1) = s.drop (j + 1) := by
        exact List.drop_set_of_lt _ _ (by omega)
      rw [e1, e2]
      simp

/-- C16: a sequence of `push_back` and `push_front` calls on a default-constructed deque
returns normally and leaves a deque whose forward iteration yields the reference sequence
`s`; for every `p ≤ |s|` and every `v`, `insert(begin() + p, v)` returns normally as soon as
its loop is allowed `|s| - p + 1` tests of the condition, and leaves `size() == |s| + 1` with
forward iteration yielding `s[0..p)`, then `v`, then `s[p..|s|)`.  The offset `p` is passed
to the `int` parameter of `operator+`, and `|s| + 1` is a value of the `int64_t` member
`size_`. -/
theorem insert_after_pushes {T : Type} (ops : List (Op T)) (p : Nat) (v : T)
    (hops : ∀ op ∈ ops, op.is_push = true)
    (hp : p ≤ (ref_run [] ops).length)
    (hp32 : is_int32 (p : Int))
    (hsz : is_int64 (((ref_run [] ops).length : Int) + 1)) :
    ∃ d, run (Deque.default T) ops = some d ∧
      (∀ fuel, (ref_run [] ops).length < fuel →
        iterate fuel d = some (some (ref_run [] ops))) ∧
      ∃ d1, (∀ fuel, (ref_run [] ops).length - p < fuel →
          insert fuel d ((begin_ d).plus (to_int32 p)) v = some (Outcome.ok d1)) ∧
        size d1 = ((ref_run [] ops).length : Int) + 1 ∧
        ∀ fuel, (ref_run [] ops).length + 1 < fuel →
          iterate fuel d1
            = some (some ((ref_run [] ops).take p ++ v :: (ref_run [] ops).drop p)) := by
  obtain ⟨d, hrun, L⟩ := run_pushes ops (Deque.default T) [] (layout_default T) hops
  generalize ref_run [] ops = s at hp hsz L ⊢
  refine ⟨d, hrun, fun fuel hf => iterate_layout L fuel hf, ?_⟩
  have hconv : to_int32 (p : Int) = (p : Int) := by
    obtain ⟨h1, h2⟩ := hp32
    unfold to_int32
    omega
  have hcur : (begin_ d).plus (to_int32 p) = cur d (lin_begin d + p) := by
    rw [hconv, begin_cur L, plus_cur _ _ _ (by omega)]
  have L0 : Layout { d with heap := d.heap } s := L
  obtain ⟨h1, t, s1, hloop, L1, hs1⟩ :=
    insert_loop_layout d (s.length - p) p s d.heap v L0 (by omega)
  obtain ⟨d1, hpb, L2⟩ := layout_push_back L1 t
  rw [hs1] at L2
  have hl2 : (s.take p ++ v :: s.drop p).length = s.length + 1 := by
    simp only [List.length_append, List.length_take, List.length_cons, List.length_drop]
    omega
  refine ⟨d1, ?_, ?_, ?_⟩
  · intro fuel hf
    unfold insert
    rw [hcur, hloop fuel hf]
    simp only [Option.map_some']
    rw [hpb]
  · have h3 := L2.size_eq
    rw [hl2] at h3
    obtain ⟨h4, h5⟩ := hsz
    unfold size
    rw [h3]
    push_cast
    omega
  · intro fuel hf
    exact iterate_layout L2 fuel (by rw [hl2]; exact hf)

/-- Witness for `insert_after_pushes`: the deque built by `push_back(3)`, `push_back(4)`,
`push_front(1)`, `push_back(5)`, with `p = 1` and `v = 9`. -/
theorem insert_after_pushes_witness :
    (∀ op ∈ [Op.push_back 3, Op.push_back 4, Op.push_front 1, Op.push_back 5],
      op.is_push = true) ∧
    1 ≤ (ref_run [] [Op.push_back 3, Op.push_back 4, Op.push_front 1, Op.push_back 5]).length ∧
    is_int32 ((1 : Nat) : Int) ∧
    is_int64 (((ref_run [] [Op.push_back 3, Op.push_back 4, Op.push_front 1,
      Op.push_back 5]).length : Int) + 1) ∧
    ∃ d, run (Deque.default Nat) [Op.push_back 3, Op.push_back 4, Op.push_front 1,
        Op.push_back 5] = some d ∧
      iterate 5 d = some (some [1, 3, 4, 5]) ∧
      ∃ d1, insert 4 d ((begin_ d).plus (to_int32 ((1 : Nat) : Int))) 9 = some (Outcome.ok d1) ∧
        size d1 = 5 ∧ iterate 6 d1 = some (some [1, 9, 3, 4, 5]) := by
  refine ⟨by decide, by decide, by decide, by decide, ?_⟩
  obtain ⟨d, h1, h2, d1, h3, h4, h5⟩ := insert_after_pushes
    [Op.push_back 3, Op.push_back 4, Op.push_front 1, Op.push_back 5] 1 9
    (by decide) (by decide) (by decide) (by decide)
  exact ⟨d, h1, h2 5 (by decide), d1, h3 4 (by decide), h4, h5 6 (by decide)⟩

/-- C21 (code defect): in the deque left by `push_back(1)`, `push_back(2)`, `push_front(0)`
(size 3, head front block 0 holding `c = reversed_size_ = 1` element, tail block 1 holding
`back_size_ = 2`), `Get(1)` resolves to block 0, slot 0 and `Get(2)` to block 1, slot 0,
where the address rule gives block 1, slot 0 and block 1, slot 1: past the front block `Get`
offsets the index by `kSubVectorSize - back_size_`, not by `kSubVectorSize - reversed_size_`.
Index 0 resolves as the rule says. -/
theorem get_offsets_by_back_size :
    size two_back_one_front = 3 ∧
    two_back_one_front.front_ptr_ind_ ≤ two_back_one_front.reverse_start_ ∧
    two_back_one_front.reversed_size_ = 1 ∧ two_back_one_front.back_size_ = 2 ∧
    Get_loc two_back_one_front 0 = Get_ref_loc two_back_one_front 0 ∧
    Get_loc two_back_one_front 1 = (0, 0) ∧ Get_ref_loc two_back_one_front 1 = (1, 0) ∧
    Get_loc two_back_one_front 2 = (1, 0) ∧ Get_ref_loc two_back_one_front 2 = (1, 1) := by
  decide

/-- C25 (code defect): after `push_back(3)`, `pop_front()`, `push_back(5)` the deque has
`size() == 1`, one live slot (slot 0 of its block, holding 5) and the stale
`front_offset_ == 1`; `push_front(4)` then constructs into slot `front_offset_ - 1 = 0`, which
is live, and returns with `size() == 2` while the directory's blocks hold one live slot. -/
theorem push_front_constructs_into_live_slot :
    size refilled_after_pop_front = 1 ∧ live_slots refilled_after_pop_front = 1 ∧
    refilled_after_pop_front.front_offset_ = 1 ∧
    (vecAt refilled_after_pop_front.ptrs_ refilled_after_pop_front.front_ptr_ind_).bind
      (fun p => load refilled_after_pop_front.heap p
        (refilled_after_pop_front.front_offset_ - 1)) = some 5 ∧
    (run (Deque.default Nat) [.push_back 3, .pop_front, .push_back 5, .push_front 4]).map
      (fun d => (size d, live_slots d)) = some (2, 1) := by
  decide

/-- C29 (code defect): the deque left by `push_back(100)`, `push_back(101)`, `push_back(102)`
has `size() == 3` and `at(0) == 100`; the self-assignment `d = d` returns and leaves
`size() == 0`, so `at(0)` throws: `Clear()` empties the object before the loop reads it, and
the loop over the now empty object copies nothing. -/
theorem self_assignment_empties :
    size three_back = 3 ∧ at_ three_back 0 = Access.val 100 ∧
    (assign_self 4 three_back).map (fun r => r.map (fun d => (size d, at_ d 0)))
      = some (some (0, Access.out_of_range)) := by
  decide

/-- C30 (code defect): `Deque(0)` and `Deque(0, v)` leave `back_size_ == 16` where the
default-constructed deque has 0.  After `push_front(1)`, `push_front(2)`, `pop_back()`,
`push_back(3)` all three deques have `size() == 2`, `at(0) == 2`, `at(1) == 3`, but the two
built by the constructors hold an extra empty tail block; the next `pop_back()` returns on
the default-constructed deque (`size() == 1`, `at(0) == 2`) and has undefined behaviour on
the other two, where it destroys slot `-1` of that block. -/
theorem zero_size_constructors_differ_from_default :
    (Deque.of_size 0 (0 : Nat) none).outcome = Outcome.ok of_size_zero ∧
    (Deque.of_size_val 0 (7 : Nat) none).outcome = Outcome.ok of_size_zero_val ∧
    of_size_zero.back_size_ = 16 ∧ of_size_zero_val.back_size_ = 16 ∧
    (Deque.default Nat).back_size_ = 0 ∧
    (run of_size_zero [.push_front 1, .push_front 2, .pop_back, .push_back 3]).map
      (fun d => (size d, at_ d 0, at_ d 1)) = some (2, .val 2, .val 3) ∧
    (run of_size_zero [.push_front 1, .push_front 2, .pop_back, .push_back 3]).map
      (fun d => (NumPtrs d, d.back_size_)) = some (2, 0) ∧
    (run (Deque.default Nat) [.push_front 1, .push_front 2, .pop_back, .push_back 3]).map
      (fun d => (size d, at_ d 0, at_ d 1)) = some (2, .val 2, .val 3) ∧
    (run (Deque.default Nat) [.push_front 1, .push_front 2, .pop_back, .push_back 3]).map
      (fun d => (NumPtrs d, d.back_size_)) = some (1, 0) ∧
    run of_size_zero [.push_front 1, .push_front 2, .pop_back, .push_back 3, .pop_back]
      = none ∧
    run of_size_zero_val [.push_front 1, .push_front 2, .pop_back, .push_back 3, .pop_back]
      = none ∧
    (run (Deque.default Nat)
        [.push_front 1, .push_front 2, .pop_back, .push_back 3, .pop_back]).map
      (fun d => (size d, at_ d 0)) = some (1, .val 2) := by
  refine ⟨by decide, by decide, by decide, by decide, by decide, by decide, by decide,
    by decide, by decide, by decide, by decide, by decide⟩

/-- Constructing into a slot of block `a` leaves every other block of the free store as it
was. -/
theorem construct_frame {T : Type} (h h1 : Heap T) (a : Nat) (j : Int) (v : T)
    (hc : construct h (some a) j v = some h1) (a1 : Nat) (ha : a1 ≠ a) :
    h1[a1]? = h[a1]? := by
  unfold construct at hc
  split at hc
  · rename_i a2 b hp hb
    split at hc
    · simp only [Option.some.injEq] at hc hp
      subst hc
      subst hp
      rw [List.getElem?_set_ne (fun e => ha e.symm)]
    · cases hc
  · cases hc

/-- C26: when `push_front` needs a new head block while `front_ptr_ind_ == 0` on a directory
of `m ≥ 1` handles (offset `front_offset_` within a block), the call returns with a directory
of `2 m` entries in which the handle previously at index `i` is at index `i + m`,
`reverse_start_` increased by `m`, `front_ptr_ind_ == m - 1`, a block allocated by this call
(held, with a handle the free store did not have before) at index `m - 1`, and every block
the free store had before unchanged. -/
theorem directory_reallocation_frame {T : Type} (d : Deque T) (v : T)
    (hm : 1 ≤ d.ptrs_.length) (hf : d.front_ptr_ind_ = 0)
    (hg : (d.front_offset_ = 0 ∧ d.front_ptr_ind_ - 1 = d.reverse_start_) ∨
      (d.reversed_size_ = kSubVectorSize ∧ d.front_ptr_ind_ ≤ d.reverse_start_))
    (hfo : 0 ≤ d.front_offset_ ∧ d.front_offset_ ≤ 16) :
    ∃ d1, push_front d v = Outcome.ok d1 ∧
      d1.ptrs_.length = 2 * d.ptrs_.length ∧
      (∀ i, i < d.ptrs_.length → d1.ptrs_[i + d.ptrs_.length]? = d.ptrs_[i]?) ∧
      d1.reverse_start_ = d.reverse_start_ + d.ptrs_.length ∧
      d1.front_ptr_ind_ = (d.ptrs_.length : Int) - 1 ∧
      (∃ a, d.heap.length ≤ a ∧ d1.ptrs_[d.ptrs_.length - 1]? = some (some a) ∧
        held16 d1.heap a) ∧
      ∀ a, a < d.heap.length → d1.heap[a]? = d.heap[a]? := by
  obtain ⟨hhalf, hm1⟩ := half_ptrs_AdjustPointers d
  have hne : d.ptrs_.isEmpty = false := by
    rcases hp : d.ptrs_ with _ | ⟨p, ps⟩
    · rw [hp] at hm
      simp at hm
    · rfl
  simp only [hne, Bool.false_eq_true, if_false, add_zero] at hhalf hm1
  obtain ⟨hA1, hA2, hA3, hA4, hA5⟩ := Allocate_spec (Allocate d.heap).2
  have hlen1 : (Allocate d.heap).2.length = d.heap.length + 1 := (Allocate_spec d.heap).2.1
  rw [hlen1] at hA1 hA3
  have hgg : d.ptrs_.isEmpty ∨ (d.front_offset_ = 0 ∧ d.front_ptr_ind_ - 1 = d.reverse_start_) ∨
      (d.reversed_size_ = kSubVectorSize ∧ d.front_ptr_ind_ ≤ d.reverse_start_) := Or.inr hg
  have hdec : decide (d.front_ptr_ind_ = 0) = true := by simp [hf]
  have haptrs : (AdjustPointers d).ptrs_
      = List.replicate d.ptrs_.length (some d.heap.length) ++ d.ptrs_ := by
    simp [AdjustPointers, hne, Allocate]
  have hk0 : (0 : Int) ≤ (d.ptrs_.length : Int) - 1 := by omega
  have hk : ((d.ptrs_.length : Int) - 1).toNat
      < (List.replicate d.ptrs_.length (some d.heap.length) ++ d.ptrs_).length := by
    simp only [List.length_append, List.length_replicate]
    omega
  have hkc : ((((d.ptrs_.length : Int) - 1).toNat : Nat) : Int) = (d.ptrs_.length : Int) - 1 := by
    omega
  have hkn : ((d.ptrs_.length : Int) - 1).toNat = d.ptrs_.length - 1 := by omega
  have hset : vecAt ((List.replicate d.ptrs_.length (some d.heap.length) ++ d.ptrs_).set
      ((d.ptrs_.length : Int) - 1).toNat (some (d.heap.length + 1))) ((d.ptrs_.length : Int) - 1)
        = some (some (d.heap.length + 1)) := by
    have := vecAt_set_eq (List.replicate d.ptrs_.length (some d.heap.length) ++ d.ptrs_)
      ((d.ptrs_.length : Int) - 1).toNat (some (d.heap.length + 1)) hk
    rw [hkc] at this
    exact this
  obtain ⟨b, hb, hbl⟩ := hA3
  have hcons : ∀ j : Int, 0 ≤ j → j < 16 →
      ∃ h2, construct (Allocate (Allocate d.heap).2).2 (some (d.heap.length + 1)) j v = some h2 ∧
        held16 h2 (d.heap.length + 1) ∧ ∀ a, a < d.heap.length → h2[a]? = d.heap[a]? := by
    intro j hj0 hj1
    obtain ⟨h2, hc, hu1, hu2, hu3, hu4⟩ := construct_upd (Allocate (Allocate d.heap).2).2
      (d.heap.length + 1) j v ⟨b, hb, hbl⟩ hj0 hj1
    refine ⟨h2, hc, (hu2 _).mpr ⟨b, hb, hbl⟩, ?_⟩
    intro a ha
    rw [construct_frame _ _ _ _ _ hc a (by omega)]
    simp only [Allocate]
    rw [List.getElem?_append_left (by simp; omega), List.getElem?_append_left ha]
  have hprops : ∀ i, i < d.ptrs_.length →
      ((List.replicate d.ptrs_.length (some d.heap.length) ++ d.ptrs_).set
        ((d.ptrs_.length : Int) - 1).toNat (some (d.heap.length + 1)))[i + d.ptrs_.length]?
        = d.ptrs_[i]? := by
    intro i hi
    rw [List.getElem?_set_ne (by omega), List.getElem?_append_right (by simp)]
    simp
  have hnew : ((List.replicate d.ptrs_.length (some d.heap.length) ++ d.ptrs_).set
        ((d.ptrs_.length : Int) - 1).toNat (some (d.heap.length + 1)))[d.ptrs_.length - 1]?
        = some (some (d.heap.length + 1)) := by
    rw [hkn, List.getElem?_set_self (by simp; omega)]
  have hlen2 : ((List.replicate d.ptrs_.length (some d.heap.length) ++ d.ptrs_).set
        ((d.ptrs_.length : Int) - 1).toNat (some (d.heap.length + 1))).length
        = 2 * d.ptrs_.length := by
    simp only [List.length_set, List.length_append, List.length_replicate]
    omega
  unfold push_front push_front_impl push_front_grow
  rw [if_pos hgg]
  by_cases hz : d.front_offset_ = 0
  · obtain ⟨h2, hc, hh2, hfr⟩ := hcons 0 (by omega) (by omega)
    simp only [hdec, if_true, hhalf, haptrs,
      show (AdjustPointers d).heap = (Allocate d.heap).2 from rfl,
      show (AdjustPointers d).size_ = d.size_ from rfl,
      show (AdjustPointers d).front_offset_ = d.front_offset_ from rfl,
      show (AdjustPointers d).back_offset_ = d.back_offset_ from rfl,
      show (AdjustPointers d).back_size_ = d.back_size_ from rfl,
      show (AdjustPointers d).reverse_start_ = d.reverse_start_ from rfl,
      vecSet, hk0, hk, and_self, Option.map_some', hA1, hset, hz, ne_eq, not_true_eq_false,
      Bool.false_eq_true, if_false, hc]
    exact ⟨_, rfl, hlen2, hprops, rfl, rfl, ⟨d.heap.length + 1, by omega, hnew, hh2⟩, hfr⟩
  · obtain ⟨h2, hc, hh2, hfr⟩ := hcons (d.front_offset_ - 1) (by omega) (by omega)
    simp only [hdec, if_true, hhalf, haptrs,
      show (AdjustPointers d).heap = (Allocate d.heap).2 from rfl,
      show (AdjustPointers d).size_ = d.size_ from rfl,
      show (AdjustPointers d).front_offset_ = d.front_offset_ from rfl,
      show (AdjustPointers d).back_offset_ = d.back_offset_ from rfl,
      show (AdjustPointers d).back_size_ = d.back_size_ from rfl,
      show (AdjustPointers d).reverse_start_ = d.reverse_start_ from rfl,
      vecSet, hk0, hk, and_self, Option.map_some', hA1, hset, hz, ne_eq, not_false_eq_true,
      Bool.false_eq_true, if_false, if_true, hc]
    exact ⟨_, rfl, hlen2, hprops, rfl, rfl, ⟨d.heap.length + 1, by omega, hnew, hh2⟩, hfr⟩

/-! ### Closed-form offsets and single steps -/

/-- Two valid cursors with the same directory, boundary and logical position are equal. -/
theorem valid_ext (a b : iterator_template) (ha : a.valid) (hb : b.valid)
    (hp : a.ptrs_ = b.ptrs_) (hr : a.reverse_start_ = b.reverse_start_) (hl : a.lin = b.lin) :
    a = b := by
  obtain ⟨pa, la, sa, ra⟩ := a
  obtain ⟨pb, lb, sb, rb⟩ := b
  simp only [iterator_template.valid, iterator_template.lin] at ha hb hp hr hl
  subst hp hr
  have hs : sa = sb := by
    split at hl <;> split at hl <;> omega
  subst hs
  have : la = lb := by
    split at hl <;> omega
  subst this
  rfl

/-- The closed-form retreat by `n ≥ 0` subtracts `n` from the logical position of a valid
cursor. -/
theorem sub_core_spec (it : iterator_template) (n : Int) (hv : it.valid) (hn : 0 ≤ n) :
    (sub_core it n).ptrs_ = it.ptrs_ ∧ (sub_core it n).reverse_start_ = it.reverse_start_ ∧
    (sub_core it n).valid ∧ (sub_core it n).lin = it.lin - n := by
  obtain ⟨p, l, s, r⟩ := it
  simp only [iterator_template.valid] at hv
  obtain ⟨h0, h16⟩ := hv
  unfold sub_core iterator_template.valid iterator_template.lin
  simp only
  by_cases hh : s ≤ r
  · have hd : (l + n).tdiv kSubVectorSize = (l + n) / 16 :=
      Int.tdiv_eq_ediv (by omega) (by decide)
    have hm : (l + n).tmod kSubVectorSize = (l + n) % 16 :=
      Int.tmod_eq_emod (by omega) (by decide)
    simp only [hh, if_true, hd, hm]
    refine ⟨trivial, trivial, ⟨by omega, by omega⟩, ?_⟩
    split <;> omega
  · simp only [hh, if_false]
    by_cases hl : n - l ≤ 0
    · simp only [hl, if_true, hh, if_false]
      exact ⟨trivial, trivial, ⟨by omega, by omega⟩, by omega⟩
    · have hd : (n - l - 1).tdiv 16 = (n - l - 1) / 16 :=
        Int.tdiv_eq_ediv (by omega) (by decide)
      have hm : (n - l - 1).tmod 16 = (n - l - 1) % 16 :=
        Int.tmod_eq_emod (by omega) (by decide)
      simp only [kSubVectorSize]
      simp only [hl, if_false, hd, hm]
      refine ⟨trivial, trivial, ?_, ?_⟩
      · split <;> omega
      · split <;> omega

/-- One `operator--` on a valid cursor keeps directory and boundary, gives a valid cursor and
moves the logical position back by one. -/
theorem dec_spec (it : iterator_template) (hv : it.valid) :
    it.dec.ptrs_ = it.ptrs_ ∧ it.dec.reverse_start_ = it.reverse_start_ ∧ it.dec.valid ∧
    it.dec.lin = it.lin - 1 := by
  have h := sub_core_spec it 1 hv (by omega)
  unfold iterator_template.dec SubtractFromGlobalInd
  simp only [show ¬ ((1 : Int) < 0) by decide, if_false]
  exact h

/-- After `k` applications of `operator--` the logical position has moved back by `k`. -/
theorem dec_times_spec (k : Nat) :
    ∀ (it : iterator_template), it.valid →
      (it.dec_times k).ptrs_ = it.ptrs_ ∧ (it.dec_times k).reverse_start_ = it.reverse_start_ ∧
      (it.dec_times k).valid ∧ (it.dec_times k).lin = it.lin - k := by
  induction k with
  | zero => intro it hv; exact ⟨rfl, rfl, hv, by simp [iterator_template.dec_times]⟩
  | succ k ih =>
    intro it hv
    obtain ⟨h1, h2, h3, h4⟩ := dec_spec it hv
    obtain ⟨g1, g2, g3, g4⟩ := ih it.dec h3
    refine ⟨g1.trans h1, g2.trans h2, g3, ?_⟩
    simp only [iterator_template.dec_times, g4, h4]
    push_cast
    omega

/-- The offset `c + n` for `n ≥ 0` keeps directory and boundary and adds `n` to the
position. -/
theorem plus_spec (c : iterator_template) (n : Int) (hv : c.valid) (hn : 0 ≤ n) :
    (c.plus n).ptrs_ = c.ptrs_ ∧ (c.plus n).reverse_start_ = c.reverse_start_ ∧
    (c.plus n).valid ∧ (c.plus n).lin = c.lin + n := by
  have hnn : ¬ (n < 0) := by omega
  unfold iterator_template.plus AddToGlobalInd
  simp only [hnn, if_false]
  exact add_core_spec c n hv hn

/-- The offset `c - n` for `n ≥ 0` keeps directory and boundary and subtracts `n` from the
position. -/
theorem minus_spec (c : iterator_template) (n : Int) (hv : c.valid) (hn : 0 ≤ n) :
    (c.minus n).ptrs_ = c.ptrs_ ∧ (c.minus n).reverse_start_ = c.reverse_start_ ∧
    (c.minus n).valid ∧ (c.minus n).lin = c.lin - n := by
  unfold iterator_template.minus iterator_template.plus AddToGlobalInd
  by_cases hz : n = 0
  · subst hz
    simp only [neg_zero, lt_irrefl, if_false]
    have := add_core_spec c 0 hv (by omega)
    simpa using this
  · have hneg : -n < 0 := by omega
    simp only [hneg, if_true, neg_neg]
    exact sub_core_spec c n hv hn

/-- C22: for every valid cursor `c` (slot index in `[0, 16)`) and every `n ≥ 0`, the
closed-form offset `c + n` is the cursor reached by `n` applications of `operator++`,
`c - n` the cursor reached by `n` applications of `operator--`, and `(c + n) - n == c`,
whatever block ends and head/tail boundary lie in between. -/
theorem offset_is_repeated_step (c : iterator_template) (n : Nat) (hv : c.valid) :
    c.plus n = c.inc_times n ∧ c.minus n = c.dec_times n ∧ (c.plus n).minus n = c := by
  obtain ⟨p1, p2, p3, p4⟩ := plus_spec c n hv (by omega)
  obtain ⟨m1, m2, m3, m4⟩ := minus_spec c n hv (by omega)
  obtain ⟨i1, i2, i3, i4⟩ := inc_times_spec n c hv
  obtain ⟨d1, d2, d3, d4⟩ := dec_times_spec n c hv
  obtain ⟨q1, q2, q3, q4⟩ := minus_spec (c.plus n) n p3 (by omega)
  refine ⟨?_, ?_, ?_⟩
  · exact valid_ext _ _ p3 i3 (p1.trans i1.symm) (p2.trans i2.symm) (by rw [p4, i4])
  · exact valid_ext _ _ m3 d3 (m1.trans d1.symm) (m2.trans d2.symm) (by rw [m4, d4])
  · exact valid_ext _ _ q3 hv (q1.trans p1) (q2.trans p2) (by rw [q4, p4]; omega)

/-- Witness for `offset_is_repeated_step`: 40 steps from slot 3 of head block 0 with boundary
1, across a block end and the head/tail boundary. -/
theorem offset_is_repeated_step_witness :
    (⟨[], 3, 0, 1⟩ : iterator_template).valid ∧
    (⟨[], 3, 0, 1⟩ : iterator_template).plus ((40 : Nat) : Int)
      = (⟨[], 3, 0, 1⟩ : iterator_template).inc_times 40 ∧
    (⟨[], 3, 0, 1⟩ : iterator_template).minus ((40 : Nat) : Int)
      = (⟨[], 3, 0, 1⟩ : iterator_template).dec_times 40 ∧
    ((⟨[], 3, 0, 1⟩ : iterator_template).plus ((40 : Nat) : Int)).minus ((40 : Nat) : Int)
      = ⟨[], 3, 0, 1⟩ :=
  ⟨by decide, offset_is_repeated_step ⟨[], 3, 0, 1⟩ 40 (by decide)⟩

/-! ### Counters of reachable deques -/

/-- A placement construction with defined behaviour addresses a slot of the block. -/
theorem construct_slot {T : Type} (h h1 : Heap T) (p : Ptr) (j : Int) (v : T)
    (hc : construct h p j v = some h1) : 0 ≤ j ∧ j < 16 := by
  unfold construct at hc
  split at hc
  · split at hc
    · rename_i hr
      exact hr
    · cases hc
  · cases hc

/-- A destructor call with defined behaviour addresses a slot of the block. -/
theorem destroy_slot {T : Type} (h h1 : Heap T) (p : Ptr) (j : Int)
    (hc : destroy h p j = some h1) : 0 ≤ j ∧ j < 16 := by
  unfold destroy at hc
  split at hc
  · split at hc
    · rename_i hr
      exact hr
    · cases hc
  · cases hc

/-- A `push_back` with defined behaviour leaves `reversed_size_` and `front_offset_`. -/
theorem push_back_front_counters {T : Type} (d d1 : Deque T) (v : T)
    (h : (push_back d v).state? = some d1) :
    d1.reversed_size_ = d.reversed_size_ ∧ d1.front_offset_ = d.front_offset_ := by
  have hg : (push_back_grow d).1.reversed_size_ = d.reversed_size_ ∧
      (push_back_grow d).1.front_offset_ = d.front_offset_ := by
    unfold push_back_grow
    split <;> exact ⟨rfl, rfl⟩
  unfold push_back push_back_impl at h
  simp only [] at h
  split at h
  · simp [Outcome.state?] at h
  · simp only [Bool.false_eq_true, if_false] at h
    split at h
    · simp [Outcome.state?] at h
    · simp only [Outcome.state?, Option.some.injEq] at h
      subst h
      split <;> exact hg

/-- A `pop_back` with defined behaviour leaves `reversed_size_` and `front_offset_`. -/
theorem pop_back_front_counters {T : Type} (d d1 : Deque T)
    (h : (pop_back d).state? = some d1) :
    d1.reversed_size_ = d.reversed_size_ ∧ d1.front_offset_ = d.front_offset_ := by
  have hf : ∀ q : Deque T, (pop_finish q).reversed_size_ = q.reversed_size_ ∧
      (pop_finish q).front_offset_ = q.front_offset_ := by
    intro q
    unfold pop_finish
    split <;> exact ⟨rfl, rfl⟩
  unfold pop_back at h
  split at h
  · simp only [Outcome.state?, Option.some.injEq] at h
    subst h
    exact ⟨rfl, rfl⟩
  · rw [ofOption_state, Option.map_eq_some'] at h
    obtain ⟨d2, hb, rfl⟩ := h
    have hb2 : d2.reversed_size_ = d.reversed_size_ ∧ d2.front_offset_ = d.front_offset_ := by
      unfold pop_back_body at hb
      simp only [Option.bind_eq_bind, Option.pure_def] at hb
      split at hb
      · simp only [Option.bind_eq_some] at hb
        obtain ⟨p, _, hp, _, hb⟩ := hb
        split at hb
        · simp only [Option.bind_eq_some, Option.some.injEq] at hb
          obtain ⟨q, _, h2, _, rfl⟩ := hb
          exact ⟨rfl, rfl⟩
        · simp only [Option.some.injEq] at hb
          subst hb
          exact ⟨rfl, rfl⟩
      · simp only [Option.bind_eq_some] at hb
        obtain ⟨p, _, hp, _, hb⟩ := hb
        split at hb
        · simp only [Option.bind_eq_some] at hb
          obtain ⟨h2, _, hb⟩ := hb
          split at hb <;> (simp only [Option.some.injEq] at hb; subst hb; exact ⟨rfl, rfl⟩)
        · simp only [Option.some.injEq] at hb
          subst hb
          exact ⟨rfl, rfl⟩
    obtain ⟨f1, f2⟩ := hf d2
    exact ⟨f1.trans hb2.1, f2.trans hb2.2⟩

/-- The allocation step of `push_front` leaves `front_offset_` and either leaves
`reversed_size_` or resets it to zero. -/
theorem push_front_grow_counters {T : Type} (d : Deque T) (r : Deque T × Bool × Bool)
    (h : push_front_grow d = some r) :
    r.1.front_offset_ = d.front_offset_ ∧
    (r.1.reversed_size_ = d.reversed_size_ ∨ r.1.reversed_size_ = 0) := by
  unfold push_front_grow at h
  split at h
  · simp only [Option.map_eq_some'] at h
    obtain ⟨ps, _, rfl⟩ := h
    refine ⟨?_, Or.inr rfl⟩
    simp only []
    split <;> rfl
  · simp only [Option.some.injEq] at h
    subst h
    exact ⟨rfl, Or.inl rfl⟩

/-- A `push_front` with defined behaviour keeps `reversed_size_` in `[0, 16]` and
`front_offset_` in `[0, 15]`. -/
theorem push_front_front_counters {T : Type} (d d1 : Deque T) (v : T)
    (hr : 0 ≤ d.reversed_size_ ∧ d.reversed_size_ ≤ 16)
    (h : (push_front d v).state? = some d1) :
    (0 ≤ d1.reversed_size_ ∧ d1.reversed_size_ ≤ 16) ∧
    (0 ≤ d1.front_offset_ ∧ d1.front_offset_ ≤ 15) := by
  unfold push_front push_front_impl at h
  split at h
  · simp [Outcome.state?] at h
  · rename_i d2 cn adj hg
    obtain ⟨g1, g2⟩ := push_front_grow_counters d _ hg
    simp only [] at g1 g2
    split at h
    · simp [Outcome.state?] at h
    · simp only [Bool.false_eq_true, if_false] at h
      split at h
      · split at h
        · simp [Outcome.state?] at h
        · rename_i hne _ h2 hc
          simp only [Outcome.state?, Option.some.injEq] at h
          subst h
          have := construct_slot _ _ _ _ _ hc
          refine ⟨?_, ?_⟩
          · show 0 ≤ d2.reversed_size_ ∧ d2.reversed_size_ ≤ 16
            rcases g2 with e | e <;> omega
          · show 0 ≤ d2.front_offset_ - 1 ∧ d2.front_offset_ - 1 ≤ 15
            omega
      · split at h
        · simp [Outcome.state?] at h
        · rename_i hne _ h2 hc
          simp only [Outcome.state?, Option.some.injEq] at h
          subst h
          have := construct_slot _ _ _ _ _ hc
          have hz : d2.front_offset_ = 0 := by
            by_contra hcon
            exact hne hcon
          refine ⟨?_, ?_⟩
          · show 0 ≤ d2.reversed_size_ + 1 ∧ d2.reversed_size_ + 1 ≤ 16
            omega
          · show 0 ≤ d2.front_offset_ ∧ d2.front_offset_ ≤ 15
            omega

/-- A `pop_front` with defined behaviour keeps `reversed_size_` in `[0, 16]` and
`front_offset_` in `[0, 15]`. -/
theorem pop_front_front_counters {T : Type} (d d1 : Deque T)
    (hr : (0 ≤ d.reversed_size_ ∧ d.reversed_size_ ≤ 16) ∧
      (0 ≤ d.front_offset_ ∧ d.front_offset_ ≤ 15))
    (h : (pop_front d).state? = some d1) :
    (0 ≤ d1.reversed_size_ ∧ d1.reversed_size_ ≤ 16) ∧
    (0 ≤ d1.front_offset_ ∧ d1.front_offset_ ≤ 15) := by
  have hf : ∀ q : Deque T, (pop_finish q).reversed_size_ = q.reversed_size_ ∧
      (pop_finish q).front_offset_ = q.front_offset_ := by
    intro q
    unfold pop_finish
    split <;> exact ⟨rfl, rfl⟩
  unfold pop_front at h
  split at h
  · simp only [Outcome.state?, Option.some.injEq] at h
    subst h
    exact hr
  · rw [ofOption_state, Option.map_eq_some'] at h
    obtain ⟨d2, hb, rfl⟩ := h
    obtain ⟨f1, f2⟩ := hf d2
    rw [f1, f2]
    unfold pop_front_body at hb
    simp only [Option.bind_eq_bind, Option.pure_def, Option.bind_eq_some] at hb
    obtain ⟨p, _, hb⟩ := hb
    split at hb
    · simp only [Option.bind_eq_some] at hb
      obtain ⟨hp, hd, hb⟩ := hb
      have hs := destroy_slot _ _ _ _ hd
      split at hb
      · simp only [Option.bind_eq_some] at hb
        obtain ⟨h2, _, hb⟩ := hb
        split at hb
        · simp only [Option.some.injEq] at hb
          subst hb
          refine ⟨?_, hr.2⟩
          show 0 ≤ kSubVectorSize ∧ kSubVectorSize ≤ 16
          simp [kSubVectorSize]
        · simp only [Option.some.injEq] at hb
          subst hb
          refine ⟨?_, hr.2⟩
          show 0 ≤ d.reversed_size_ - 1 ∧ d.reversed_size_ - 1 ≤ 16
          omega
      · simp only [Option.some.injEq] at hb
        subst hb
        refine ⟨?_, hr.2⟩
        show 0 ≤ d.reversed_size_ - 1 ∧ d.reversed_size_ - 1 ≤ 16
        omega
    · simp only [Option.bind_eq_some] at hb
      obtain ⟨hp, hd, hb⟩ := hb
      have hs := destroy_slot _ _ _ _ hd
      split at hb
      · simp only [Option.bind_eq_some, Option.some.injEq] at hb
        obtain ⟨h2, _, rfl⟩ := hb
        refine ⟨hr.1, ?_⟩
        show (0 : Int) ≤ 0 ∧ (0 : Int) ≤ 15
        omega
      · rename_i hne
        simp only [Option.some.injEq] at hb
        subst hb
        refine ⟨hr.1, ?_⟩
        show 0 ≤ d.front_offset_ + 1 ∧ d.front_offset_ + 1 ≤ 15
        have : d.front_offset_ + 1 ≠ 16 := hne
        omega

/-- Every deque reached from a default-constructed one by endpoint calls has
`reversed_size_` in `[0, 16]` and `front_offset_` in `[0, 15]`. -/
theorem run_front_counters {T : Type} (ops : List (Op T)) :
    ∀ (d d1 : Deque T),
      (0 ≤ d.reversed_size_ ∧ d.reversed_size_ ≤ 16) ∧
        (0 ≤ d.front_offset_ ∧ d.front_offset_ ≤ 15) →
      run d ops = some d1 →
      (0 ≤ d1.reversed_size_ ∧ d1.reversed_size_ ≤ 16) ∧
        (0 ≤ d1.front_offset_ ∧ d1.front_offset_ ≤ 15) := by
  induction ops with
  | nil =>
    intro d d1 hr h
    simp only [run, Option.some.injEq] at h
    subst h
    exact hr
  | cons op ops ih =>
    intro d d1 hr h
    rw [run_cons, Option.bind_eq_some] at h
    obtain ⟨d2, h2, h3⟩ := h
    refine ih d2 d1 ?_ h3
    cases op with
    | push_back v =>
      obtain ⟨e1, e2⟩ := push_back_front_counters d d2 v h2
      rw [e1, e2]
      exact hr
    | push_front v => exact push_front_front_counters d d2 v hr.1 h2
    | pop_back =>
      obtain ⟨e1, e2⟩ := pop_back_front_counters d d2 h2
      rw [e1, e2]
      exact hr
    | pop_front => exact pop_front_front_counters d d2 hr h2

/-! ### Order of cursors -/

/-- On valid cursors of one directory and boundary, `operator==` is equality of the logical
positions. -/
theorem eq_iff_lin (a b : iterator_template) (ha : a.valid) (hb : b.valid)
    (hp : a.ptrs_ = b.ptrs_) (hr : a.reverse_start_ = b.reverse_start_) :
    a.eq b = true ↔ a.lin = b.lin := by
  constructor
  · intro h
    unfold iterator_template.eq at h
    simp only [decide_eq_true_eq] at h
    obtain ⟨_, h2, h3⟩ := h
    unfold iterator_template.lin
    rw [h2, h3, hr]
  · intro h
    have := valid_ext a b ha hb hp hr h
    subst this
    simp [iterator_template.eq]

/-- The block index of a valid cursor is the quotient of its logical position. -/
theorem sub_of_lin (a : iterator_template) (ha : a.valid) : a.sub_arr_ind_ = a.lin / 16 := by
  obtain ⟨h0, h16⟩ := ha
  unfold iterator_template.lin
  split <;> omega

/-- Cursors reached from a valid cursor by `i` and `j` steps compare as `i` and `j` do. -/
theorem compare_steps_valid (c : iterator_template) (hv : c.valid) (i j : Nat) :
    ((c.inc_times i).lt (c.inc_times j) = true ↔ i < j) ∧
    ((c.inc_times i).eq (c.inc_times j) = true ↔ i = j) ∧
    ((c.inc_times j).lt (c.inc_times i) = true ↔ j < i) := by
  obtain ⟨a1, a2, a3, a4⟩ := inc_times_spec i c hv
  obtain ⟨b1, b2, b3, b4⟩ := inc_times_spec j c hv
  refine ⟨?_, ?_, ?_⟩
  · rw [lt_iff_lin _ _ a3 b3 (a1.trans b1.symm) (a2.trans b2.symm), a4, b4]
    omega
  · rw [eq_iff_lin _ _ a3 b3 (a1.trans b1.symm) (a2.trans b2.symm), a4, b4]
    omega
  · rw [lt_iff_lin _ _ b3 a3 (b1.trans a1.symm) (b2.trans a2.symm), a4, b4]
    omega

/-- One step from a cursor with slot index `-1` gives a valid cursor of the same directory
and boundary, in a later block, or in the same block when that is a tail block. -/
theorem inc_from_before (c : iterator_template) (hl : c.local_ind_ = -1) :
    c.inc.valid ∧ c.inc.ptrs_ = c.ptrs_ ∧ c.inc.reverse_start_ = c.reverse_start_ ∧
    (c.sub_arr_ind_ < c.inc.sub_arr_ind_ ∨
      (c.inc.sub_arr_ind_ = c.sub_arr_ind_ ∧ ¬ c.sub_arr_ind_ ≤ c.reverse_start_)) := by
  obtain ⟨p, l, s, r⟩ := c
  simp only at hl
  subst hl
  unfold iterator_template.inc AddToGlobalInd add_core iterator_template.valid
  simp only [show ¬ ((1 : Int) < 0) by decide, if_false, kSubVectorSize]
  have e1 : Int.tdiv 1 16 = 0 := by decide
  have e2 : Int.tmod 1 16 = 1 := by decide
  by_cases hh : s ≤ r
  · simp only [hh, if_true]
    norm_num
    split <;> omega
  · simp only [hh, if_false]
    norm_num

/-- A cursor with slot index `-1` precedes, under `operator<`, every valid cursor of the
same directory and boundary that is in a later block, or in the same block when that is a
tail block; the two are not equal. -/
theorem before_lt (c b : iterator_template) (hl : c.local_ind_ = -1) (hb : b.valid)
    (hp : b.ptrs_ = c.ptrs_) (hr : b.reverse_start_ = c.reverse_start_)
    (hs : c.sub_arr_ind_ < b.sub_arr_ind_ ∨
      (b.sub_arr_ind_ = c.sub_arr_ind_ ∧ ¬ c.sub_arr_ind_ ≤ c.reverse_start_)) :
    c.lt b = true ∧ c.eq b = false ∧ b.lt c = false := by
  obtain ⟨pc, lc, sc, rc⟩ := c
  obtain ⟨pb, lb, sb, rb⟩ := b
  simp only [iterator_template.valid] at hl hb hp hr hs
  subst hl hp hr
  obtain ⟨b0, b16⟩ := hb
  simp only [iterator_template.lt, iterator_template.eq, ne_eq, not_true_eq_false, false_or,
    gt_iff_lt, true_and]
  rcases hs with h | ⟨h, hn⟩
  · have h1 : ¬ (sb < sc) := by omega
    have h2 : ¬ (lb = -1 ∧ sb = sc) := by omega
    have h3 : ¬ ((-1 : Int) = lb ∧ sc = sb) := by omega
    simp only [h1, h, if_true, if_false, h2, h3, decide_False, and_self]
  · subst h
    have h3 : ¬ ((-1 : Int) = lb) := by omega
    have h4 : (-1 : Int) < lb := by omega
    have h5 : ¬ (lb < (-1 : Int)) := by omega
    simp only [lt_irrefl, if_false, hn, h3, false_and, decide_False, h4, decide_True, h5,
      and_self]

/-- Cursors reached by `i` and `j` steps from a cursor whose slot index lies in `[-1, 16)`
compare as `i` and `j` do. -/
theorem compare_steps (c : iterator_template) (h0 : -1 ≤ c.local_ind_) (h16 : c.local_ind_ < 16)
    (i j : Nat) :
    ((c.inc_times i).lt (c.inc_times j) = true ↔ i < j) ∧
    ((c.inc_times i).eq (c.inc_times j) = true ↔ i = j) ∧
    ((c.inc_times j).lt (c.inc_times i) = true ↔ j < i) := by
  by_cases hv : 0 ≤ c.local_ind_
  · exact compare_steps_valid c ⟨hv, h16⟩ i j
  · have hl : c.local_ind_ = -1 := by omega
    obtain ⟨v1, v2, v3, v4⟩ := inc_from_before c hl
    have key : ∀ k : Nat, c.lt (c.inc_times (k + 1)) = true ∧
        c.eq (c.inc_times (k + 1)) = false ∧ (c.inc_times (k + 1)).lt c = false := by
      intro k
      obtain ⟨a1, a2, a3, a4⟩ := inc_times_spec k c.inc v1
      have hsub : c.inc.sub_arr_ind_ ≤ (c.inc.inc_times k).sub_arr_ind_ := by
        rw [sub_of_lin _ a3, sub_of_lin _ v1, a4]
        omega
      refine before_lt c (c.inc.inc_times k) hl a3 (a1.trans v2) (a2.trans v3) ?_
      rcases v4 with h | ⟨h, hn⟩
      · left
        omega
      · by_cases he : (c.inc.inc_times k).sub_arr_ind_ = c.sub_arr_ind_
        · right
          exact ⟨he, hn⟩
        · left
          omega
    have hself : c.lt c = false ∧ c.eq c = true := by
      simp [iterator_template.lt, iterator_template.eq]
    rcases i with _ | i <;> rcases j with _ | j
    · simp [iterator_template.inc_times, hself.1, hself.2]
    · obtain ⟨k1, k2, k3⟩ := key j
      have e : iterator_template.inc_times 0 c = c := rfl
      rw [e, k1, k2, k3]
      simp
    · obtain ⟨k1, k2, k3⟩ := key i
      have e : iterator_template.inc_times 0 c = c := rfl
      have k2b : (c.inc_times (i + 1)).eq c = false := by
        unfold iterator_template.eq at k2 ⊢
        simp only [decide_eq_false_iff_not] at k2 ⊢
        intro h
        exact k2 ⟨h.1.symm, h.2.1.symm, h.2.2.symm⟩
      rw [e, k1, k2b, k3]
      simp
    · obtain ⟨t1, t2, t3⟩ := compare_steps_valid c.inc v1 i j
      simp only [iterator_template.inc_times]
      exact ⟨t1.trans (by omega), t2.trans (by omega), t3.trans (by omega)⟩

/-- C23: in every deque reached from a default-constructed one by endpoint calls, the
cursors `a` and `b` obtained from `begin()` by `i` and `j` applications of `operator++`
satisfy `a < b` exactly when `i < j`, `a == b` exactly when `i == j` and `a > b` (which is
`b < a`) exactly when `i > j`; and of two cursors in the same head block the one with the
larger slot index compares smaller. -/
theorem cursor_order_is_step_order {T : Type} (ops : List (Op T)) (d : Deque T) (i j : Nat)
    (hrun : run (Deque.default T) ops = some d) :
    (((begin_ d).inc_times i).lt ((begin_ d).inc_times j) = true ↔ i < j) ∧
    (((begin_ d).inc_times i).eq ((begin_ d).inc_times j) = true ↔ i = j) ∧
    (((begin_ d).inc_times j).lt ((begin_ d).inc_times i) = true ↔ i > j) ∧
    ∀ (p : List Ptr) (sub rst l1 l2 : Int), sub ≤ rst →
      ((⟨p, l1, sub, rst⟩ : iterator_template).lt ⟨p, l2, sub, rst⟩ = true ↔ l1 > l2) := by
  have hr := run_front_counters ops (Deque.default T) d
    (by simp [Deque.default]) hrun
  have hb : -1 ≤ (begin_ d).local_ind_ ∧ (begin_ d).local_ind_ < 16 := by
    unfold begin_
    split
    · show -1 ≤ d.reversed_size_ - 1 ∧ d.reversed_size_ - 1 < 16
      omega
    · show -1 ≤ d.front_offset_ ∧ d.front_offset_ < 16
      omega
  obtain ⟨c1, c2, c3⟩ := compare_steps (begin_ d) hb.1 hb.2 i j
  refine ⟨c1, c2, c3, ?_⟩
  intro p sub rst l1 l2 hs
  simp [iterator_template.lt, hs]

/-- Witness for `cursor_order_is_step_order`: the deque left by `push_back(1)`,
`push_back(2)`, `push_front(0)`, cursors after 1 and 2 steps. -/
theorem cursor_order_is_step_order_witness :
    run (Deque.default Nat) [.push_back 1, .push_back 2, .push_front 0]
      = some two_back_one_front ∧
    (((begin_ two_back_one_front).inc_times 1).lt ((begin_ two_back_one_front).inc_times 2)
      = true ↔ 1 < 2) ∧
    (((begin_ two_back_one_front).inc_times 1).eq ((begin_ two_back_one_front).inc_times 2)
      = true ↔ 1 = 2) ∧
    (((begin_ two_back_one_front).inc_times 2).lt ((begin_ two_back_one_front).inc_times 1)
      = true ↔ 1 > 2) :=
  ⟨by decide,
    (cursor_order_is_step_order [.push_back 1, .push_back 2, .push_front 0]
      two_back_one_front 1 2 (by decide)).1,
    (cursor_order_is_step_order [.push_back 1, .push_back 2, .push_front 0]
      two_back_one_front 1 2 (by decide)).2.1,
    (cursor_order_is_step_order [.push_back 1, .push_back 2, .push_front 0]
      two_back_one_front 1 2 (by decide)).2.2.1⟩

/-! ### Reverse traversal -/

/-- One `operator--` moves the cursor at position `l` to the cursor at `l - 1`. -/
theorem dec_cur {T : Type} (d : Deque T) (l : Int) : (cur d l).dec = cur d (l - 1) := by
  obtain ⟨hv, hp, hr, hl⟩ := cur_spec d l
  obtain ⟨h1, h2, h3, h4⟩ := dec_spec (cur d l) hv
  have := eq_cur d (cur d l).dec h3 (h1.trans hp) (h2.trans hr)
  rw [this, h4, hl]

/-- Reverse traversal from the reverse cursor with base at index `j` of a laid-out deque
collects the first `j` elements backwards, as soon as the fuel exceeds their number. -/
theorem riterate_from_layout {T : Type} {d : Deque T} {s : List T} (L : Layout d s) :
    ∀ (j fuel : Nat), j ≤ s.length → j < fuel →
      riterate_from d fuel (cur d (lin_begin d + j)) = some (some (s.take j).reverse) := by
  intro j
  induction j with
  | zero =>
    intro fuel hj hf
    obtain ⟨f, rfl⟩ : ∃ f, fuel = f + 1 := ⟨fuel - 1, by omega⟩
    have he : (cur d (lin_begin d + ((0 : Nat) : Int))).eq (begin_ d) = true := by
      rw [begin_cur L, cur_eq_iff]
      simp
    simp only [riterate_from, he, if_true, List.take_zero, List.reverse_nil]
  | succ j ih =>
    intro fuel hj hf
    obtain ⟨f, rfl⟩ : ∃ f, fuel = f + 1 := ⟨fuel - 1, by omega⟩
    have hjl : j < s.length := by omega
    have he : ¬ ((cur d (lin_begin d + ((j + 1 : Nat) : Int))).eq (begin_ d) = true) := by
      rw [begin_cur L, cur_eq_iff]
      push_cast
      omega
    have hc : lin_begin d + ((j + 1 : Nat) : Int) - 1 = lin_begin d + j := by
      push_cast
      omega
    have hr := L.elems j hjl
    rw [List.getElem?_eq_getElem hjl] at hr
    have hn := ih f (by omega) (by omega)
    have ht : (s.take (j + 1)).reverse = s[j] :: (s.take j).reverse := by
      rw [List.take_succ, List.getElem?_eq_getElem hjl]
      simp
    rw [ht]
    simp only [riterate_from, he, if_false, dec_cur, hc, hr, hn, Option.map_some',
      Bool.false_eq_true]

/-- Reverse traversal over a laid-out deque yields its sequence backwards. -/
theorem riterate_layout {T : Type} {d : Deque T} {s : List T} (L : Layout d s) (fuel : Nat)
    (hf : s.length < fuel) : riterate fuel d = some (some s.reverse) := by
  have hlen := L.len
  have := riterate_from_layout L s.length fuel (le_refl _) hf
  unfold riterate
  rw [end_cur L]
  have hpos : lin_end d = lin_begin d + (s.length : Int) := by omega
  rw [hpos, this, List.take_length]

/-- C24: a sequence of `push_back` and `push_front` calls on a default-constructed deque
returns normally and leaves a deque whose forward iteration yields the reference sequence
`s` and whose reverse traversal from `rbegin()` to `rend()` returns as soon as it is allowed
`|s| + 1` tests of the loop condition and yields `s` backwards: it visits `|s|` elements and
the `k`-th visited is `s[|s| - 1 - k]`. -/
theorem reverse_traversal_mirrors {T : Type} (ops : List (Op T))
    (hops : ∀ op ∈ ops, op.is_push = true) :
    ∃ d, run (Deque.default T) ops = some d ∧
      (∀ fuel, (ref_run [] ops).length < fuel →
        iterate fuel d = some (some (ref_run [] ops))) ∧
      ∃ r, (∀ fuel, (ref_run [] ops).length < fuel → riterate fuel d = some (some r)) ∧
        r.length = (ref_run [] ops).length ∧
        ∀ k, k < (ref_run [] ops).length →
          r[k]? = (ref_run [] ops)[(ref_run [] ops).length - 1 - k]? := by
  obtain ⟨d, hrun, L⟩ := run_pushes ops (Deque.default T) [] (layout_default T) hops
  refine ⟨d, hrun, fun fuel hf => iterate_layout L fuel hf, (ref_run [] ops).reverse,
    fun fuel hf => riterate_layout L fuel hf, List.length_reverse _, ?_⟩
  intro k hk
  rw [List.getElem?_reverse hk]

/-- Witness for `reverse_traversal_mirrors`: `push_back(3)`, `push_back(4)`,
`push_front(1)`, `push_back(5)`. -/
theorem reverse_traversal_mirrors_witness :
    (∀ op ∈ [Op.push_back 3, Op.push_back 4, Op.push_front 1, Op.push_back 5],
      op.is_push = true) ∧
    ∃ d, run (Deque.default Nat) [Op.push_back 3, Op.push_back 4, Op.push_front 1,
        Op.push_back 5] = some d ∧
      iterate 5 d = some (some [1, 3, 4, 5]) ∧ riterate 5 d = some (some [5, 4, 3, 1]) := by
  refine ⟨by decide, ?_⟩
  obtain ⟨d, h1, h2, r, h3, h4, h5⟩ := reverse_traversal_mirrors
    [Op.push_back 3, Op.push_back 4, Op.push_front 1, Op.push_back 5] (by decide)
  refine ⟨d, h1, h2 5 (by decide), ?_⟩
  rw [h3 5 (by decide)]
  have e0 := h5 0 (by decide)
  have e1 := h5 1 (by decide)
  have e2 := h5 2 (by decide)
  have e3 := h5 3 (by decide)
  have hl : r.length = 4 := h4
  match r, hl with
  | [a, b, c, e], _ =>
    simp only [List.getElem?_cons_zero, List.getElem?_cons_succ] at e0 e1 e2 e3
    have f0 : a = 5 := by simpa [ref_run, Op.ref] using e0
    have f1 : b = 4 := by simpa [ref_run, Op.ref] using e1
    have f2 : c = 3 := by simpa [ref_run, Op.ref] using e2
    have f3 : e = 1 := by simpa [ref_run, Op.ref] using e3
    subst f0 f1 f2 f3
    rfl

/-! ### The free store under destruction and release -/

/-- Destroying the element in slot `j` of the held block `a` empties that slot only. -/
theorem destroy_upd {T : Type} (h : Heap T) (a : Nat) (j : Int) (x : T) (hh : held16 h a)
    (hx : load h (some a) j = some x) :
    ∃ h1, destroy h (some a) j = some h1 ∧ (∀ a1, held16 h1 a1 ↔ held16 h a1) ∧
      ∀ a1 j1, (a1 ≠ a ∨ j1 ≠ j) → load h1 (some a1) j1 = load h (some a1) j1 := by
  obtain ⟨b, hb, hl⟩ := hh
  rw [load_held h a b j hb] at hx
  by_cases hr : 0 ≤ j ∧ j < 16
  · simp only [hr, and_self, if_true] at hx
    have hbj : b[j.toNat]? = some (some x) := by
      cases hc : b[j.toNat]? with
      | none => simp [hc] at hx
      | some o =>
        cases o with
        | none => simp [hc] at hx
        | some y =>
          simp only [hc, Option.join, Option.some_bind, id, Option.some.injEq] at hx
          subst hx
          rfl
    have ha : a < h.length := by
      rcases List.getElem?_eq_some_iff.mp hb with ⟨hlt, _⟩
      exact hlt
    have hnew : (h.set a (some (b.set j.toNat none)))[a]? = some (some (b.set j.toNat none)) :=
      List.getElem?_set_self ha
    refine ⟨h.set a (some (b.set j.toNat none)), ?_, ?_, ?_⟩
    · have hr2 : 0 ≤ j ∧ j < kSubVectorSize := hr
      simp only [destroy, blockAt, hb, hr2, and_self, if_true, hbj]
    · intro a1
      unfold held16
      by_cases hne : a = a1
      · subst hne
        rw [hnew]
        constructor
        · intro _
          exact ⟨b, hb, hl⟩
        · intro _
          exact ⟨_, rfl, by simp [hl]⟩
      · rw [List.getElem?_set_ne hne]
    · intro a1 j1 hne
      by_cases hne1 : a = a1
      · subst hne1
        have hj : j1 ≠ j := by
          rcases hne with h | h
          · exact absurd rfl h
          · exact h
        rw [load_held _ a _ j1 hnew, load_held _ a _ j1 hb]
        by_cases hr1 : 0 ≤ j1 ∧ j1 < 16
        · have : j.toNat ≠ j1.toNat := by omega
          simp only [hr1, and_self, if_true, List.getElem?_set_ne this]
        · simp only [hr1, if_false]
      · simp only [load, blockAt, List.getElem?_set_ne hne1]
  · simp only [hr, if_false] at hx
    cases hx

/-- Releasing the held block `a` leaves every other block as it was. -/
theorem Dealloc_upd {T : Type} (h : Heap T) (a : Nat) (hh : held16 h a) :
    ∃ h1, Dealloc h (some a) = some h1 ∧ (∀ a1, a1 ≠ a → (held16 h1 a1 ↔ held16 h a1)) ∧
      ∀ a1 j1, a1 ≠ a → load h1 (some a1) j1 = load h (some a1) j1 := by
  obtain ⟨b, hb, hl⟩ := hh
  refine ⟨h.set a none, ?_, ?_, ?_⟩
  · simp only [Dealloc, hb]
  · intro a1 hne
    unfold held16
    rw [List.getElem?_set_ne (fun e => hne e.symm)]
  · intro a1 j1 hne
    simp only [load, blockAt, List.getElem?_set_ne (fun e => hne e.symm)]

/-! ### The general layout -/

/-- The first element lies in block `front_ptr_ind_`, the last position in the last block of
the directory. -/
theorem Span.span_bounds {T : Type} {d : Deque T} {s : List T} (S : Span d s) :
    16 * d.front_ptr_ind_ ≤ span_begin d ∧ span_begin d ≤ 16 * d.front_ptr_ind_ + 15 ∧
    16 * NumPtrs d - 15 ≤ span_end d ∧ span_end d ≤ 16 * NumPtrs d ∧
    span_begin d ≤ span_end d := by
  have h1 := S.head
  have h2 := S.nohead
  have h3 := S.tail
  have h4 := S.notail
  have h5 := S.len
  unfold span_begin span_end at *
  refine ⟨?_, ?_, ?_, ?_, by omega⟩
  · split
    · rename_i h; have := h1 h; omega
    · rename_i h; have := h2 h; omega
  · split
    · rename_i h; have := h1 h; omega
    · rename_i h; have := h2 h; omega
  · split
    · rename_i h; have := h3 h; omega
    · rename_i h; have := h4 h; omega
  · split
    · rename_i h; have := h3 h; omega
    · rename_i h; have := h4 h; omega

/-- The block of the element at index `i` lies in the live part of the directory. -/
theorem Span.span_pos_sub {T : Type} {d : Deque T} {s : List T} (S : Span d s) (i : Nat)
    (hi : i < s.length) :
    d.front_ptr_ind_ ≤ (span_begin d + i) / 16 ∧ (span_begin d + i) / 16 < NumPtrs d := by
  obtain ⟨h1, _, _, h2, _⟩ := S.span_bounds
  have h3 := S.len
  constructor <;> omega

/-- A non-empty sequence has a block at `front_ptr_ind_`, and the directory is not empty. -/
theorem Span.nonempty {T : Type} {d : Deque T} {s : List T} (S : Span d s) (hs : s ≠ []) :
    d.front_ptr_ind_ < NumPtrs d ∧ d.ptrs_.isEmpty = false := by
  have hl : 0 < s.length := List.length_pos.mpr hs
  obtain ⟨p1, p2⟩ := S.span_pos_sub 0 hl
  obtain ⟨h1, h2, _, _, _⟩ := S.span_bounds
  have hf : d.front_ptr_ind_ < NumPtrs d := by
    have : (span_begin d + ((0 : Nat) : Int)) / 16 = d.front_ptr_ind_ := by
      push_cast
      omega
    omega
  refine ⟨hf, ?_⟩
  have := S.fpi0
  rcases hp : d.ptrs_ with _ | ⟨p, ps⟩
  · simp only [NumPtrs, hp, List.length_nil] at hf
    omega
  · rfl

/-- A non-empty directory holds a non-empty sequence. -/
theorem Span.of_ptrs {T : Type} {d : Deque T} {s : List T} (S : Span d s)
    (hp : d.ptrs_.isEmpty = false) : s ≠ [] := by
  intro h
  have := S.empty h
  rw [this] at hp
  simp at hp

/-- An empty sequence is held by the default counters. -/
theorem Span.of_nil {T : Type} {d : Deque T} (S : Span d ([] : List T)) :
    d.ptrs_ = [] ∧ d.front_ptr_ind_ = 0 ∧ d.reverse_start_ = -1 ∧ d.front_offset_ = 0 ∧
    d.back_offset_ = 0 ∧ d.reversed_size_ = 0 ∧ d.back_size_ = 0 := by
  have hp := S.empty rfl
  have h1 := S.fpi0
  have h2 := S.fpi_le
  have h3 := S.rst_lt
  have h4 := S.nohead
  have h5 := S.notail
  have h6 := S.len
  simp only [NumPtrs, hp, List.length_nil] at h3 h5
  have hf : d.front_ptr_ind_ = 0 := by omega
  have hr : d.reverse_start_ = -1 := by omega
  have hnh : ¬ d.front_ptr_ind_ ≤ d.reverse_start_ := by omega
  have hnt : ¬ ((0 : Int) - 1 > d.reverse_start_) := by omega
  obtain ⟨a1, a2, a3⟩ := h4 hnh
  obtain ⟨b1, b2, b3⟩ := h5 (by simpa using hnt)
  unfold span_begin span_end at h6
  simp only [hnh, if_false, NumPtrs, hp, List.length_nil] at h6
  have hnt2 : ¬ (((0 : Nat) : Int) - 1 > d.reverse_start_) := by omega
  simp only [hnt2, if_false, List.length_nil] at h6
  refine ⟨hp, hf, hr, ?_, ?_, a3, b3⟩ <;> omega

/-- Two different positions in live blocks address different slots: different blocks, or
different slot indices of one block. -/
theorem Span.sep {T : Type} {d : Deque T} {s : List T} (S : Span d s) (l1 l2 : Int)
    (a1 a2 : Nat)
    (h1 : d.front_ptr_ind_ ≤ l1 / 16) (h1n : l1 / 16 < NumPtrs d)
    (h2 : d.front_ptr_ind_ ≤ l2 / 16) (h2n : l2 / 16 < NumPtrs d)
    (hv1 : vecAt d.ptrs_ (l1 / 16) = some (some a1))
    (hv2 : vecAt d.ptrs_ (l2 / 16) = some (some a2)) (hne : l1 ≠ l2) :
    a1 ≠ a2 ∨ (if l1 / 16 ≤ d.reverse_start_ then 15 - l1 % 16 else l1 % 16)
      ≠ (if l2 / 16 ≤ d.reverse_start_ then 15 - l2 % 16 else l2 % 16) := by
  by_cases hs : l1 / 16 = l2 / 16
  · right
    rw [hs]
    split <;> omega
  · left
    intro e
    subst e
    exact hs (S.inj _ _ _ h1 h1n h2 h2n hv1 hv2)

/-- The element at index `i` sits in a held block of the directory. -/
theorem Span.cell {T : Type} {d : Deque T} {s : List T} (S : Span d s) (i : Nat)
    (hi : i < s.length) :
    ∃ a, vecAt d.ptrs_ ((span_begin d + i) / 16) = some (some a) ∧ held16 d.heap a ∧
      load d.heap (some a)
        (if (span_begin d + i) / 16 ≤ d.reverse_start_ then 15 - (span_begin d + i) % 16
          else (span_begin d + i) % 16) = some s[i] := by
  obtain ⟨p1, p2⟩ := S.span_pos_sub i hi
  obtain ⟨a, hv, hh⟩ := S.blocks _ p1 p2
  have he := S.elems i hi
  rw [read_cur, hv, List.getElem?_eq_getElem hi] at he
  exact ⟨a, hv, hh, he⟩

/-- Reading at a position shifted by `m` directory entries gives what the old deque read,
when the directory entry, the region of the block and the slot are unchanged. -/
theorem read_keep {T : Type} (d d1 : Deque T) (m l : Int) (a : Nat)
    (hv : vecAt d.ptrs_ (l / 16) = some (some a))
    (hdir : vecAt d1.ptrs_ (l / 16 + m) = some (some a))
    (hside : l / 16 + m ≤ d1.reverse_start_ ↔ l / 16 ≤ d.reverse_start_)
    (hload : load d1.heap (some a)
        (if l / 16 ≤ d.reverse_start_ then 15 - l % 16 else l % 16)
      = load d.heap (some a) (if l / 16 ≤ d.reverse_start_ then 15 - l % 16 else l % 16)) :
    (cur d1 (l + 16 * m)).read d1.heap = (cur d l).read d.heap := by
  rw [read_cur, read_cur]
  have hq : (l + 16 * m) / 16 = l / 16 + m := by omega
  have hr : (l + 16 * m) % 16 = l % 16 := by omega
  rw [hq, hr, hdir, hv]
  simp only [Option.some_bind, hside]
  exact hload

/-! ### `push_back` on the general layout -/

/-- Constructing `x` at the position one past the last element, inside the last block,
extends the sequence at the back. -/
theorem span_put_back {T : Type} {d d1 : Deque T} {s : List T} (S : Span d s) (x : T) (a : Nat)
    (hin : span_end d < 16 * NumPtrs d)
    (hva : vecAt d.ptrs_ (span_end d / 16) = some (some a))
    (hu : heap_upd d.heap d1.heap a
      (if span_end d / 16 ≤ d.reverse_start_ then 15 - span_end d % 16 else span_end d % 16) x)
    (e1 : d1.ptrs_ = d.ptrs_) (e2 : d1.front_ptr_ind_ = d.front_ptr_ind_)
    (e3 : d1.reverse_start_ = d.reverse_start_) (e4 : d1.front_offset_ = d.front_offset_)
    (e5 : d1.reversed_size_ = d.reversed_size_) (e6 : d1.size_ = d.size_ + 1)
    (e7 : span_end d1 = span_end d + 1)
    (t1 : NumPtrs d1 - 1 > d1.reverse_start_ →
      1 ≤ d1.back_size_ ∧ d1.back_size_ ≤ 16 ∧ d1.back_offset_ = 0)
    (t2 : ¬ NumPtrs d1 - 1 > d1.reverse_start_ →
      0 ≤ d1.back_offset_ ∧ d1.back_offset_ ≤ 15 ∧ d1.back_size_ = 0) :
    Span d1 (s ++ [x]) := by
  obtain ⟨b1, b2, b3, b4, b5⟩ := S.span_bounds
  obtain ⟨hu1, hu2, hu3, hu4⟩ := hu
  have hlen := S.len
  have hn : NumPtrs d1 = NumPtrs d := by
    unfold NumPtrs
    rw [e1]
  have hb : span_begin d1 = span_begin d := by
    unfold span_begin
    rw [e2, e3, e4, e5]
  constructor
  · rw [e6, S.size_eq]
    simp
  · rw [e2]
    exact S.fpi0
  · rw [e2, e3]
    exact S.fpi_le
  · rw [e3, hn]
    exact S.rst_lt
  · rw [e2, e3, e4, e5]
    exact S.head
  · rw [e2, e3, e4, e5]
    exact S.nohead
  · exact t1
  · exact t2
  · rw [e7, hb]
    simp only [List.length_append, List.length_singleton]
    push_cast
    omega
  · intro h
    simp at h
  · intro sub h1 h2
    rw [e2] at h1
    rw [hn] at h2
    obtain ⟨a1, hv1, hh1⟩ := S.blocks sub h1 h2
    rw [e1]
    exact ⟨a1, hv1, (hu2 a1).mpr hh1⟩
  · rw [e1, e2, hn]
    exact S.inj
  · intro i hi
    simp only [List.length_append, List.length_singleton] at hi
    rw [hb]
    by_cases hlt : i < s.length
    · obtain ⟨p1, p2⟩ := S.span_pos_sub i hlt
      obtain ⟨a1, hv1, hh1, hl1⟩ := S.cell i hlt
      have hk := read_keep d d1 0 (span_begin d + i) a1 hv1
        (by rw [e1, add_zero]; exact hv1) (by rw [e3, add_zero])
        (hu4 a1 _ (S.sep _ _ a1 a p1 p2 (by omega) (by omega) hv1 hva (by omega)))
      rw [mul_zero, add_zero] at hk
      rw [hk, S.elems i hlt, List.getElem?_append_left hlt]
    · have hi2 : i = s.length := by omega
      subst hi2
      have hpos : span_begin d + (s.length : Int) = span_end d := by omega
      rw [hpos, read_cur, e1, e3, hva]
      simp only [Option.some_bind, hu3]
      simp

/-- Appending a fresh block that holds `x` in slot 0 extends a sequence that ends at a block
end. -/
theorem span_new_back {T : Type} {d d1 : Deque T} {s : List T} (S : Span d s) (x : T)
    (hend : span_end d = 16 * NumPtrs d)
    (e1 : d1.ptrs_ = d.ptrs_ ++ [some d.heap.length])
    (e2 : d1.front_ptr_ind_ = d.front_ptr_ind_)
    (e3 : d1.reverse_start_ = d.reverse_start_) (e4 : d1.front_offset_ = d.front_offset_)
    (e5 : d1.reversed_size_ = d.reversed_size_) (e6 : d1.size_ = d.size_ + 1)
    (e7 : d1.back_size_ = 1) (e8 : d1.back_offset_ = 0)
    (hA : held16 d1.heap d.heap.length)
    (hold : ∀ a, held16 d.heap a → a ≠ d.heap.length ∧ held16 d1.heap a ∧
      ∀ j, load d1.heap (some a) j = load d.heap (some a) j)
    (hx : load d1.heap (some d.heap.length) 0 = some x) :
    Span d1 (s ++ [x]) := by
  obtain ⟨b1, b2, b3, b4, b5⟩ := S.span_bounds
  have hlen := S.len
  have hrl := S.rst_lt
  have hn : NumPtrs d1 = NumPtrs d + 1 := by
    unfold NumPtrs
    rw [e1]
    simp
  have hb : span_begin d1 = span_begin d := by
    unfold span_begin
    rw [e2, e3, e4, e5]
  have ht : NumPtrs d1 - 1 > d1.reverse_start_ := by
    rw [hn, e3]
    omega
  have he : span_end d1 = 16 * NumPtrs d + 1 := by
    unfold span_end
    simp only [ht, if_true]
    rw [hn, e7]
    omega
  constructor
  · rw [e6, S.size_eq]
    simp
  · rw [e2]
    exact S.fpi0
  · rw [e2, e3]
    exact S.fpi_le
  · rw [e3, hn]
    omega
  · rw [e2, e3, e4, e5]
    exact S.head
  · rw [e2, e3, e4, e5]
    exact S.nohead
  · intro _
    rw [e7, e8]
    omega
  · intro h
    exact absurd ht h
  · rw [he, hb]
    simp only [List.length_append, List.length_singleton]
    push_cast
    omega
  · intro h
    simp at h
  · intro sub h1 h2
    rw [e2] at h1
    rw [hn] at h2
    rw [e1]
    by_cases hs : sub < NumPtrs d
    · obtain ⟨a1, hv1, hh1⟩ := S.blocks sub h1 hs
      refine ⟨a1, ?_, (hold a1 hh1).2.1⟩
      rw [vecAt_append_left _ _ _ hs]
      exact hv1
    · have : sub = (d.ptrs_.length : Int) := by
        unfold NumPtrs at hs h2
        omega
      subst this
      exact ⟨d.heap.length, vecAt_append_length _ _, hA⟩
  · intro sub1 sub2 a h1a h1b h2a h2b hv1 hv2
    rw [e2] at h1a h2a
    rw [hn] at h1b h2b
    rw [e1] at hv1 hv2
    by_cases hs1 : sub1 < NumPtrs d
    · rw [vecAt_append_left _ _ _ hs1] at hv1
      by_cases hs2 : sub2 < NumPtrs d
      · rw [vecAt_append_left _ _ _ hs2] at hv2
        exact S.inj sub1 sub2 a h1a hs1 h2a hs2 hv1 hv2
      · have e : sub2 = (d.ptrs_.length : Int) := by
          unfold NumPtrs at hs2 h2b
          omega
        subst e
        rw [vecAt_append_length] at hv2
        obtain ⟨a1, hv1b, hh1⟩ := S.blocks sub1 h1a hs1
        rw [hv1] at hv1b
        simp only [Option.some.injEq] at hv1b hv2
        exact absurd (hv1b.symm.trans hv2.symm) (hold a1 hh1).1
    · have e : sub1 = (d.ptrs_.length : Int) := by
        unfold NumPtrs at hs1 h1b
        omega
      subst e
      rw [vecAt_append_length] at hv1
      by_cases hs2 : sub2 < NumPtrs d
      · rw [vecAt_append_left _ _ _ hs2] at hv2
        obtain ⟨a1, hv2b, hh1⟩ := S.blocks sub2 h2a hs2
        rw [hv2] at hv2b
        simp only [Option.some.injEq] at hv2b hv1
        exact absurd (hv2b.symm.trans hv1.symm) (hold a1 hh1).1
      · unfold NumPtrs at hs2 h2b
        omega
  · intro i hi
    simp only [List.length_append, List.length_singleton] at hi
    rw [hb]
    by_cases hlt : i < s.length
    · obtain ⟨p1, p2⟩ := S.span_pos_sub i hlt
      obtain ⟨a1, hv1, hh1, hl1⟩ := S.cell i hlt
      have hk := read_keep d d1 0 (span_begin d + i) a1 hv1
        (by rw [e1, add_zero, vecAt_append_left _ _ _ p2]; exact hv1) (by rw [e3, add_zero])
        ((hold a1 hh1).2.2 _)
      rw [mul_zero, add_zero] at hk
      rw [hk, S.elems i hlt, List.getElem?_append_left hlt]
    · have hi2 : i = s.length := by omega
      subst hi2
      have hpos : span_begin d + (s.length : Int) = 16 * (d.ptrs_.length : Int) := by
        unfold NumPtrs at hend
        omega
      have hq : (16 * (d.ptrs_.length : Int)) / 16 = (d.ptrs_.length : Int) := by omega
      have hm : (16 * (d.ptrs_.length : Int)) % 16 = 0 := by omega
      have hnr : ¬ ((d.ptrs_.length : Int) ≤ d.reverse_start_) := by
        unfold NumPtrs at hrl
        omega
      rw [hpos, read_cur, hq, hm, e1, e3, vecAt_append_length]
      simp only [hnr, if_false, Option.some_bind, hx]
      simp

/-- A `push_back` on a deque holding `s` returns a deque holding `s ++ [x]` and leaves the
front counters. -/
theorem span_push_back {T : Type} {d : Deque T} {s : List T} (S : Span d s) (x : T) :
    ∃ d1, push_back d x = Outcome.ok d1 ∧ Span d1 (s ++ [x]) ∧
      d1.front_ptr_ind_ = d.front_ptr_ind_ ∧ d1.reverse_start_ = d.reverse_start_ ∧
      d1.front_offset_ = d.front_offset_ := by
  obtain ⟨b1, b2, b3, b4, b5⟩ := S.span_bounds
  have hlen := S.len
  have hrl := S.rst_lt
  have hf0 := S.fpi0
  have hfl := S.fpi_le
  by_cases hg : d.ptrs_.isEmpty ∨ (d.reverse_start_ = NumPtrs d - 1 ∧ d.back_offset_ = 0) ∨
      d.back_size_ = kSubVectorSize
  · -- a new tail block
    have hfacts : span_end d = 16 * NumPtrs d ∧ d.back_offset_ = 0 := by
      by_cases ht : NumPtrs d - 1 > d.reverse_start_
      · obtain ⟨t1, t2, t3⟩ := S.tail ht
        have hbs : d.back_size_ = 16 := by
          rcases hg with h | h | h
          · have : d.ptrs_ = [] := by simpa using h
            simp only [NumPtrs, this, List.length_nil] at ht
            omega
          · omega
          · exact h
        refine ⟨?_, t3⟩
        unfold span_end
        simp only [ht, if_true]
        omega
      · obtain ⟨t1, t2, t3⟩ := S.notail ht
        have hbo : d.back_offset_ = 0 := by
          rcases hg with h | h | h
          · have : d.ptrs_ = [] := by simpa using h
            unfold span_end at hlen b3 b4 b5
            simp only [ht, if_false] at hlen b3 b4 b5
            simp only [NumPtrs, this, List.length_nil] at hlen b3 b4 b5
            omega
          · exact h.2
          · simp only [kSubVectorSize] at h
            omega
        refine ⟨?_, hbo⟩
        unfold span_end
        simp only [ht, if_false]
        omega
    obtain ⟨hend, hbo⟩ := hfacts
    obtain ⟨hA1, hA2, hA3, hA4, hA5⟩ := Allocate_spec d.heap
    obtain ⟨h2, hc, hh2, hx, hold⟩ := fresh_block d.heap (Allocate d.heap).2 d.heap.length x hA3
      (Allocate_ext d.heap)
    have hpg : push_back_grow d = ({ d with ptrs_ := d.ptrs_ ++ [(Allocate d.heap).1], heap := (Allocate d.heap).2, back_size_ := 0 }, true) := by
      unfold push_back_grow
      rw [if_pos hg]
    have hnp : ¬ (0 < d.back_offset_) := by omega
    unfold push_back push_back_impl
    simp only [hpg, hnp, gt_iff_lt, if_false, List.getLast?_concat, Option.map_some',
      Bool.false_eq_true, hA1, hc]
    refine ⟨_, rfl, ?_, rfl, rfl, rfl⟩
    exact span_new_back S x hend rfl rfl rfl rfl rfl rfl (by simp) hbo hh2 hold hx
  · -- room in the last block
    have hne : d.ptrs_.isEmpty = false := by
      rcases hp : d.ptrs_ with _ | ⟨p, ps⟩
      · exact absurd (Or.inl (by simp [hp])) hg
      · rfl
    have hs := S.of_ptrs hne
    obtain ⟨hfn, _⟩ := S.nonempty hs
    have hn1 : 1 ≤ d.ptrs_.length := by
      unfold NumPtrs at hfn
      omega
    have hpg : push_back_grow d = (d, false) := by
      unfold push_back_grow
      rw [if_neg hg]
    obtain ⟨a, hva, hha⟩ := S.blocks (NumPtrs d - 1) (by omega) (by omega)
    by_cases ht : NumPtrs d - 1 > d.reverse_start_
    · obtain ⟨t1, t2, t3⟩ := S.tail ht
      have hbs16 : d.back_size_ ≠ 16 := fun h => hg (Or.inr (Or.inr h))
      have hend : span_end d = 16 * (NumPtrs d - 1) + d.back_size_ := by
        unfold span_end
        simp only [ht, if_true]
      have hq : span_end d / 16 = NumPtrs d - 1 := by omega
      have hm : span_end d % 16 = d.back_size_ := by omega
      have hnr : ¬ (NumPtrs d - 1 ≤ d.reverse_start_) := by omega
      obtain ⟨h1, hc, hu⟩ := construct_upd d.heap a d.back_size_ x hha (by omega) (by omega)
      have hlast : d.ptrs_.getLast? = some (some a) := by
        rw [getLast?_eq_vecAt _ hn1]
        exact hva
      have hnp : ¬ (0 < d.back_offset_) := by omega
      unfold push_back push_back_impl
      simp only [hpg, hnp, gt_iff_lt, if_false, hlast, Option.map_some',
        Bool.false_eq_true, hc]
      refine ⟨_, rfl, ?_, rfl, rfl, rfl⟩
      refine span_put_back S x a (by omega) (by rw [hq]; exact hva) ?_ rfl rfl rfl rfl rfl rfl
        ?_ ?_ ?_
      · rw [hq, hm]
        simp only [hnr, if_false]
        exact hu
      · unfold span_end
        simp only [NumPtrs] at ht ⊢
        simp only [ht, if_true]
        omega
      · intro _
        show 1 ≤ d.back_size_ + 1 ∧ d.back_size_ + 1 ≤ 16 ∧ d.back_offset_ = 0
        omega
      · intro h
        exact absurd ht h
    · obtain ⟨t1, t2, t3⟩ := S.notail ht
      have hrn : d.reverse_start_ = NumPtrs d - 1 := by omega
      have hbo : d.back_offset_ ≠ 0 := fun h => hg (Or.inr (Or.inl ⟨hrn, h⟩))
      have hbo1 : 0 < d.back_offset_ := by omega
      have hend : span_end d = 16 * NumPtrs d - d.back_offset_ := by
        unfold span_end
        simp only [ht, if_false]
      have hq : span_end d / 16 = NumPtrs d - 1 := by omega
      have hm : span_end d % 16 = 16 - d.back_offset_ := by omega
      have hnr : NumPtrs d - 1 ≤ d.reverse_start_ := by omega
      obtain ⟨h1, hc, hu⟩ := construct_upd d.heap a (d.back_offset_ - 1) x hha (by omega)
        (by omega)
      have hvr : vecAt d.ptrs_ d.reverse_start_ = some (some a) := by
        rw [hrn]
        exact hva
      unfold push_back push_back_impl
      simp only [hpg, hbo1, gt_iff_lt, if_true, hvr, Option.map_some',
        Bool.false_eq_true, if_false, hc]
      refine ⟨_, rfl, ?_, rfl, rfl, rfl⟩
      refine span_put_back S x a (by omega) (by rw [hq]; exact hva) ?_ rfl rfl rfl rfl rfl rfl
        ?_ ?_ ?_
      · rw [hq, hm]
        simp only [hnr, if_true]
        have : 15 - (16 - d.back_offset_) = d.back_offset_ - 1 := by omega
        rw [this]
        exact hu
      · unfold span_end
        simp only [NumPtrs] at ht ⊢
        simp only [ht, if_false]
        omega
      · intro h
        exact absurd h ht
      · intro _
        show 0 ≤ d.back_offset_ - 1 ∧ d.back_offset_ - 1 ≤ 15 ∧ d.back_size_ = 0
        omega

/-! ### `push_front` on the general layout -/

/-- Constructing `x` at the position just before the first element, inside the front block,
extends the sequence at the front. -/
theorem span_put_front {T : Type} {d d1 : Deque T} {s : List T} (S : Span d s) (x : T) (a : Nat)
    (hin : 16 * d.front_ptr_ind_ < span_begin d)
    (hfn : d.front_ptr_ind_ < NumPtrs d)
    (hva : vecAt d.ptrs_ ((span_begin d - 1) / 16) = some (some a))
    (hu : heap_upd d.heap d1.heap a
      (if (span_begin d - 1) / 16 ≤ d.reverse_start_ then 15 - (span_begin d - 1) % 16
        else (span_begin d - 1) % 16) x)
    (e1 : d1.ptrs_ = d.ptrs_) (e2 : d1.front_ptr_ind_ = d.front_ptr_ind_)
    (e3 : d1.reverse_start_ = d.reverse_start_) (e4 : d1.back_offset_ = d.back_offset_)
    (e5 : d1.back_size_ = d.back_size_) (e6 : d1.size_ = d.size_ + 1)
    (e7 : span_begin d1 = span_begin d - 1)
    (t1 : d1.front_ptr_ind_ ≤ d1.reverse_start_ →
      1 ≤ d1.reversed_size_ ∧ d1.reversed_size_ ≤ 16 ∧ d1.front_offset_ = 0)
    (t2 : ¬ d1.front_ptr_ind_ ≤ d1.reverse_start_ →
      0 ≤ d1.front_offset_ ∧ d1.front_offset_ ≤ 15 ∧ d1.reversed_size_ = 0) :
    Span d1 (x :: s) := by
  obtain ⟨b1, b2, b3, b4, b5⟩ := S.span_bounds
  obtain ⟨hu1, hu2, hu3, hu4⟩ := hu
  have hlen := S.len
  have hn : NumPtrs d1 = NumPtrs d := by
    unfold NumPtrs
    rw [e1]
  have he : span_end d1 = span_end d := by
    unfold span_end
    rw [hn, e3, e4, e5]
  constructor
  · rw [e6, S.size_eq]
    simp
  · rw [e2]
    exact S.fpi0
  · rw [e2, e3]
    exact S.fpi_le
  · rw [e3, hn]
    exact S.rst_lt
  · exact t1
  · exact t2
  · rw [hn, e3, e4, e5]
    exact S.tail
  · rw [hn, e3, e4, e5]
    exact S.notail
  · rw [e7, he]
    simp only [List.length_cons]
    push_cast
    omega
  · intro h
    simp at h
  · intro sub h1 h2
    rw [e2] at h1
    rw [hn] at h2
    obtain ⟨a1, hv1, hh1⟩ := S.blocks sub h1 h2
    rw [e1]
    exact ⟨a1, hv1, (hu2 a1).mpr hh1⟩
  · rw [e1, e2, hn]
    exact S.inj
  · intro i hi
    simp only [List.length_cons] at hi
    rw [e7]
    rcases i with _ | k
    · have hpos : span_begin d - 1 + ((0 : Nat) : Int) = span_begin d - 1 := by simp
      rw [hpos, read_cur, e1, e3, hva]
      simp only [Option.some_bind, hu3]
      simp
    · have hk : k < s.length := by omega
      obtain ⟨p1, p2⟩ := S.span_pos_sub k hk
      obtain ⟨a1, hv1, hh1, hl1⟩ := S.cell k hk
      have hkk := read_keep d d1 0 (span_begin d + k) a1 hv1
        (by rw [e1, add_zero]; exact hv1) (by rw [e3, add_zero])
        (hu4 a1 _ (S.sep _ _ a1 a p1 p2 (by omega) (by omega) hv1 hva (by omega)))
      rw [mul_zero, add_zero] at hkk
      have hpos : span_begin d - 1 + ((k + 1 : Nat) : Int) = span_begin d + k := by
        push_cast
        omega
      rw [hpos, hkk, S.elems k hk, List.getElem?_cons_succ]

/-- A deque holding `s` from a block start on, whose directory is shifted by `m` entries and
which gets a fresh block holding `x` in slot 0 just before the old first block, holds
`x :: s`. -/
theorem span_new_front {T : Type} {d d1 : Deque T} {s : List T} (S : Span d s) (x : T)
    (m : Int) (A : Nat)
    (hlb : span_begin d = 16 * d.front_ptr_ind_)
    (hfo : d1.front_offset_ = 0) (hbo : d1.back_offset_ = d.back_offset_)
    (hsz : d1.size_ = d.size_ + 1) (hbs : d1.back_size_ = d.back_size_)
    (hrst : d1.reverse_start_ = d.reverse_start_ + m)
    (hfpi : d1.front_ptr_ind_ = d.front_ptr_ind_ + m - 1)
    (hrs : d1.reversed_size_ = 1)
    (hn : NumPtrs d1 = NumPtrs d + m)
    (hf0 : 0 ≤ d.front_ptr_ind_ + m - 1)
    (hP2 : ∀ sub, d.front_ptr_ind_ ≤ sub → sub < NumPtrs d →
      vecAt d1.ptrs_ (sub + m) = vecAt d.ptrs_ sub)
    (hP3 : vecAt d1.ptrs_ (d.front_ptr_ind_ + m - 1) = some (some A))
    (hA : held16 d1.heap A)
    (hold : ∀ a, held16 d.heap a → a ≠ A ∧ held16 d1.heap a ∧
      ∀ j, load d1.heap (some a) j = load d.heap (some a) j)
    (hx : load d1.heap (some A) 0 = some x) :
    Span d1 (x :: s) := by
  obtain ⟨b1, b2, b3, b4, b5⟩ := S.span_bounds
  have hfl := S.fpi_le
  have hrl := S.rst_lt
  have hlen := S.len
  have hhead : d1.front_ptr_ind_ ≤ d1.reverse_start_ := by omega
  have hlb1 : span_begin d1 = span_begin d + 16 * m - 1 := by
    rw [hlb]
    unfold span_begin
    simp only [hhead, if_true]
    omega
  have hle1 : span_end d1 = span_end d + 16 * m := by
    unfold span_end
    rw [hn, hrst, hbs, hbo]
    by_cases ht : NumPtrs d - 1 > d.reverse_start_
    · have : NumPtrs d + m - 1 > d.reverse_start_ + m := by omega
      simp only [ht, this, if_true]
      omega
    · have : ¬ (NumPtrs d + m - 1 > d.reverse_start_ + m) := by omega
      simp only [ht, this, if_false]
      omega
  constructor
  · rw [hsz, S.size_eq]
    simp
  · omega
  · omega
  · omega
  · intro _
    omega
  · intro h
    exact absurd hhead h
  · intro ht
    rw [hbs, hbo]
    exact S.tail (by omega)
  · intro ht
    rw [hbs, hbo]
    exact S.notail (by omega)
  · simp only [List.length_cons]
    push_cast
    omega
  · intro h
    simp at h
  · intro sub h1 h2
    by_cases hs : sub = d.front_ptr_ind_ + m - 1
    · subst hs
      exact ⟨A, hP3, hA⟩
    · obtain ⟨a, hv, hh⟩ := S.blocks (sub - m) (by omega) (by omega)
      refine ⟨a, ?_, (hold a hh).2.1⟩
      have := hP2 (sub - m) (by omega) (by omega)
      rw [sub_add_cancel] at this
      rw [this]
      exact hv
  · intro sub1 sub2 a h1a h1b h2a h2b hv1 hv2
    by_cases hs1 : sub1 = d.front_ptr_ind_ + m - 1
    · by_cases hs2 : sub2 = d.front_ptr_ind_ + m - 1
      · omega
      · exfalso
        obtain ⟨a2, hv, hh⟩ := S.blocks (sub2 - m) (by omega) (by omega)
        have e2 := hP2 (sub2 - m) (by omega) (by omega)
        rw [sub_add_cancel] at e2
        rw [e2, hv] at hv2
        rw [hs1, hP3] at hv1
        simp only [Option.some.injEq] at hv1 hv2
        exact (hold a2 hh).1 (by omega)
    · obtain ⟨a1, hva, hh1⟩ := S.blocks (sub1 - m) (by omega) (by omega)
      have e1 := hP2 (sub1 - m) (by omega) (by omega)
      rw [sub_add_cancel] at e1
      by_cases hs2 : sub2 = d.front_ptr_ind_ + m - 1
      · exfalso
        rw [e1, hva] at hv1
        rw [hs2, hP3] at hv2
        simp only [Option.some.injEq] at hv1 hv2
        exact (hold a1 hh1).1 (by omega)
      · have e2 := hP2 (sub2 - m) (by omega) (by omega)
        rw [sub_add_cancel] at e2
        rw [e1] at hv1
        rw [e2] at hv2
        have := S.inj (sub1 - m) (sub2 - m) a (by omega) (by omega) (by omega) (by omega) hv1 hv2
        omega
  · intro i hi
    rw [hlb1]
    rcases i with _ | k
    · rw [read_cur, hrst]
      have hq : (span_begin d + 16 * m - 1 + ((0 : Nat) : Int)) / 16
          = d.front_ptr_ind_ + m - 1 := by
        omega
      have hr : (span_begin d + 16 * m - 1 + ((0 : Nat) : Int)) % 16 = 15 := by omega
      have hc : d.front_ptr_ind_ + m - 1 ≤ d.reverse_start_ + m := by omega
      rw [hq, hr, hP3]
      simp only [hc, if_true, Option.some_bind]
      simpa using hx
    · simp only [List.length_cons] at hi
      have hk : k < s.length := by omega
      obtain ⟨p1, p2⟩ := S.span_pos_sub k hk
      obtain ⟨a1, hv1, hh1, hl1⟩ := S.cell k hk
      have hkk := read_keep d d1 m (span_begin d + k) a1 hv1
        (by rw [hP2 _ p1 p2]; exact hv1) (by rw [hrst]; omega) ((hold a1 hh1).2.2 _)
      have hpos : span_begin d + 16 * m - 1 + ((k + 1 : Nat) : Int)
          = span_begin d + k + 16 * m := by
        push_cast
        omega
      rw [hpos, hkk, S.elems k hk, List.getElem?_cons_succ]

/-- When `push_front` needs a new block on a deque holding `s`, nothing has been popped from
a tail front block and the first element sits at the start of its block. -/
theorem span_grow_front {T : Type} {d : Deque T} {s : List T} (S : Span d s)
    (hg : d.ptrs_.isEmpty ∨ (d.front_offset_ = 0 ∧ d.front_ptr_ind_ - 1 = d.reverse_start_) ∨
      (d.reversed_size_ = kSubVectorSize ∧ d.front_ptr_ind_ ≤ d.reverse_start_)) :
    d.front_offset_ = 0 ∧ span_begin d = 16 * d.front_ptr_ind_ := by
  obtain ⟨b1, b2, b3, b4, b5⟩ := S.span_bounds
  have hrl := S.rst_lt
  have hfl := S.fpi_le
  have hf0 := S.fpi0
  have hlen := S.len
  by_cases hh : d.front_ptr_ind_ ≤ d.reverse_start_
  · obtain ⟨t1, t2, t3⟩ := S.head hh
    have hrs : d.reversed_size_ = 16 := by
      rcases hg with h | h | h
      · have : d.ptrs_ = [] := by simpa using h
        simp only [NumPtrs, this, List.length_nil] at hrl
        omega
      · omega
      · exact h.1
    refine ⟨t3, ?_⟩
    unfold span_begin
    simp only [hh, if_true]
    omega
  · obtain ⟨t1, t2, t3⟩ := S.nohead hh
    have hfo : d.front_offset_ = 0 := by
      rcases hg with h | h | h
      · have hp : d.ptrs_ = [] := by simpa using h
        unfold span_begin at b1 b2 hlen b5
        simp only [hh, if_false] at b1 b2 hlen b5
        simp only [NumPtrs, hp, List.length_nil] at b3 b4 hrl
        omega
      · exact h.1
      · exact absurd h.2 hh
    refine ⟨hfo, ?_⟩
    unfold span_begin
    simp only [hh, if_false]
    omega

/-- A `push_front` on a deque holding `s` returns a deque holding `x :: s`. -/
theorem span_push_front {T : Type} {d : Deque T} {s : List T} (S : Span d s) (x : T) :
    ∃ d1, push_front d x = Outcome.ok d1 ∧ Span d1 (x :: s) := by
  obtain ⟨b1, b2, b3, b4, b5⟩ := S.span_bounds
  have hlen := S.len
  have hrl := S.rst_lt
  have hf0 := S.fpi0
  have hfl := S.fpi_le
  by_cases hg : d.ptrs_.isEmpty ∨
      (d.front_offset_ = 0 ∧ d.front_ptr_ind_ - 1 = d.reverse_start_) ∨
      (d.reversed_size_ = kSubVectorSize ∧ d.front_ptr_ind_ ≤ d.reverse_start_)
  · obtain ⟨hfo, hlb⟩ := span_grow_front S hg
    by_cases he : d.front_ptr_ind_ = 0
    · -- the directory is enlarged
      obtain ⟨hhalf, hm1⟩ := half_ptrs_AdjustPointers d
      generalize hm : d.ptrs_.length + (if d.ptrs_.isEmpty then 1 else 0) = m at hhalf hm1
      have hext : ∀ a, held16 d.heap a → a < d.heap.length + 1 ∧
          held16 (Allocate (Allocate d.heap).2).2 a ∧
          ∀ j, load (Allocate (Allocate d.heap).2).2 (some a) j = load d.heap (some a) j := by
        intro a ha
        obtain ⟨e1, e2, e3⟩ := Allocate_ext d.heap a ha
        obtain ⟨f1, f2, f3⟩ := Allocate_ext (Allocate d.heap).2 a e2
        exact ⟨by omega, f2, fun j => by rw [f3, e3]⟩
      obtain ⟨hA1, hA2, hA3, hA4, hA5⟩ := Allocate_spec (Allocate d.heap).2
      have hlen1 : (Allocate d.heap).2.length = d.heap.length + 1 := (Allocate_spec d.heap).2.1
      rw [hlen1] at hA1 hA3
      obtain ⟨h2, hc, hh2, hx, hold⟩ := fresh_block d.heap (Allocate (Allocate d.heap).2).2
        (d.heap.length + 1) x hA3 hext
      have hdec : decide (d.front_ptr_ind_ = 0) = true := by simp [he]
      have haptrs : (AdjustPointers d).ptrs_
          = List.replicate m (some d.heap.length) ++ d.ptrs_ := by
        rw [← hm]
        rfl
      have hk0 : (0 : Int) ≤ (m : Int) - 1 := by omega
      have hk : ((m : Int) - 1).toNat
          < (List.replicate m (some d.heap.length) ++ d.ptrs_).length := by
        simp only [List.length_append, List.length_replicate]
        omega
      have hkc : ((((m : Int) - 1).toNat : Nat) : Int) = (m : Int) - 1 := by omega
      have hset : vecAt ((List.replicate m (some d.heap.length) ++ d.ptrs_).set
          ((m : Int) - 1).toNat (some (d.heap.length + 1))) ((m : Int) - 1)
            = some (some (d.heap.length + 1)) := by
        have := vecAt_set_eq (List.replicate m (some d.heap.length) ++ d.ptrs_)
          ((m : Int) - 1).toNat (some (d.heap.length + 1)) hk
        rw [hkc] at this
        exact this
      have hfn : ¬ (d.front_offset_ ≠ 0) := by omega
      unfold push_front push_front_impl push_front_grow
      rw [if_pos hg]
      simp only [hdec, if_true, hhalf, haptrs,
        show (AdjustPointers d).heap = (Allocate d.heap).2 from rfl,
        show (AdjustPointers d).size_ = d.size_ from rfl,
        show (AdjustPointers d).front_offset_ = d.front_offset_ from rfl,
        show (AdjustPointers d).back_offset_ = d.back_offset_ from rfl,
        show (AdjustPointers d).back_size_ = d.back_size_ from rfl,
        show (AdjustPointers d).reverse_start_ = d.reverse_start_ from rfl,
        vecSet, hk0, hk, and_self, Option.map_some', hA1, hset, hfn,
        Bool.false_eq_true, if_false, hc]
      refine ⟨_, rfl, ?_⟩
      refine span_new_front S x m (d.heap.length + 1) hlb hfo rfl rfl rfl rfl ?_ (by simp) ?_
        ?_ ?_ ?_ hh2 hold hx
      · show (m : Int) - 1 = d.front_ptr_ind_ + m - 1
        omega
      · show (((List.replicate m (some d.heap.length) ++ d.ptrs_).set ((m : Int) - 1).toNat
          (some (d.heap.length + 1))).length : Int) = NumPtrs d + m
        simp only [NumPtrs, List.length_set, List.length_append, List.length_replicate]
        push_cast
        omega
      · omega
      · intro sub h1 h2
        show vecAt ((List.replicate m (some d.heap.length) ++ d.ptrs_).set ((m : Int) - 1).toNat
          (some (d.heap.length + 1))) (sub + m) = _
        rw [vecAt_set_ne _ _ _ _ (by omega), vecAt_replicate_append _ _ _ _ (by omega)]
      · show vecAt ((List.replicate m (some d.heap.length) ++ d.ptrs_).set ((m : Int) - 1).toNat
          (some (d.heap.length + 1))) (d.front_ptr_ind_ + m - 1) = _
        rw [he, zero_add]
        exact hset
    · -- a free directory entry before the front block
      obtain ⟨hA1, hA2, hA3, hA4, hA5⟩ := Allocate_spec d.heap
      obtain ⟨h2, hc, hh2, hx, hold⟩ := fresh_block d.heap (Allocate d.heap).2 d.heap.length x
        hA3 (Allocate_ext d.heap)
      have hk : (d.front_ptr_ind_ - 1).toNat < d.ptrs_.length := by
        unfold NumPtrs at hrl
        omega
      have hk0 : 0 ≤ d.front_ptr_ind_ - 1 := by omega
      have hkc : ((d.front_ptr_ind_ - 1).toNat : Int) = d.front_ptr_ind_ - 1 := by omega
      have hset : vecAt (d.ptrs_.set (d.front_ptr_ind_ - 1).toNat (some d.heap.length))
          (d.front_ptr_ind_ - 1) = some (some d.heap.length) := by
        have := vecAt_set_eq d.ptrs_ (d.front_ptr_ind_ - 1).toNat (some d.heap.length) hk
        rw [hkc] at this
        exact this
      have hdec : decide (d.front_ptr_ind_ = 0) = false := by simp [he]
      have hfn : ¬ (d.front_offset_ ≠ 0) := by omega
      unfold push_front push_front_impl push_front_grow
      rw [if_pos hg]
      simp only [hdec, Bool.false_eq_true, if_false, vecSet, hk0, hk, and_self, if_true,
        Option.map_some', hA1, hset, hfn, hc]
      refine ⟨_, rfl, ?_⟩
      refine span_new_front S x 0 d.heap.length hlb hfo rfl rfl rfl ?_ ?_ (by simp) ?_ ?_ ?_ ?_
        hh2 hold hx
      · show d.reverse_start_ = d.reverse_start_ + 0
        omega
      · show d.front_ptr_ind_ - 1 = d.front_ptr_ind_ + 0 - 1
        omega
      · show ((d.ptrs_.set (d.front_ptr_ind_ - 1).toNat (some d.heap.length)).length : Int)
          = NumPtrs d + 0
        simp [NumPtrs]
      · omega
      · intro sub h1 h2
        show vecAt (d.ptrs_.set (d.front_ptr_ind_ - 1).toNat (some d.heap.length)) (sub + 0) = _
        rw [add_zero, vecAt_set_ne _ _ _ _ (by omega)]
      · show vecAt (d.ptrs_.set (d.front_ptr_ind_ - 1).toNat (some d.heap.length))
          (d.front_ptr_ind_ + 0 - 1) = _
        rw [add_zero]
        exact hset
  · -- room in the front block
    have hne : d.ptrs_.isEmpty = false := by
      rcases hp : d.ptrs_ with _ | ⟨p, ps⟩
      · exact absurd (Or.inl (by simp [hp])) hg
      · rfl
    have hs := S.of_ptrs hne
    obtain ⟨hfn, _⟩ := S.nonempty hs
    have hpg : push_front_grow d = some (d, false, false) := by
      unfold push_front_grow
      rw [if_neg hg]
    obtain ⟨a, hva, hha⟩ := S.blocks d.front_ptr_ind_ (by omega) hfn
    by_cases hh : d.front_ptr_ind_ ≤ d.reverse_start_
    · obtain ⟨t1, t2, t3⟩ := S.head hh
      have hrs16 : d.reversed_size_ ≠ 16 := fun h => hg (Or.inr (Or.inr ⟨h, hh⟩))
      have hbeg : span_begin d = 16 * d.front_ptr_ind_ + 16 - d.reversed_size_ := by
        unfold span_begin
        simp only [hh, if_true]
      have hq : (span_begin d - 1) / 16 = d.front_ptr_ind_ := by omega
      have hm : (span_begin d - 1) % 16 = 15 - d.reversed_size_ := by omega
      obtain ⟨h1, hc, hu⟩ := construct_upd d.heap a d.reversed_size_ x hha (by omega) (by omega)
      have hfz : ¬ (d.front_offset_ ≠ 0) := by omega
      unfold push_front push_front_impl
      simp only [hpg, hva, hfz, if_false, Bool.false_eq_true, hc]
      refine ⟨_, rfl, ?_⟩
      refine span_put_front S x a (by omega) hfn (by rw [hq]; exact hva) ?_ rfl rfl rfl rfl rfl
        rfl ?_ ?_ ?_
      · rw [hq, hm]
        simp only [hh, if_true]
        have : 15 - (15 - d.reversed_size_) = d.reversed_size_ := by omega
        rw [this]
        exact hu
      · unfold span_begin
        simp only [hh, if_true]
        omega
      · intro _
        show 1 ≤ d.reversed_size_ + 1 ∧ d.reversed_size_ + 1 ≤ 16 ∧ d.front_offset_ = 0
        omega
      · intro h
        exact absurd hh h
    · obtain ⟨t1, t2, t3⟩ := S.nohead hh
      have hfr : d.front_ptr_ind_ - 1 = d.reverse_start_ := by omega
      have hfo : d.front_offset_ ≠ 0 := fun h => hg (Or.inr (Or.inl ⟨h, hfr⟩))
      have hbeg : span_begin d = 16 * d.front_ptr_ind_ + d.front_offset_ := by
        unfold span_begin
        simp only [hh, if_false]
      have hq : (span_begin d - 1) / 16 = d.front_ptr_ind_ := by omega
      have hm : (span_begin d - 1) % 16 = d.front_offset_ - 1 := by omega
      obtain ⟨h1, hc, hu⟩ := construct_upd d.heap a (d.front_offset_ - 1) x hha (by omega)
        (by omega)
      unfold push_front push_front_impl
      simp only [hpg, hva, hfo, ne_eq, not_false_eq_true, if_true, Bool.false_eq_true, if_false,
        hc]
      refine ⟨_, rfl, ?_⟩
      refine span_put_front S x a (by omega) hfn (by rw [hq]; exact hva) ?_ rfl rfl rfl rfl rfl
        rfl ?_ ?_ ?_
      · rw [hq, hm]
        simp only [hh, if_false]
        exact hu
      · unfold span_begin
        simp only [hh, if_false]
        omega
      · intro h
        exact absurd h hh
      · intro _
        show 0 ≤ d.front_offset_ - 1 ∧ d.front_offset_ - 1 ≤ 15 ∧ d.reversed_size_ = 0
        omega

/-! ### Pops on the general layout -/

/-- Subscript of a vector that lost its last element. -/
theorem vecAt_dropLast {α : Type} (v : List α) (i : Int) (hi : i < (v.length : Int) - 1) :
    vecAt v.dropLast i = vecAt v i := by
  unfold vecAt
  split
  · rw [List.getElem?_dropLast]
    have : i.toNat < v.length - 1 := by omega
    simp [this]
  · rfl

/-- An element of a list that lost its last element. -/
theorem getElem?_dropLast_lt {α : Type} (l : List α) (i : Nat) (hi : i < l.length - 1) :
    l.dropLast[i]? = l[i]? := by
  rw [List.getElem?_dropLast]
  simp [hi]

/-- Destroying the last element, which is not the only element of its block, shortens the
sequence at the back. -/
theorem span_drop_back_keep {T : Type} {d d1 : Deque T} {s : List T} (S : Span d s) (a : Nat)
    (h2 : 2 ≤ s.length)
    (hva : vecAt d.ptrs_ ((span_end d - 1) / 16) = some (some a))
    (hu2 : ∀ a1, held16 d1.heap a1 ↔ held16 d.heap a1)
    (hu4 : ∀ a1 j1, (a1 ≠ a ∨ j1 ≠ (if (span_end d - 1) / 16 ≤ d.reverse_start_
        then 15 - (span_end d - 1) % 16 else (span_end d - 1) % 16)) →
      load d1.heap (some a1) j1 = load d.heap (some a1) j1)
    (e1 : d1.ptrs_ = d.ptrs_) (e2 : d1.front_ptr_ind_ = d.front_ptr_ind_)
    (e3 : d1.reverse_start_ = d.reverse_start_) (e4 : d1.front_offset_ = d.front_offset_)
    (e5 : d1.reversed_size_ = d.reversed_size_) (e6 : d1.size_ = d.size_ - 1)
    (e7 : span_end d1 = span_end d - 1)
    (t1 : NumPtrs d1 - 1 > d1.reverse_start_ →
      1 ≤ d1.back_size_ ∧ d1.back_size_ ≤ 16 ∧ d1.back_offset_ = 0)
    (t2 : ¬ NumPtrs d1 - 1 > d1.reverse_start_ →
      0 ≤ d1.back_offset_ ∧ d1.back_offset_ ≤ 15 ∧ d1.back_size_ = 0) :
    Span d1 s.dropLast := by
  obtain ⟨b1, b2, b3, b4, b5⟩ := S.span_bounds
  have hlen := S.len
  have hn : NumPtrs d1 = NumPtrs d := by
    unfold NumPtrs
    rw [e1]
  have hb : span_begin d1 = span_begin d := by
    unfold span_begin
    rw [e2, e3, e4, e5]
  constructor
  · rw [e6, S.size_eq, List.length_dropLast]
    omega
  · rw [e2]
    exact S.fpi0
  · rw [e2, e3]
    exact S.fpi_le
  · rw [e3, hn]
    exact S.rst_lt
  · rw [e2, e3, e4, e5]
    exact S.head
  · rw [e2, e3, e4, e5]
    exact S.nohead
  · exact t1
  · exact t2
  · rw [e7, hb, List.length_dropLast]
    omega
  · intro h
    have := congrArg List.length h
    rw [List.length_dropLast] at this
    simp at this
    omega
  · intro sub h1 h2
    rw [e2] at h1
    rw [hn] at h2
    obtain ⟨a1, hv1, hh1⟩ := S.blocks sub h1 h2
    rw [e1]
    exact ⟨a1, hv1, (hu2 a1).mpr hh1⟩
  · rw [e1, e2, hn]
    exact S.inj
  · intro i hi
    rw [List.length_dropLast] at hi
    have hlt : i < s.length := by omega
    rw [hb]
    obtain ⟨p1, p2⟩ := S.span_pos_sub i hlt
    obtain ⟨a1, hv1, hh1, hl1⟩ := S.cell i hlt
    have hk := read_keep d d1 0 (span_begin d + i) a1 hv1
      (by rw [e1, add_zero]; exact hv1) (by rw [e3, add_zero])
      (hu4 a1 _ (S.sep _ _ a1 a p1 p2 (by omega) (by omega) hv1 hva (by omega)))
    rw [mul_zero, add_zero] at hk
    rw [hk, S.elems i hlt, getElem?_dropLast_lt _ _ hi]

/-- Destroying the last element, the only element of the last block, and releasing that
block shortens the sequence at the back. -/
theorem span_drop_back_block {T : Type} {d d1 : Deque T} {s : List T} (S : Span d s) (a : Nat)
    (h1s : 1 ≤ s.length)
    (hpos : span_end d = 16 * (NumPtrs d - 1) + 1)
    (hva : vecAt d.ptrs_ (NumPtrs d - 1) = some (some a))
    (hu2 : ∀ a1, a1 ≠ a → (held16 d1.heap a1 ↔ held16 d.heap a1))
    (hu4 : ∀ a1 j1, a1 ≠ a → load d1.heap (some a1) j1 = load d.heap (some a1) j1)
    (e1 : d1.ptrs_ = d.ptrs_.dropLast) (e2 : d1.front_ptr_ind_ = d.front_ptr_ind_)
    (e4 : d1.front_offset_ = d.front_offset_)
    (e5 : d1.reversed_size_ = d.reversed_size_) (e6 : d1.size_ = d.size_ - 1)
    (e7 : span_end d1 = span_end d - 1)
    (hside : ∀ sub, sub < NumPtrs d - 1 →
      (sub ≤ d1.reverse_start_ ↔ sub ≤ d.reverse_start_))
    (hhd : d1.front_ptr_ind_ ≤ d1.reverse_start_ ↔ d.front_ptr_ind_ ≤ d.reverse_start_)
    (fl : d1.front_ptr_ind_ ≤ d1.reverse_start_ + 1)
    (rl : d1.reverse_start_ < NumPtrs d1)
    (t1 : NumPtrs d1 - 1 > d1.reverse_start_ →
      1 ≤ d1.back_size_ ∧ d1.back_size_ ≤ 16 ∧ d1.back_offset_ = 0)
    (t2 : ¬ NumPtrs d1 - 1 > d1.reverse_start_ →
      0 ≤ d1.back_offset_ ∧ d1.back_offset_ ≤ 15 ∧ d1.back_size_ = 0)
    (hempty : s.dropLast = [] → d.ptrs_.dropLast = []) :
    Span d1 s.dropLast := by
  obtain ⟨b1, b2, b3, b4, b5⟩ := S.span_bounds
  have hlen := S.len
  have hf0 := S.fpi0
  have hsne : s ≠ [] := by
    intro h
    rw [h] at h1s
    simp at h1s
  obtain ⟨hfn, _⟩ := S.nonempty hsne
  have hn : NumPtrs d1 = NumPtrs d - 1 := by
    unfold NumPtrs at hfn ⊢
    rw [e1, List.length_dropLast]
    omega
  have hb : span_begin d1 = span_begin d := by
    unfold span_begin
    simp only [hhd]
    rw [e4, e5, e2]
  constructor
  · rw [e6, S.size_eq, List.length_dropLast]
    omega
  · rw [e2]
    exact S.fpi0
  · exact fl
  · exact rl
  · intro h
    rw [e4, e5]
    exact S.head (hhd.mp h)
  · intro h
    rw [e4, e5]
    exact S.nohead (fun h' => h (hhd.mpr h'))
  · exact t1
  · exact t2
  · rw [e7, hb, List.length_dropLast]
    omega
  · intro h
    rw [e1]
    exact hempty h
  · intro sub g1 g2
    rw [e2] at g1
    rw [hn] at g2
    obtain ⟨a1, hv1, hh1⟩ := S.blocks sub g1 (by omega)
    have hne : a1 ≠ a := by
      intro e
      subst e
      have := S.inj sub (NumPtrs d - 1) a1 g1 (by omega) (by omega) (by omega) hv1 hva
      omega
    rw [e1, vecAt_dropLast _ _ (by unfold NumPtrs at g2; omega)]
    exact ⟨a1, hv1, (hu2 a1 hne).mpr hh1⟩
  · intro sub1 sub2 a0 g1 g2 g3 g4 hv1 hv2
    rw [e2] at g1 g3
    rw [hn] at g2 g4
    rw [e1, vecAt_dropLast _ _ (by unfold NumPtrs at g2; omega)] at hv1
    rw [e1, vecAt_dropLast _ _ (by unfold NumPtrs at g4; omega)] at hv2
    exact S.inj sub1 sub2 a0 g1 (by omega) g3 (by omega) hv1 hv2
  · intro i hi
    rw [List.length_dropLast] at hi
    have hlt : i < s.length := by omega
    rw [hb]
    obtain ⟨p1, p2⟩ := S.span_pos_sub i hlt
    obtain ⟨a1, hv1, hh1, hl1⟩ := S.cell i hlt
    have hsub : (span_begin d + i) / 16 < NumPtrs d - 1 := by omega
    have hne : a1 ≠ a := by
      intro e
      subst e
      have := S.inj _ (NumPtrs d - 1) a1 p1 p2 (by omega) (by omega) hv1 hva
      omega
    have hk := read_keep d d1 0 (span_begin d + i) a1 hv1
      (by rw [e1, add_zero, vecAt_dropLast _ _ (by unfold NumPtrs at hsub; omega)]; exact hv1)
      (by rw [add_zero]; exact hside _ hsub) (hu4 a1 _ hne)
    rw [mul_zero, add_zero] at hk
    rw [hk, S.elems i hlt, getElem?_dropLast_lt _ _ hi]

/-- Destroying the first element, which is not the only element of its block, shortens the
sequence at the front. -/
theorem span_drop_front_keep {T : Type} {d d1 : Deque T} {s : List T} (S : Span d s) (a : Nat)
    (h2 : 2 ≤ s.length)
    (hva : vecAt d.ptrs_ (span_begin d / 16) = some (some a))
    (hu2 : ∀ a1, held16 d1.heap a1 ↔ held16 d.heap a1)
    (hu4 : ∀ a1 j1, (a1 ≠ a ∨ j1 ≠ (if span_begin d / 16 ≤ d.reverse_start_
        then 15 - span_begin d % 16 else span_begin d % 16)) →
      load d1.heap (some a1) j1 = load d.heap (some a1) j1)
    (e1 : d1.ptrs_ = d.ptrs_) (e2 : d1.front_ptr_ind_ = d.front_ptr_ind_)
    (e3 : d1.reverse_start_ = d.reverse_start_) (e4 : d1.back_offset_ = d.back_offset_)
    (e5 : d1.back_size_ = d.back_size_) (e6 : d1.size_ = d.size_ - 1)
    (e7 : span_begin d1 = span_begin d + 1)
    (t1 : d1.front_ptr_ind_ ≤ d1.reverse_start_ →
      1 ≤ d1.reversed_size_ ∧ d1.reversed_size_ ≤ 16 ∧ d1.front_offset_ = 0)
    (t2 : ¬ d1.front_ptr_ind_ ≤ d1.reverse_start_ →
      0 ≤ d1.front_offset_ ∧ d1.front_offset_ ≤ 15 ∧ d1.reversed_size_ = 0) :
    Span d1 (s.drop 1) := by
  obtain ⟨b1, b2, b3, b4, b5⟩ := S.span_bounds
  have hlen := S.len
  have hn : NumPtrs d1 = NumPtrs d := by
    unfold NumPtrs
    rw [e1]
  have he : span_end d1 = span_end d := by
    unfold span_end
    rw [hn, e3, e4, e5]
  constructor
  · rw [e6, S.size_eq, List.length_drop]
    omega
  · rw [e2]
    exact S.fpi0
  · rw [e2, e3]
    exact S.fpi_le
  · rw [e3, hn]
    exact S.rst_lt
  · exact t1
  · exact t2
  · rw [hn, e3, e4, e5]
    exact S.tail
  · rw [hn, e3, e4, e5]
    exact S.notail
  · rw [e7, he, List.length_drop]
    omega
  · intro h
    rw [List.drop_eq_nil_iff] at h
    omega
  · intro sub g1 g2
    rw [e2] at g1
    rw [hn] at g2
    obtain ⟨a1, hv1, hh1⟩ := S.blocks sub g1 g2
    rw [e1]
    exact ⟨a1, hv1, (hu2 a1).mpr hh1⟩
  · rw [e1, e2, hn]
    exact S.inj
  · intro i hi
    rw [List.length_drop] at hi
    have hlt : i + 1 < s.length := by omega
    rw [e7]
    obtain ⟨p1, p2⟩ := S.span_pos_sub (i + 1) hlt
    obtain ⟨a1, hv1, hh1, hl1⟩ := S.cell (i + 1) hlt
    have hk := read_keep d d1 0 (span_begin d + ((i + 1 : Nat) : Int)) a1 hv1
      (by rw [e1, add_zero]; exact hv1) (by rw [e3, add_zero])
      (hu4 a1 _ (S.sep _ _ a1 a p1 p2 (by omega) (by omega) hv1 hva (by omega)))
    rw [mul_zero, add_zero] at hk
    have hp : span_begin d + 1 + (i : Int) = span_begin d + ((i + 1 : Nat) : Int) := by
      push_cast
      omega
    rw [hp, hk, S.elems (i + 1) hlt, List.getElem?_drop, Nat.add_comm]

/-- Destroying the first element, the only element of the front block, and releasing that
block shortens the sequence at the front. -/
theorem span_drop_front_block {T : Type} {d d1 : Deque T} {s : List T} (S : Span d s) (a : Nat)
    (h2 : 2 ≤ s.length)
    (hpos : span_begin d = 16 * d.front_ptr_ind_ + 15)
    (hva : vecAt d.ptrs_ d.front_ptr_ind_ = some (some a))
    (hu2 : ∀ a1, a1 ≠ a → (held16 d1.heap a1 ↔ held16 d.heap a1))
    (hu4 : ∀ a1 j1, a1 ≠ a → load d1.heap (some a1) j1 = load d.heap (some a1) j1)
    (e1 : d1.ptrs_ = d.ptrs_) (e2 : d1.front_ptr_ind_ = d.front_ptr_ind_ + 1)
    (e4 : d1.back_offset_ = d.back_offset_)
    (e5 : d1.back_size_ = d.back_size_) (e6 : d1.size_ = d.size_ - 1)
    (e7 : span_begin d1 = span_begin d + 1)
    (hside : ∀ sub, d.front_ptr_ind_ + 1 ≤ sub →
      (sub ≤ d1.reverse_start_ ↔ sub ≤ d.reverse_start_))
    (fl : d1.front_ptr_ind_ ≤ d1.reverse_start_ + 1)
    (rl : d1.reverse_start_ < NumPtrs d1)
    (t1 : d1.front_ptr_ind_ ≤ d1.reverse_start_ →
      1 ≤ d1.reversed_size_ ∧ d1.reversed_size_ ≤ 16 ∧ d1.front_offset_ = 0)
    (t2 : ¬ d1.front_ptr_ind_ ≤ d1.reverse_start_ →
      0 ≤ d1.front_offset_ ∧ d1.front_offset_ ≤ 15 ∧ d1.reversed_size_ = 0) :
    Span d1 (s.drop 1) := by
  obtain ⟨b1, b2, b3, b4, b5⟩ := S.span_bounds
  have hlen := S.len
  have hf0 := S.fpi0
  have hn : NumPtrs d1 = NumPtrs d := by
    unfold NumPtrs
    rw [e1]
  have hlast : d.front_ptr_ind_ + 1 ≤ NumPtrs d - 1 := by omega
  have htl : NumPtrs d - 1 > d1.reverse_start_ ↔ NumPtrs d - 1 > d.reverse_start_ := by
    have := hside (NumPtrs d - 1) hlast
    constructor <;> intro h <;> omega
  have he : span_end d1 = span_end d := by
    unfold span_end
    rw [hn, e4, e5]
    simp only [htl]
  constructor
  · rw [e6, S.size_eq, List.length_drop]
    omega
  · rw [e2]
    omega
  · exact fl
  · exact rl
  · exact t1
  · exact t2
  · intro h
    rw [hn] at h
    rw [e4, e5]
    exact S.tail (htl.mp h)
  · intro h
    rw [hn] at h
    rw [e4, e5]
    exact S.notail (fun h' => h (htl.mpr h'))
  · rw [e7, he, List.length_drop]
    omega
  · intro h
    rw [List.drop_eq_nil_iff] at h
    omega
  · intro sub g1 g2
    rw [e2] at g1
    rw [hn] at g2
    obtain ⟨a1, hv1, hh1⟩ := S.blocks sub (by omega) g2
    have hne : a1 ≠ a := by
      intro e
      subst e
      have := S.inj sub d.front_ptr_ind_ a1 (by omega) g2 (by omega) (by omega) hv1 hva
      omega
    rw [e1]
    exact ⟨a1, hv1, (hu2 a1 hne).mpr hh1⟩
  · intro sub1 sub2 a0 g1 g2 g3 g4 hv1 hv2
    rw [e2] at g1 g3
    rw [hn] at g2 g4
    rw [e1] at hv1 hv2
    exact S.inj sub1 sub2 a0 (by omega) g2 (by omega) g4 hv1 hv2
  · intro i hi
    rw [List.length_drop] at hi
    have hlt : i + 1 < s.length := by omega
    rw [e7]
    obtain ⟨p1, p2⟩ := S.span_pos_sub (i + 1) hlt
    obtain ⟨a1, hv1, hh1, hl1⟩ := S.cell (i + 1) hlt
    have hsub : d.front_ptr_ind_ + 1 ≤ (span_begin d + ((i + 1 : Nat) : Int)) / 16 := by
      push_cast
      omega
    have hne : a1 ≠ a := by
      intro e
      subst e
      have := S.inj _ d.front_ptr_ind_ a1 p1 p2 (by omega) (by omega) hv1 hva
      omega
    have hk := read_keep d d1 0 (span_begin d + ((i + 1 : Nat) : Int)) a1 hv1
      (by rw [e1, add_zero]; exact hv1) (by rw [add_zero]; exact hside _ hsub) (hu4 a1 _ hne)
    rw [mul_zero, add_zero] at hk
    have hp : span_begin d + 1 + (i : Int) = span_begin d + ((i + 1 : Nat) : Int) := by
      push_cast
      omega
    rw [hp, hk, S.elems (i + 1) hlt, List.getElem?_drop, Nat.add_comm]

/-- Destroying a slot and then releasing its block leaves every other block as it was. -/
theorem destroy_Dealloc {T : Type} (h : Heap T) (a : Nat) (j : Int) (x : T) (hh : held16 h a)
    (hx : load h (some a) j = some x) :
    ∃ h1 h2, destroy h (some a) j = some h1 ∧ Dealloc h1 (some a) = some h2 ∧
      (∀ a1, a1 ≠ a → (held16 h2 a1 ↔ held16 h a1)) ∧
      ∀ a1 j1, a1 ≠ a → load h2 (some a1) j1 = load h (some a1) j1 := by
  obtain ⟨h1, hd, hu2, hu4⟩ := destroy_upd h a j x hh hx
  obtain ⟨h2, hd2, hv2, hv4⟩ := Dealloc_upd h1 a ((hu2 a).mpr hh)
  refine ⟨h1, h2, hd, hd2, ?_, ?_⟩
  · intro a1 hne
    rw [hv2 a1 hne, hu2 a1]
  · intro a1 j1 hne
    rw [hv4 a1 j1 hne, hu4 a1 j1 (Or.inl hne)]

/-- The last element of a non-empty sequence and its slot. -/
theorem Span.last_cell {T : Type} {d : Deque T} {s : List T} (S : Span d s)
    (h1 : 1 ≤ s.length) :
    ∃ a x, vecAt d.ptrs_ ((span_end d - 1) / 16) = some (some a) ∧ held16 d.heap a ∧
      load d.heap (some a)
        (if (span_end d - 1) / 16 ≤ d.reverse_start_ then 15 - (span_end d - 1) % 16
          else (span_end d - 1) % 16) = some x := by
  have hlen := S.len
  obtain ⟨a, hv, hh, hl⟩ := S.cell (s.length - 1) (by omega)
  have hp : span_begin d + ((s.length - 1 : Nat) : Int) = span_end d - 1 := by omega
  rw [hp] at hv hl
  exact ⟨a, _, hv, hh, hl⟩

/-- A `pop_back` on a deque holding `s` returns a deque holding `s` without its last element,
when that leaves the deque non-empty, or when the deque has just one element in a directory
that has never held a head block or lost an element at the front. -/
theorem span_pop_back {T : Type} {d : Deque T} {s : List T} (S : Span d s)
    (hc : 2 ≤ s.length ∨ (s.length = 1 ∧ d.front_ptr_ind_ = 0 ∧ d.reverse_start_ = -1 ∧
      d.front_offset_ = 0)) :
    ∃ d1, pop_back d = Outcome.ok d1 ∧ Span d1 s.dropLast ∧
      (NumPtrs d - 1 > d.reverse_start_ →
        d1.front_ptr_ind_ = d.front_ptr_ind_ ∧ d1.reverse_start_ = d.reverse_start_ ∧
        d1.front_offset_ = d.front_offset_) := by
  obtain ⟨b1, b2, b3, b4, b5⟩ := S.span_bounds
  have hlen := S.len
  have hrl := S.rst_lt
  have hf0 := S.fpi0
  have hfl := S.fpi_le
  have hsz := S.size_eq
  have h1s : 1 ≤ s.length := by omega
  have hsne : s ≠ [] := by
    intro h
    rw [h] at h1s
    simp at h1s
  obtain ⟨hfn, hne⟩ := S.nonempty hsne
  have hn1 : 1 ≤ d.ptrs_.length := by
    unfold NumPtrs at hfn
    omega
  have hsz0 : ¬ (d.size_ = 0) := by omega
  obtain ⟨a, x, hva, hha, hla⟩ := S.last_cell h1s
  have hq : (span_end d - 1) / 16 = NumPtrs d - 1 := by omega
  rw [hq] at hva hla
  have hlast : d.ptrs_.getLast? = some (some a) := by
    rw [getLast?_eq_vecAt _ hn1]
    exact hva
  by_cases ht : NumPtrs d - 1 > d.reverse_start_
  · -- the last block is a tail block
    obtain ⟨t1, t2, t3⟩ := S.tail ht
    have hle : ¬ (NumPtrs d - 1 ≤ d.reverse_start_) := by omega
    have hend : span_end d = 16 * (NumPtrs d - 1) + d.back_size_ := by
      unfold span_end
      simp only [ht, if_true]
    have hm : (span_end d - 1) % 16 = d.back_size_ - 1 := by omega
    rw [hm] at hla
    simp only [hle, if_false] at hla
    by_cases hb : d.back_size_ - 1 = 0
    · obtain ⟨h1, h2', hd, hd2, hu2, hu4⟩ :=
        destroy_Dealloc d.heap a (d.back_size_ - 1) x hha hla
      rw [hb] at hd
      have hle' : ¬ ((d.ptrs_.length : Int) - 1 ≤ d.reverse_start_) := hle
      have hemp : s.dropLast = [] → d.ptrs_.dropLast = [] := by
        intro h
        have hl := congrArg List.length h
        rw [List.length_dropLast] at hl
        simp only [List.length_nil] at hl
        rcases hc with h2 | ⟨_, hf, _, _⟩
        · omega
        · apply List.eq_nil_of_length_eq_zero
          rw [List.length_dropLast]
          unfold NumPtrs at hfn b3 b4 hend
          omega
      by_cases hsz1 : d.size_ - 1 = 0
      · -- the deque becomes empty
        have hdl : d.ptrs_.dropLast = [] := hemp (by
          apply List.eq_nil_of_length_eq_zero
          rw [List.length_dropLast]
          omega)
        have hnn : NumPtrs d = 1 := by
          have := congrArg List.length hdl
          rw [List.length_dropLast] at this
          simp only [List.length_nil] at this
          unfold NumPtrs
          omega
        have hcond : ¬ (((d.ptrs_.dropLast.length : Nat) : Int) - 1 > d.reverse_start_) := by
          rw [hdl]
          simp only [List.length_nil]
          omega
        unfold pop_back pop_back_body pop_finish
        simp only [hsz0, if_false, hle', hlast, Option.bind_eq_bind, Option.some_bind, hd,
          hb, if_true, hd2, Option.pure_def, Option.map_some', hsz1, Outcome.ofOption, NumPtrs,
          hcond]
        refine ⟨_, rfl, ?_, fun _ => ⟨rfl, rfl, rfl⟩⟩
        refine span_drop_back_block S a h1s (by omega) hva hu2 hu4 hdl.symm rfl rfl rfl hsz1.symm ?_
          ?_ ?_ ?_ ?_ ?_ ?_ hemp
        · unfold span_end
          simp only [NumPtrs, List.length_nil] at hend hnn ⊢
          rw [if_neg (by omega)]
          omega
        · intro sub _
          exact Iff.rfl
        · exact Iff.rfl
        · exact hfl
        · show d.reverse_start_ < ((([] : List Ptr).length : Nat) : Int)
          simp only [List.length_nil]
          rcases hc with h2 | ⟨_, _, hr, _⟩
          · omega
          · omega
        · intro h
          exfalso
          change ((([] : List Ptr).length : Nat) : Int) - 1 > d.reverse_start_ at h
          simp only [List.length_nil] at h
          rcases hc with h2 | ⟨_, _, hr, _⟩
          · omega
          · omega
        · intro _
          show 0 ≤ d.back_offset_ ∧ d.back_offset_ ≤ 15 ∧ (0 : Int) = 0
          omega
      · -- other elements remain
        have h2 : 2 ≤ s.length := by omega
        by_cases hmore : ((d.ptrs_.dropLast.length : Nat) : Int) - 1 > d.reverse_start_
        · unfold pop_back pop_back_body pop_finish
          simp only [hsz0, if_false, hle', hlast, Option.bind_eq_bind, Option.some_bind, hd,
            hb, if_true, hd2, Option.pure_def, Option.map_some', hsz1, Outcome.ofOption,
            NumPtrs, hmore, kSubVectorSize]
          refine ⟨_, rfl, ?_, fun _ => ⟨rfl, rfl, rfl⟩⟩
          refine span_drop_back_block S a h1s (by omega) hva hu2 hu4 rfl rfl rfl rfl rfl ?_
            ?_ ?_ ?_ ?_ ?_ ?_ hemp
          · unfold span_end
            simp only [NumPtrs] at hend ⊢
            simp only [hmore, if_true]
            rw [List.length_dropLast]
            omega
          · intro sub _
            exact Iff.rfl
          · exact Iff.rfl
          · exact hfl
          · show d.reverse_start_ < ((d.ptrs_.dropLast.length : Nat) : Int)
            omega
          · intro _
            show (1 : Int) ≤ 16 ∧ (16 : Int) ≤ 16 ∧ d.back_offset_ = 0
            omega
          · intro h
            exact absurd hmore h
        · unfold pop_back pop_back_body pop_finish
          simp only [hsz0, if_false, hle', hlast, Option.bind_eq_bind, Option.some_bind, hd,
            hb, if_true, hd2, Option.pure_def, Option.map_some', hsz1, Outcome.ofOption,
            NumPtrs, hmore]
          refine ⟨_, rfl, ?_, fun _ => ⟨rfl, rfl, rfl⟩⟩
          refine span_drop_back_block S a h1s (by omega) hva hu2 hu4 rfl rfl rfl rfl rfl ?_
            ?_ ?_ ?_ ?_ ?_ ?_ hemp
          · unfold span_end
            simp only [NumPtrs] at hend ht ⊢
            simp only [hmore, if_false]
            rw [List.length_dropLast] at hmore ⊢
            omega
          · intro sub _
            exact Iff.rfl
          · exact Iff.rfl
          · exact hfl
          · show d.reverse_start_ < ((d.ptrs_.dropLast.length : Nat) : Int)
            rw [List.length_dropLast]
            unfold NumPtrs at ht
            omega
          · intro h
            exact absurd h hmore
          · intro _
            show 0 ≤ d.back_offset_ ∧ d.back_offset_ ≤ 15 ∧ (0 : Int) = 0
            omega
    · have h2 : 2 ≤ s.length := by
        rcases hc with h | ⟨h, hf, hr, hfo⟩
        · exact h
        · exfalso
          have hnh : ¬ d.front_ptr_ind_ ≤ d.reverse_start_ := by omega
          unfold span_begin at hlen b1 b2
          simp only [hnh, if_false] at hlen b1 b2
          omega
      have hsz1 : ¬ (d.size_ - 1 = 0) := by omega
      obtain ⟨h1, hd, hu2, hu4⟩ := destroy_upd d.heap a (d.back_size_ - 1) x hha hla
      unfold pop_back pop_back_body pop_finish
      simp only [hsz0, if_false, hle, hlast, Option.bind_eq_bind, Option.some_bind, hd,
        hb, Option.pure_def, Option.map_some', hsz1, Outcome.ofOption]
      refine ⟨_, rfl, ?_, fun _ => ⟨rfl, rfl, rfl⟩⟩
      refine span_drop_back_keep S a h2 (by rw [hq]; exact hva) hu2 ?_ rfl rfl rfl rfl rfl rfl
        ?_ ?_ ?_
      · rw [hq, hm]
        simp only [hle, if_false]
        exact hu4
      · unfold span_end
        simp only [NumPtrs] at ht ⊢
        simp only [ht, if_true]
        omega
      · intro _
        show 1 ≤ d.back_size_ - 1 ∧ d.back_size_ - 1 ≤ 16 ∧ d.back_offset_ = 0
        omega
      · intro h
        exact absurd ht h
  · -- the last block is a head block
    obtain ⟨t1, t2, t3⟩ := S.notail ht
    have hrn : d.reverse_start_ = NumPtrs d - 1 := by omega
    have hle : NumPtrs d - 1 ≤ d.reverse_start_ := by omega
    have h2 : 2 ≤ s.length := by
      rcases hc with h | h
      · exact h
      · omega
    have hend : span_end d = 16 * NumPtrs d - d.back_offset_ := by
      unfold span_end
      simp only [ht, if_false]
    have hm : (span_end d - 1) % 16 = 15 - d.back_offset_ := by omega
    rw [hm] at hla
    simp only [hle, if_true] at hla
    have hloc : 15 - (15 - d.back_offset_) = d.back_offset_ := by omega
    rw [hloc] at hla
    have hvr : vecAt d.ptrs_ d.reverse_start_ = some (some a) := by
      rw [hrn]
      exact hva
    have hsz1 : ¬ (d.size_ - 1 = 0) := by omega
    by_cases hb : d.back_offset_ + 1 = 16
    · obtain ⟨h1, h2', hd, hd2, hu2, hu4⟩ := destroy_Dealloc d.heap a d.back_offset_ x hha hla
      unfold pop_back pop_back_body pop_finish
      simp only [hsz0, if_false, hle, if_true, hvr, Option.bind_eq_bind, Option.some_bind, hd,
        hb, kSubVectorSize, hlast, hd2, Option.pure_def, Option.map_some', hsz1,
        Outcome.ofOption]
      refine ⟨_, rfl, ?_, fun h => absurd h ht⟩
      refine span_drop_back_block S a h1s (by omega) hva hu2 hu4 rfl rfl rfl rfl rfl ?_ ?_ ?_
        ?_ ?_ ?_ ?_ ?_
      · unfold span_end
        simp only [NumPtrs, List.length_dropLast] at hrn hend ⊢
        rw [if_neg (by omega)]
        omega
      · intro sub hsub
        show sub ≤ d.reverse_start_ - 1 ↔ sub ≤ d.reverse_start_
        omega
      · show d.front_ptr_ind_ ≤ d.reverse_start_ - 1 ↔ d.front_ptr_ind_ ≤ d.reverse_start_
        omega
      · show d.front_ptr_ind_ ≤ d.reverse_start_ - 1 + 1
        omega
      · show d.reverse_start_ - 1 < ((d.ptrs_.dropLast.length : Nat) : Int)
        simp only [NumPtrs, List.length_dropLast] at hrn ⊢
        omega
      · intro h
        exfalso
        change ((d.ptrs_.dropLast.length : Nat) : Int) - 1 > d.reverse_start_ - 1 at h
        simp only [NumPtrs, List.length_dropLast] at hrn h
        omega
      · intro _
        show (0 : Int) ≤ 0 ∧ (0 : Int) ≤ 15 ∧ d.back_size_ = 0
        omega
      · intro h
        have := congrArg List.length h
        rw [List.length_dropLast] at this
        simp at this
        omega
    · have hb2 : ¬ (d.back_offset_ + 1 = 16) := hb
      obtain ⟨h1, hd, hu2, hu4⟩ := destroy_upd d.heap a d.back_offset_ x hha hla
      unfold pop_back pop_back_body pop_finish
      simp only [hsz0, if_false, hle, if_true, hvr, Option.bind_eq_bind, Option.some_bind, hd,
        hb2, kSubVectorSize, Option.pure_def, Option.map_some', hsz1, Outcome.ofOption]
      refine ⟨_, rfl, ?_, fun h => absurd h ht⟩
      refine span_drop_back_keep S a h2 (by rw [hq]; exact hva) hu2 ?_ rfl rfl rfl rfl rfl rfl
        ?_ ?_ ?_
      · rw [hq, hm]
        simp only [hle, if_true, hloc]
        exact hu4
      · unfold span_end
        simp only [NumPtrs] at ht ⊢
        simp only [ht, if_false]
        omega
      · intro h
        exact absurd h ht
      · intro _
        show 0 ≤ d.back_offset_ + 1 ∧ d.back_offset_ + 1 ≤ 15 ∧ d.back_size_ = 0
        omega

/-- A `pop_front` on a deque holding `s` returns a deque holding `s` without its first
element, when that leaves the deque non-empty. -/
theorem span_pop_front {T : Type} {d : Deque T} {s : List T} (S : Span d s)
    (h2 : 2 ≤ s.length) :
    ∃ d1, pop_front d = Outcome.ok d1 ∧ Span d1 (s.drop 1) := by
  obtain ⟨b1, b2, b3, b4, b5⟩ := S.span_bounds
  have hlen := S.len
  have hrl := S.rst_lt
  have hf0 := S.fpi0
  have hfl := S.fpi_le
  have hsz := S.size_eq
  have hsne : s ≠ [] := by
    intro h
    rw [h] at h2
    simp at h2
  obtain ⟨hfn, hne⟩ := S.nonempty hsne
  have hsz0 : ¬ (d.size_ = 0) := by omega
  have hsz1 : ¬ (d.size_ - 1 = 0) := by omega
  obtain ⟨a, hva, hha, hla⟩ := S.cell 0 (by omega)
  have hp0 : span_begin d + ((0 : Nat) : Int) = span_begin d := by simp
  rw [hp0] at hva hla
  have hq : span_begin d / 16 = d.front_ptr_ind_ := by omega
  have hvf : vecAt d.ptrs_ d.front_ptr_ind_ = some (some a) := by
    rw [← hq]
    exact hva
  by_cases hh : d.front_ptr_ind_ ≤ d.reverse_start_
  · -- the front block is a head block
    obtain ⟨t1, t2, t3⟩ := S.head hh
    have hbeg : span_begin d = 16 * d.front_ptr_ind_ + 16 - d.reversed_size_ := by
      unfold span_begin
      simp only [hh, if_true]
    have hqh : span_begin d / 16 ≤ d.reverse_start_ := by omega
    have hm : 15 - span_begin d % 16 = d.reversed_size_ - 1 := by omega
    simp only [hqh, if_true] at hla
    rw [hm] at hla
    by_cases hb : d.reversed_size_ - 1 = 0
    · obtain ⟨h1, h2', hd, hd2, hu2, hu4⟩ :=
        destroy_Dealloc d.heap a (d.reversed_size_ - 1) _ hha hla
      rw [hb] at hd
      by_cases hmore : d.front_ptr_ind_ + 1 ≤ d.reverse_start_
      · unfold pop_front pop_front_body pop_finish
        simp only [hsz0, if_false, hvf, Option.bind_eq_bind, Option.some_bind, hh, if_true, hd,
          hb, hd2, hmore, Option.pure_def, Option.map_some', hsz1, Outcome.ofOption,
          kSubVectorSize]
        refine ⟨_, rfl, ?_⟩
        refine span_drop_front_block S a h2 (by omega) hvf hu2 hu4 rfl rfl rfl rfl rfl ?_ ?_ ?_
          ?_ ?_ ?_
        · unfold span_begin
          simp only [hmore, hh, if_true]
          omega
        · intro sub _
          exact Iff.rfl
        · show d.front_ptr_ind_ + 1 ≤ d.reverse_start_ + 1
          omega
        · exact hrl
        · intro _
          show (1 : Int) ≤ 16 ∧ (16 : Int) ≤ 16 ∧ d.front_offset_ = 0
          omega
        · intro h
          exact absurd hmore h
      · unfold pop_front pop_front_body pop_finish
        simp only [hsz0, if_false, hvf, Option.bind_eq_bind, Option.some_bind, hh, if_true, hd,
          hb, hd2, hmore, Option.pure_def, Option.map_some', hsz1, Outcome.ofOption]
        refine ⟨_, rfl, ?_⟩
        refine span_drop_front_block S a h2 (by omega) hvf hu2 hu4 rfl rfl rfl rfl rfl ?_ ?_ ?_
          ?_ ?_ ?_
        · unfold span_begin
          simp only [hmore, hh, if_true, if_false]
          omega
        · intro sub _
          exact Iff.rfl
        · show d.front_ptr_ind_ + 1 ≤ d.reverse_start_ + 1
          omega
        · exact hrl
        · intro h
          exact absurd h hmore
        · intro _
          show 0 ≤ d.front_offset_ ∧ d.front_offset_ ≤ 15 ∧ (0 : Int) = 0
          omega
    · obtain ⟨h1, hd, hu2, hu4⟩ := destroy_upd d.heap a (d.reversed_size_ - 1) _ hha hla
      unfold pop_front pop_front_body pop_finish
      simp only [hsz0, if_false, hvf, Option.bind_eq_bind, Option.some_bind, hh, if_true, hd,
        hb, Option.pure_def, Option.map_some', hsz1, Outcome.ofOption]
      refine ⟨_, rfl, ?_⟩
      refine span_drop_front_keep S a h2 hva hu2 ?_ rfl rfl rfl rfl rfl rfl ?_ ?_ ?_
      · simp only [hqh, if_true]
        rw [hm]
        exact hu4
      · unfold span_begin
        simp only [hh, if_true]
        omega
      · intro _
        show 1 ≤ d.reversed_size_ - 1 ∧ d.reversed_size_ - 1 ≤ 16 ∧ d.front_offset_ = 0
        omega
      · intro h
        exact absurd hh h
  · -- the front block is a tail block
    obtain ⟨t1, t2, t3⟩ := S.nohead hh
    have hbeg : span_begin d = 16 * d.front_ptr_ind_ + d.front_offset_ := by
      unfold span_begin
      simp only [hh, if_false]
    have hqh : ¬ (span_begin d / 16 ≤ d.reverse_start_) := by omega
    have hm : span_begin d % 16 = d.front_offset_ := by omega
    simp only [hqh, if_false] at hla
    rw [hm] at hla
    by_cases hb : d.front_offset_ + 1 = 16
    · obtain ⟨h1, h2', hd, hd2, hu2, hu4⟩ :=
        destroy_Dealloc d.heap a d.front_offset_ _ hha hla
      unfold pop_front pop_front_body pop_finish
      simp only [hsz0, if_false, hvf, Option.bind_eq_bind, Option.some_bind, hh, hd,
        hb, if_true, hd2, Option.pure_def, Option.map_some', hsz1, Outcome.ofOption,
        kSubVectorSize]
      refine ⟨_, rfl, ?_⟩
      have hnh : ¬ (d.front_ptr_ind_ + 1 ≤ d.reverse_start_ + 1) := by omega
      refine span_drop_front_block S a h2 (by omega) hvf hu2 hu4 rfl rfl rfl rfl rfl ?_ ?_ ?_
        ?_ ?_ ?_
      · unfold span_begin
        simp only [hnh, hh, if_false]
        omega
      · intro sub hsub
        show sub ≤ d.reverse_start_ + 1 ↔ sub ≤ d.reverse_start_
        omega
      · show d.front_ptr_ind_ + 1 ≤ d.reverse_start_ + 1 + 1
        omega
      · show d.reverse_start_ + 1 < NumPtrs d
        omega
      · intro h
        exact absurd h hnh
      · intro _
        show (0 : Int) ≤ 0 ∧ (0 : Int) ≤ 15 ∧ d.reversed_size_ = 0
        omega
    · have hb2 : ¬ (d.front_offset_ + 1 = 16) := hb
      obtain ⟨h1, hd, hu2, hu4⟩ := destroy_upd d.heap a d.front_offset_ _ hha hla
      unfold pop_front pop_front_body pop_finish
      simp only [hsz0, if_false, hvf, Option.bind_eq_bind, Option.some_bind, hh, hd,
        hb2, kSubVectorSize, Option.pure_def, Option.map_some', hsz1, Outcome.ofOption]
      refine ⟨_, rfl, ?_⟩
      refine span_drop_front_keep S a h2 hva hu2 ?_ rfl rfl rfl rfl rfl rfl ?_ ?_ ?_
      · simp only [hqh, if_false]
        rw [hm]
        exact hu4
      · unfold span_begin
        simp only [hh, if_false]
        omega
      · intro h
        exact absurd h hh
      · intro _
        show 0 ≤ d.front_offset_ + 1 ∧ d.front_offset_ + 1 ≤ 15 ∧ d.reversed_size_ = 0
        omega

/-! ### Iteration over the general layout -/

/-- The default-constructed deque holds the empty sequence. -/
theorem span_default (T : Type) : Span (Deque.default T) [] := by
  constructor
  · rfl
  · show (0 : Int) ≤ 0
    omega
  · show (0 : Int) ≤ -1 + 1
    omega
  · show (-1 : Int) < ((([] : List Ptr).length : Nat) : Int)
    simp
  · intro h
    change (0 : Int) ≤ -1 at h
    omega
  · intro _
    show (0 : Int) ≤ 0 ∧ (0 : Int) ≤ 15 ∧ (0 : Int) = 0
    omega
  · intro h
    change ((([] : List Ptr).length : Nat) : Int) - 1 > -1 at h
    simp at h
  · intro _
    show (0 : Int) ≤ 0 ∧ (0 : Int) ≤ 15 ∧ (0 : Int) = 0
    omega
  · rfl
  · intro _
    rfl
  · intro sub h1 h2
    change (0 : Int) ≤ sub at h1
    change sub < ((([] : List Ptr).length : Nat) : Int) at h2
    simp at h2
    omega
  · intro sub1 sub2 a h1 h2
    change (0 : Int) ≤ sub1 at h1
    change sub1 < ((([] : List Ptr).length : Nat) : Int) at h2
    simp at h2
    omega
  · intro i hi
    simp at hi

/-- In a deque holding `s`, `begin()` is the cursor at the first position. -/
theorem begin_span {T : Type} {d : Deque T} {s : List T} (S : Span d s) :
    begin_ d = cur d (span_begin d) := by
  unfold begin_ span_begin
  by_cases hfr : d.front_ptr_ind_ ≤ d.reverse_start_
  · obtain ⟨t1, t2, t3⟩ := S.head hfr
    simp only [hfr, if_true]
    have hv : (⟨d.ptrs_, d.reversed_size_ - 1, d.front_ptr_ind_, d.reverse_start_⟩ :
        iterator_template).valid := ⟨by show 0 ≤ d.reversed_size_ - 1; omega,
          by show d.reversed_size_ - 1 < 16; omega⟩
    rw [eq_cur d _ hv rfl rfl]
    congr 1
    simp only [iterator_template.lin, hfr, if_true]
    omega
  · obtain ⟨t1, t2, t3⟩ := S.nohead hfr
    simp only [hfr, if_false]
    have hv : (⟨d.ptrs_, d.front_offset_, d.front_ptr_ind_, d.reverse_start_⟩ :
        iterator_template).valid := ⟨by show 0 ≤ d.front_offset_; omega,
          by show d.front_offset_ < 16; omega⟩
    rw [eq_cur d _ hv rfl rfl]
    congr 1
    simp only [iterator_template.lin, hfr, if_false]

/-- In a deque holding `s`, `end()` is the cursor one past the last position. -/
theorem end_span {T : Type} {d : Deque T} {s : List T} (S : Span d s) :
    end_ d = cur d (span_end d) := by
  have hrl := S.rst_lt
  unfold end_ span_end
  by_cases ht : NumPtrs d - 1 > d.reverse_start_
  · obtain ⟨t1, t2, t3⟩ := S.tail ht
    simp only [ht, if_true]
    have hv : (⟨d.ptrs_, d.back_size_ - 1, NumPtrs d - 1, d.reverse_start_⟩ :
        iterator_template).valid := ⟨by show 0 ≤ d.back_size_ - 1; omega,
          by show d.back_size_ - 1 < 16; omega⟩
    rw [eq_cur d _ hv rfl rfl, inc_cur]
    congr 1
    have : ¬ (NumPtrs d - 1 ≤ d.reverse_start_) := by omega
    simp only [iterator_template.lin, this, if_false]
    omega
  · obtain ⟨t1, t2, t3⟩ := S.notail ht
    simp only [ht, if_false]
    have hv : (⟨d.ptrs_, d.back_offset_, NumPtrs d - 1, d.reverse_start_⟩ :
        iterator_template).valid := ⟨by show 0 ≤ d.back_offset_; omega,
          by show d.back_offset_ < 16; omega⟩
    rw [eq_cur d _ hv rfl rfl, inc_cur]
    congr 1
    have : NumPtrs d - 1 ≤ d.reverse_start_ := by omega
    simp only [iterator_template.lin, this, if_true]
    omega

/-- Steps from the cursor at a logical position. -/
theorem inc_times_cur {T : Type} (d : Deque T) (k : Nat) :
    ∀ l : Int, (cur d l).inc_times k = cur d (l + k) := by
  induction k with
  | zero =>
    intro l
    simp [iterator_template.inc_times]
  | succ k ih =>
    intro l
    simp only [iterator_template.inc_times, inc_cur, ih]
    congr 1
    push_cast
    omega

/-- Forward iteration from position `j` of a deque holding `s` collects the elements from
index `j` on, as soon as the fuel exceeds their number. -/
theorem iterate_from_span {T : Type} {d : Deque T} {s : List T} (S : Span d s) :
    ∀ (k j fuel : Nat), j + k = s.length → k < fuel →
      iterate_from d fuel (cur d (span_begin d + j)) = some (some (s.drop j)) := by
  have hlen := S.len
  intro k
  induction k with
  | zero =>
    intro j fuel hj hf
    obtain ⟨f, rfl⟩ : ∃ f, fuel = f + 1 := ⟨fuel - 1, by omega⟩
    have hpos : span_begin d + (j : Int) = span_end d := by omega
    have he : (cur d (span_begin d + j)).eq (end_ d) = true := by
      rw [end_span S, cur_eq_iff]
      exact hpos
    have hd : s.drop j = [] := List.drop_eq_nil_of_le (by omega)
    simp only [iterate_from, he, if_true, hd]
  | succ k ih =>
    intro j fuel hj hf
    obtain ⟨f, rfl⟩ : ∃ f, fuel = f + 1 := ⟨fuel - 1, by omega⟩
    have hjl : j < s.length := by omega
    have he : ¬ ((cur d (span_begin d + j)).eq (end_ d) = true) := by
      rw [end_span S, cur_eq_iff]
      omega
    have hr := S.elems j hjl
    rw [List.getElem?_eq_getElem hjl] at hr
    have hn := ih (j + 1) f (by omega) (by omega)
    have hc : span_begin d + ((j + 1 : Nat) : Int) = span_begin d + j + 1 := by
      push_cast
      omega
    rw [hc] at hn
    rw [List.drop_eq_getElem_cons hjl]
    simp only [iterate_from, he, if_false, hr, inc_cur, hn, Option.map_some',
      Bool.false_eq_true]

/-- Forward iteration over a deque holding `s` yields `s`. -/
theorem iterate_span {T : Type} {d : Deque T} {s : List T} (S : Span d s) (fuel : Nat)
    (hf : s.length < fuel) : iterate fuel d = some (some s) := by
  have := iterate_from_span S s.length 0 fuel (by omega) hf
  unfold iterate
  rw [begin_span S]
  simpa using this

/-! ### Call sequences that never empty the deque -/

/-- The reference list grows by at most one element per call. -/
theorem ref_run_length {T : Type} (ops : List (Op T)) :
    ∀ l : List T, (ref_run l ops).length ≤ l.length + ops.length := by
  induction ops with
  | nil =>
    intro l
    simp [ref_run]
  | cons op ops ih =>
    intro l
    have := ih (op.ref l)
    have h2 : (op.ref l).length ≤ l.length + 1 := by
      cases op <;> simp [Op.ref] <;> omega
    simp only [ref_run, List.length_cons]
    omega

/-- A prefix of a call sequence that never empties the deque never empties it. -/
theorem never_emptied_take {T : Type} (ops : List (Op T)) :
    ∀ (l : List T) (k : Nat), never_emptied l ops = true →
      never_emptied l (ops.take k) = true := by
  induction ops with
  | nil =>
    intro l k h
    simp [never_emptied]
  | cons op ops ih =>
    intro l k h
    cases k with
    | zero => simp [never_emptied]
    | succ k =>
      simp only [never_emptied, Bool.and_eq_true] at h
      simp only [List.take_succ_cons, never_emptied, Bool.and_eq_true]
      exact ⟨h.1, ih _ k h.2⟩

/-- Every call of a sequence that never empties the deque returns (a pop on the empty deque
by throwing, with the deque unchanged), and the deque holds the reference list. -/
theorem run_span {T : Type} (ops : List (Op T)) :
    ∀ (d : Deque T) (s : List T), Span d s → never_emptied s ops = true →
      ∃ d1, run d ops = some d1 ∧ Span d1 (ref_run s ops) := by
  induction ops with
  | nil =>
    intro d s S _
    exact ⟨d, rfl, S⟩
  | cons op ops ih =>
    intro d s S hn
    simp only [never_emptied, Bool.and_eq_true, Bool.or_eq_true, Bool.not_eq_true',
      List.isEmpty_iff] at hn
    obtain ⟨hn1, hn2⟩ := hn
    cases op with
    | push_back v =>
      obtain ⟨d1, h1, S1, _⟩ := span_push_back S v
      obtain ⟨d2, h2, S2⟩ := ih d1 (s ++ [v]) S1 hn2
      refine ⟨d2, ?_, S2⟩
      simp only [run, Op.apply, h1]
      exact h2
    | push_front v =>
      obtain ⟨d1, h1, S1⟩ := span_push_front S v
      obtain ⟨d2, h2, S2⟩ := ih d1 (v :: s) S1 hn2
      refine ⟨d2, ?_, S2⟩
      simp only [run, Op.apply, h1]
      exact h2
    | pop_back =>
      by_cases hs : s = []
      · subst hs
        have hz : d.size_ = 0 := by simpa using S.size_eq
        obtain ⟨d2, h2, S2⟩ := ih d ([] : List T).dropLast (by simpa using S) hn2
        refine ⟨d2, ?_, S2⟩
        simp only [run, Op.apply, pop_back, hz, if_true]
        exact h2
      · have hl : 2 ≤ s.length := by
          rcases hn1 with h | h
          · exact absurd h hs
          · simp only [Op.ref] at h
            have hne : s.dropLast ≠ [] := by
              intro e
              rw [e] at h
              simp at h
            have := List.length_pos.mpr hne
            rw [List.length_dropLast] at this
            omega
        obtain ⟨d1, h1, S1, _⟩ := span_pop_back S (Or.inl hl)
        obtain ⟨d2, h2, S2⟩ := ih d1 s.dropLast S1 hn2
        refine ⟨d2, ?_, S2⟩
        simp only [run, Op.apply, h1]
        exact h2
    | pop_front =>
      by_cases hs : s = []
      · subst hs
        have hz : d.size_ = 0 := by simpa using S.size_eq
        obtain ⟨d2, h2, S2⟩ := ih d (([] : List T).drop 1) (by simpa using S) hn2
        refine ⟨d2, ?_, S2⟩
        simp only [run, Op.apply, pop_front, hz, if_true]
        exact h2
      · have hl : 2 ≤ s.length := by
          rcases hn1 with h | h
          · exact absurd h hs
          · simp only [Op.ref] at h
            have hne : s.drop 1 ≠ [] := by
              intro e
              rw [e] at h
              simp at h
            have := List.length_pos.mpr hne
            rw [List.length_drop] at this
            omega
        obtain ⟨d1, h1, S1⟩ := span_pop_front S hl
        obtain ⟨d2, h2, S2⟩ := ih d1 (s.drop 1) S1 hn2
        refine ⟨d2, ?_, S2⟩
        simp only [run, Op.apply, h1]
        exact h2

/-- C28: for every sequence of `push_back`, `push_front`, `pop_back` and `pop_front` calls on
a default-constructed deque in which the size never returns to 0 after the first push, after
each call (after the first `k` calls, for every `k`) all calls have returned, `size()` is the
length of the reference list `s`, the cursor reached from `begin()` by `j ≤ |s|` applications
of `operator++` equals `end()` exactly when `j == |s|`, dereferencing the cursor after
`j < |s|` steps reads `s[j]` from a live slot of a block of the directory, and forward
iteration yields `s`.  The number of calls is a value of the `int64_t` member `size_`. -/
theorem iteration_on_never_emptied {T : Type} (ops : List (Op T)) (k : Nat)
    (hne : never_emptied [] ops = true) (hsz : is_int64 (ops.length : Int)) :
    ∃ d, run (Deque.default T) (ops.take k) = some d ∧
      size d = ((ref_run [] (ops.take k)).length : Int) ∧
      (∀ j, j ≤ (ref_run [] (ops.take k)).length →
        (((begin_ d).inc_times j).eq (end_ d) = true ↔ j = (ref_run [] (ops.take k)).length)) ∧
      (∀ j, j < (ref_run [] (ops.take k)).length →
        ((begin_ d).inc_times j).read d.heap = (ref_run [] (ops.take k))[j]?) ∧
      ∀ fuel, (ref_run [] (ops.take k)).length < fuel →
        iterate fuel d = some (some (ref_run [] (ops.take k))) := by
  obtain ⟨d, hrun, S⟩ := run_span (ops.take k) (Deque.default T) [] (span_default T)
    (never_emptied_take ops [] k hne)
  have hlb := ref_run_length (ops.take k) ([] : List T)
  have hlk : (ops.take k).length ≤ ops.length := by
    rw [List.length_take]
    omega
  generalize ref_run [] (ops.take k) = s at S hlb ⊢
  have hlen := S.len
  refine ⟨d, hrun, ?_, ?_, ?_, fun fuel hf => iterate_span S fuel hf⟩
  · obtain ⟨h4, h5⟩ := hsz
    unfold size
    rw [S.size_eq]
    simp only [List.length_nil] at hlb
    omega
  · intro j hj
    rw [begin_span S, end_span S, inc_times_cur, cur_eq_iff]
    omega
  · intro j hj
    rw [begin_span S, inc_times_cur]
    exact S.elems j hj

/-- Witness for `iteration_on_never_emptied`: `push_back(1)`, `push_back(2)`,
`push_front(0)`, `pop_back()`, `pop_front()`, after all five calls. -/
theorem iteration_on_never_emptied_witness :
    never_emptied [] [Op.push_back 1, Op.push_back 2, Op.push_front 0, Op.pop_back,
      Op.pop_front] = true ∧
    is_int64 (([Op.push_back 1, Op.push_back 2, Op.push_front 0, Op.pop_back,
      Op.pop_front].length : Nat) : Int) ∧
    ∃ d, run (Deque.default Nat) [Op.push_back 1, Op.push_back 2, Op.push_front 0, Op.pop_back,
        Op.pop_front] = some d ∧
      size d = 1 ∧ (begin_ d).read d.heap = some 1 ∧
      ((begin_ d).inc_times 1).eq (end_ d) = true ∧ iterate 2 d = some (some [1]) := by
  refine ⟨by decide, by decide, ?_⟩
  obtain ⟨d, h1, h2, h3, h4, h5⟩ := iteration_on_never_emptied
    [Op.push_back 1, Op.push_back 2, Op.push_front 0, Op.pop_back, Op.pop_front] 5
    (by decide) (by decide)
  exact ⟨d, h1, h2, h4 0 (by decide), (h3 1 (by decide)).mpr rfl, h5 2 (by decide)⟩

/-! ### Calls at the back only -/

/-- A prefix of a call sequence with guarded pops has guarded pops. -/
theorem pops_guarded_take {T : Type} (ops : List (Op T)) :
    ∀ (l : List T) (k : Nat), pops_guarded l ops = true →
      pops_guarded l (ops.take k) = true := by
  induction ops with
  | nil =>
    intro l k h
    simp [pops_guarded]
  | cons op ops ih =>
    intro l k h
    cases k with
    | zero => simp [pops_guarded]
    | succ k =>
      simp only [pops_guarded, Bool.and_eq_true] at h
      simp only [List.take_succ_cons, pops_guarded, Bool.and_eq_true]
      exact ⟨h.1, ih _ k h.2⟩

/-- Every call of a sequence of `push_back` and guarded `pop_back` calls returns normally on
a deque that holds `s` in tail blocks only, and leaves such a deque holding the reference
list. -/
theorem run_back {T : Type} (ops : List (Op T)) :
    ∀ (d : Deque T) (s : List T), Span d s → d.front_ptr_ind_ = 0 → d.reverse_start_ = -1 →
      d.front_offset_ = 0 → (∀ op ∈ ops, op.is_back = true) → pops_guarded s ops = true →
      ∃ d1, run d ops = some d1 ∧ Span d1 (ref_run s ops) ∧ d1.front_ptr_ind_ = 0 ∧
        d1.reverse_start_ = -1 ∧ d1.front_offset_ = 0 := by
  induction ops with
  | nil =>
    intro d s S h1 h2 h3 _ _
    exact ⟨d, rfl, S, h1, h2, h3⟩
  | cons op ops ih =>
    intro d s S h1 h2 h3 hb hg
    have hop := hb op (List.mem_cons_self _ _)
    have hrest : ∀ o ∈ ops, o.is_back = true := fun o ho => hb o (List.mem_cons_of_mem _ ho)
    simp only [pops_guarded, Bool.and_eq_true] at hg
    obtain ⟨hg1, hg2⟩ := hg
    cases op with
    | push_back v =>
      obtain ⟨d1, e1, S1, f1, f2, f3⟩ := span_push_back S v
      obtain ⟨d2, e2, S2, g⟩ := ih d1 (s ++ [v]) S1 (f1.trans h1) (f2.trans h2) (f3.trans h3)
        hrest hg2
      refine ⟨d2, ?_, S2, g⟩
      simp only [run, Op.apply, e1]
      exact e2
    | pop_back =>
      have hs : s ≠ [] := by
        intro e
        rw [e] at hg1
        simp at hg1
      have hl := List.length_pos.mpr hs
      obtain ⟨hfn, _⟩ := S.nonempty hs
      have hc : 2 ≤ s.length ∨ (s.length = 1 ∧ d.front_ptr_ind_ = 0 ∧ d.reverse_start_ = -1 ∧
          d.front_offset_ = 0) := by
        by_cases h : 2 ≤ s.length
        · exact Or.inl h
        · exact Or.inr ⟨by omega, h1, h2, h3⟩
      obtain ⟨d1, e1, S1, fr⟩ := span_pop_back S hc
      obtain ⟨f1, f2, f3⟩ := fr (by omega)
      obtain ⟨d2, e2, S2, g⟩ := ih d1 s.dropLast S1 (f1.trans h1) (f2.trans h2) (f3.trans h3)
        hrest hg2
      refine ⟨d2, ?_, S2, g⟩
      simp only [run, Op.apply, e1]
      exact e2
    | push_front v => simp [Op.is_back] at hop
    | pop_front => simp [Op.is_back] at hop

/-- In a deque that holds `s` in tail blocks only, with nothing popped at the front, `at(i)`
returns `s[i]`. -/
theorem at_span_tail {T : Type} {d : Deque T} {s : List T} (S : Span d s)
    (h1 : d.front_ptr_ind_ = 0) (h2 : d.reverse_start_ = -1) (h3 : d.front_offset_ = 0)
    (i : Nat) (hi : i < s.length) : at_ d (i : Int) = Access.val s[i] := by
  have hnh : ¬ d.front_ptr_ind_ ≤ d.reverse_start_ := by omega
  obtain ⟨_, _, hrs⟩ := S.nohead hnh
  have hbeg : span_begin d = 0 := by
    unfold span_begin
    simp only [hnh, if_false]
    omega
  obtain ⟨a, hv, hh, hl⟩ := S.cell i hi
  rw [hbeg, zero_add] at hv hl
  have hq : ¬ ((i : Int) / 16 ≤ d.reverse_start_) := by omega
  simp only [hq, if_false] at hl
  have hd : (i : Int).tdiv kSubVectorSize = (i : Int) / 16 :=
    Int.tdiv_eq_ediv (by omega) (by decide)
  have hm : (i : Int).tmod kSubVectorSize = (i : Int) % 16 :=
    Int.tmod_eq_emod (by omega) (by decide)
  have hi0 : ¬ ((i : Int) < 0) := by omega
  have hge : ¬ ((i : Int) ≥ d.size_) := by
    rw [S.size_eq]
    omega
  simp only [at_, hge, or_self, if_false, Get, Get_loc, hrs, hi0, lt_irrefl, gt_iff_lt, h3,
    add_zero, hd, hm, h1, hq, hv, hl, Access.ofOption]

/-- C27: for every sequence of `push_back` and `pop_back` calls on a default-constructed
deque, each pop issued on a non-empty deque (the deque may become empty and be refilled any
number of times), after each call (after the first `k` calls, for every `k`) all calls have
returned, `size()` is the length of the reference list and `at(i)` returns its `i`-th
element for every `i` below it.  The number of calls is a value of the `int64_t` member
`size_`. -/
theorem back_calls_match_reference {T : Type} (ops : List (Op T)) (k : Nat)
    (hb : ∀ op ∈ ops, op.is_back = true) (hg : pops_guarded [] ops = true)
    (hsz : is_int64 (ops.length : Int)) :
    ∃ d, run (Deque.default T) (ops.take k) = some d ∧
      size d = ((ref_run [] (ops.take k)).length : Int) ∧
      ∀ i, i < (ref_run [] (ops.take k)).length →
        (some (at_ d (i : Int))) = ((ref_run [] (ops.take k))[i]?).map Access.val := by
  obtain ⟨d, hrun, S, f1, f2, f3⟩ := run_back (ops.take k) (Deque.default T) []
    (span_default T) rfl rfl rfl (fun op ho => hb op (List.mem_of_mem_take ho))
    (pops_guarded_take ops [] k hg)
  have hlb := ref_run_length (ops.take k) ([] : List T)
  have hlk : (ops.take k).length ≤ ops.length := by
    rw [List.length_take]
    omega
  generalize ref_run [] (ops.take k) = s at S hlb ⊢
  refine ⟨d, hrun, ?_, ?_⟩
  · obtain ⟨h4, h5⟩ := hsz
    unfold size
    rw [S.size_eq]
    simp only [List.length_nil] at hlb
    omega
  · intro i hi
    rw [at_span_tail S f1 f2 f3 i hi, List.getElem?_eq_getElem hi]
    rfl

/-- Witness for `back_calls_match_reference`: `push_back(1)`, `pop_back()`, `push_back(2)`,
`push_back(3)`, after all four calls. -/
theorem back_calls_match_reference_witness :
    (∀ op ∈ [Op.push_back 1, Op.pop_back, Op.push_back 2, Op.push_back 3],
      op.is_back = true) ∧
    pops_guarded [] [Op.push_back 1, Op.pop_back, Op.push_back 2, Op.push_back 3] = true ∧
    is_int64 (([Op.push_back 1, Op.pop_back, Op.push_back 2, Op.push_back 3].length : Nat)
      : Int) ∧
    ∃ d, run (Deque.default Nat) [Op.push_back 1, Op.pop_back, Op.push_back 2, Op.push_back 3]
        = some d ∧
      size d = 2 ∧ at_ d 0 = Access.val 2 ∧ at_ d 1 = Access.val 3 := by
  refine ⟨by decide, by decide, by decide, ?_⟩
  obtain ⟨d, h1, h2, h3⟩ := back_calls_match_reference
    [Op.push_back 1, Op.pop_back, Op.push_back 2, Op.push_back 3] 4
    (by decide) (by decide) (by decide)
  have e0 := h3 0 (by decide)
  have e1 := h3 1 (by decide)
  exact ⟨d, h1, h2, Option.some.inj e0, Option.some.inj e1⟩

/-- Witness for `directory_reallocation_frame`: `push_front(9)` on the deque left by
`push_back(1)` and sixteen `push_front(7)`, whose directory has `m = 2` handles. -/
theorem directory_reallocation_frame_witness :
    1 ≤ full_head_beside_tail.ptrs_.length ∧ full_head_beside_tail.ptrs_.length = 2 ∧
    full_head_beside_tail.front_ptr_ind_ = 0 ∧
    ((full_head_beside_tail.front_offset_ = 0 ∧
        full_head_beside_tail.front_ptr_ind_ - 1 = full_head_beside_tail.reverse_start_) ∨
      (full_head_beside_tail.reversed_size_ = kSubVectorSize ∧
        full_head_beside_tail.front_ptr_ind_ ≤ full_head_beside_tail.reverse_start_)) ∧
    (0 ≤ full_head_beside_tail.front_offset_ ∧ full_head_beside_tail.front_offset_ ≤ 16) ∧
    ∃ d1, push_front full_head_beside_tail 9 = Outcome.ok d1 ∧
      d1.ptrs_.length = 2 * full_head_beside_tail.ptrs_.length ∧
      (∀ i, i < full_head_beside_tail.ptrs_.length →
        d1.ptrs_[i + full_head_beside_tail.ptrs_.length]? = full_head_beside_tail.ptrs_[i]?) ∧
      d1.reverse_start_
        = full_head_beside_tail.reverse_start_ + full_head_beside_tail.ptrs_.length ∧
      d1.front_ptr_ind_ = (full_head_beside_tail.ptrs_.length : Int) - 1 ∧
      (∃ a, full_head_beside_tail.heap.length ≤ a ∧
        d1.ptrs_[full_head_beside_tail.ptrs_.length - 1]? = some (some a) ∧
        held16 d1.heap a) ∧
      ∀ a, a < full_head_beside_tail.heap.length →
        d1.heap[a]? = full_head_beside_tail.heap[a]? :=
  ⟨by decide, by decide, by decide, by decide, by decide,
    directory_reallocation_frame full_head_beside_tail 9 (by decide) (by decide) (by decide)
      (by decide)⟩

/-- C31 (code defect): the loop bounds of the copy constructor ignore `front_offset_` and
`back_offset_`.  On the deque left by `push_front(1)`, `push_front(2)`, `pop_back()` (size 1, one
head block, `back_offset_ == 1`) the constructor visits slots 1 and 0 of block 0, two slots for
one element, and slot 0, below `back_offset_`, is not live: undefined behaviour.  On the deque
left by `push_back(1)`, `push_back(2)`, `push_back(3)`, `pop_front()`, `pop_front()` (size 1, one
tail block, `front_offset_ == 2`) it visits slots 0, 1, 2, of which 0 and 1, below
`front_offset_`, are not live: undefined behaviour.  On the deque left by `push_front(1)`,
`pop_front()`, `push_back(2)` (size 1, `front_ptr_ind_ == 1` with a directory of one entry) it
visits no slot and returns a copy of size 1 that holds no element. -/
theorem copy_constructor_ignores_offsets :
    ((run (Deque.default Nat) [.push_front 1, .push_front 2, .pop_back]).isSome = true ∧
      size head_popped_back = 1 ∧
      head_popped_back.front_ptr_ind_ = 0 ∧ head_popped_back.reverse_start_ = 0 ∧
      head_popped_back.ptrs_.length = 1 ∧ head_popped_back.back_offset_ = 1 ∧
      head_popped_back.copy_reads = [(0, 1), (0, 0)] ∧
      head_popped_back.copy_reads.map (live_at head_popped_back) = [true, false] ∧
      (Deque.copy head_popped_back).isUb = true) ∧
    ((run (Deque.default Nat)
        [.push_back 1, .push_back 2, .push_back 3, .pop_front, .pop_front]).isSome = true ∧
      size tail_popped_front_twice = 1 ∧
      tail_popped_front_twice.front_ptr_ind_ = 0 ∧ tail_popped_front_twice.reverse_start_ = -1 ∧
      tail_popped_front_twice.ptrs_.length = 1 ∧ tail_popped_front_twice.front_offset_ = 2 ∧
      tail_popped_front_twice.copy_reads = [(0, 0), (0, 1), (0, 2)] ∧
      tail_popped_front_twice.copy_reads.map (live_at tail_popped_front_twice)
        = [false, false, true] ∧
      (Deque.copy tail_popped_front_twice).isUb = true) ∧
    ((run (Deque.default Nat) [.push_front 1, .pop_front, .push_back 2]).isSome = true ∧
      size refilled_after_head = 1 ∧ live_slots refilled_after_head = 1 ∧
      refilled_after_head.front_ptr_ind_ = 1 ∧ refilled_after_head.ptrs_.length = 1 ∧
      refilled_after_head.copy_reads = [] ∧
      ((Deque.copy refilled_after_head).state?).map (fun c => (size c, live_slots c))
        = some (1, 0)) := by
  refine ⟨⟨by decide, by decide, by decide, by decide, by decide, by decide, by decide,
    by decide, by decide⟩, ⟨by decide, by decide, by decide, by decide, by decide, by decide,
    by decide, by decide, by decide⟩, ⟨by decide, by decide, by decide, by decide, by decide,
    by decide, by decide⟩⟩

end CppLibrary
